import Mathlib

/-!
# Verification of the MIR local-optimization passes

This development embeds the MIR optimization passes of the repository —
def-use analysis (`util/def_use.rs`), copy propagation
(`transform/copy_prop.rs`), the predecessor map
(`transform/predecessor_map.rs`), drop elision
(`transform/remove_drops.rs`) and temporary forwarding
(`transform/tmp_forward.rs`) — as executable Lean definitions, and proves
(or refutes) the behavioural properties stated in the specification.

Two IR models are used, mirroring the two compiler eras the source files
are written against:

* `CP`: the `rustc::mir` model used by `copy_prop.rs` / `def_use.rs`
  (unified `Local` table with kinds, `Place`, `StorageLive`/`StorageDead`
  statements, `PlaceContext`).  The `rustc::mir` support crate itself is
  not part of the repository sources, so these data types and the visitor
  traversal order are modelled from the specification's data model (§3)
  and the way the passes use them.
* `RD`: the older `rustc::mir::repr` model used by `remove_drops.rs`,
  `predecessor_map.rs` and `tmp_forward.rs` (`Lvalue` with separate
  `Var`/`Temp`/`Arg` index spaces, a single `Assign` statement kind,
  `If`/`Switch` terminators).  Likewise modelled from the specification
  where the support crate is missing.

Machine integers (`u32`, `usize`) are modelled as `Nat`: none of the
verified code paths perform arithmetic that can overflow (they only count
occurrences and index vectors).
-/

namespace CP

/-- Local storage slots are identified by a dense index into the
declaration table (`mir.local_decls`). -/
abbrev Local := Nat

/-- Modelled from the spec: the kind tag of a local slot (`LocalKind` in
`rustc::mir`, queried by `mir.local_kind` in `copy_prop.rs`). -/
inductive LocalKind where
  | arg
  | temp
  | var
  | ret
deriving DecidableEq, Repr

/-- Modelled from the spec: a place is a bare local or a local with a
projection; the analyses treat bare locals specially, so one level of
field projection suffices to represent "local inside a projected place". -/
inductive Place where
  | local (l : Local)
  | proj (l : Local) (f : Nat)
deriving DecidableEq, Repr

/-- Modelled from the spec: literal constants; the passes never inspect a
constant's payload, so a `Nat` tag is enough to distinguish literals. -/
abbrev Constant := Nat

/-- Modelled from the spec: operands (`Operand` in `rustc::mir`). -/
inductive Operand where
  | copy (p : Place)
  | move (p : Place)
  | constant (c : Constant)
deriving DecidableEq, Repr

/-- Modelled from the spec: rvalue shapes.  `use_` is the shape
`copy_prop.rs` matches on; the others make "dest used other than as a
bare operand" representable (borrow, binary operand, cast). -/
inductive Rvalue where
  | use_ (op : Operand)
  | ref (p : Place)
  | binaryOp (a b : Operand)
  | cast (op : Operand)
deriving DecidableEq, Repr

/-- Modelled from the spec: statements (`StatementKind`). -/
inductive Statement where
  | assign (p : Place) (rv : Rvalue)
  | storageLive (l : Local)
  | storageDead (l : Local)
  | nop
deriving DecidableEq, Repr

/-- Modelled from the spec: terminators. -/
inductive Terminator where
  | ret
  | goto (target : Nat)
  | switchInt (discr : Operand) (targets : List Nat)
  | dropTerm (p : Place) (target : Nat) (unwind : Option Nat)
  | call (func : Operand) (args : List Operand) (dest : Option (Place × Nat))
deriving DecidableEq, Repr

structure BasicBlock where
  statements : List Statement
  terminator : Terminator
deriving DecidableEq, Repr

structure Mir where
  localDecls : List LocalKind
  basicBlocks : List BasicBlock
deriving DecidableEq, Repr

/-- A program-point location: block index plus position in the block;
`statementIndex = statements.length` denotes the terminator, matching the
`basic_block.statements.get(statement_index) == None` convention of
`copy_prop.rs`. -/
structure Location where
  block : Nat
  statementIndex : Nat
deriving DecidableEq, Repr

/-- Modelled from the spec: the occurrence contexts of `PlaceContext` in
`rustc::mir::visit` that the def-use analysis distinguishes. -/
inductive PlaceContext where
  | store
  | projMut
  | copyOp
  | moveOp
  | borrow
  | projRead
  | sLive
  | sDead
  | dropCtx
  | callDest
deriving DecidableEq, Repr

namespace PlaceContext

/-- `PlaceContext::is_mutating_use`. -/
def isMutatingUse : PlaceContext → Bool
  | store => true
  | projMut => true
  | dropCtx => true
  | callDest => true
  | _ => false

/-- `PlaceContext::is_nonmutating_use`. -/
def isNonmutatingUse : PlaceContext → Bool
  | copyOp => true
  | moveOp => true
  | borrow => true
  | projRead => true
  | _ => false

/-- `PlaceContext::is_use`. -/
def isUse (c : PlaceContext) : Bool :=
  c.isMutatingUse || c.isNonmutatingUse

/-- `PlaceContext::is_drop`. -/
def isDrop : PlaceContext → Bool
  | dropCtx => true
  | _ => false

/-- `PlaceContext::is_storage_marker`. -/
def isStorageMarker : PlaceContext → Bool
  | sLive => true
  | sDead => true
  | _ => false

end PlaceContext

/-- One recorded occurrence (`Use` in `def_use.rs`): a context and a
location. -/
structure UseRec where
  context : PlaceContext
  location : Location
deriving DecidableEq, Repr

/-- The base local of a place (the local the visitor reports when it
descends into the place). -/
def Place.baseLocal : Place → Local
  | .local l => l
  | .proj l _ => l

/-- The context under which the base local of a place is recorded: a bare
local keeps the outer context, a projected local is recorded with a
projection context whose mutability follows the outer context. -/
def placeOccCtx (p : Place) (outer : PlaceContext) : PlaceContext :=
  match p with
  | .local _ => outer
  | .proj _ _ => if outer.isMutatingUse then .projMut else .projRead

/-- The `(local, context)` pair contributed by visiting place `p` under
outer context `outer`. -/
def placeOcc (p : Place) (outer : PlaceContext) : Local × PlaceContext :=
  (p.baseLocal, placeOccCtx p outer)

/-- Occurrences contributed by an operand, in visitor order. -/
def operandOccs : Operand → List (Local × PlaceContext)
  | .copy p => [placeOcc p .copyOp]
  | .move p => [placeOcc p .moveOp]
  | .constant _ => []

/-- Occurrences contributed by an rvalue, in visitor order. -/
def rvalueOccs : Rvalue → List (Local × PlaceContext)
  | .use_ op => operandOccs op
  | .ref p => [placeOcc p .borrow]
  | .binaryOp a b => operandOccs a ++ operandOccs b
  | .cast op => operandOccs op

/-- Occurrences contributed by a statement, in visitor order (place of an
assignment first, then its rvalue). -/
def statementOccs : Statement → List (Local × PlaceContext)
  | .assign p rv => placeOcc p .store :: rvalueOccs rv
  | .storageLive l => [(l, .sLive)]
  | .storageDead l => [(l, .sDead)]
  | .nop => []

/-- Occurrences contributed by a terminator, in visitor order. -/
def terminatorOccs : Terminator → List (Local × PlaceContext)
  | .ret => []
  | .goto _ => []
  | .switchInt discr _ => operandOccs discr
  | .dropTerm p _ _ => [placeOcc p .dropCtx]
  | .call f args dest =>
      operandOccs f ++ args.flatMap operandOccs ++
        (match dest with
         | some (p, _) => [placeOcc p .callDest]
         | none => [])

/-- `DefUseAnalysis`: per-local lists of recorded occurrences
(`IndexVec<Local, Info>` in `def_use.rs`). -/
structure DefUseAnalysis where
  info : List (List UseRec)
deriving DecidableEq, Repr

namespace DefUseAnalysis

def localInfo (a : DefUseAnalysis) (l : Local) : List UseRec :=
  a.info.getD l []

/-- Push one occurrence record onto local `l`'s list. -/
def pushRec (a : DefUseAnalysis) (l : Local) (r : UseRec) : DefUseAnalysis :=
  ⟨a.info.set l (a.info.getD l [] ++ [r])⟩

end DefUseAnalysis

/-- Append the occurrences of one block (statements in order, then the
terminator) to an analysis, recording locations. -/
def analyzeBlock (b : Nat) (bb : BasicBlock) (a : DefUseAnalysis) : DefUseAnalysis :=
  let a1 := bb.statements.enum.foldl
    (fun acc si =>
      (statementOccs si.2).foldl
        (fun acc2 oc => acc2.pushRec oc.1 ⟨oc.2, ⟨b, si.1⟩⟩) acc)
    a
  (terminatorOccs bb.terminator).foldl
    (fun acc oc => acc.pushRec oc.1 ⟨oc.2, ⟨b, bb.statements.length⟩⟩) a1

/-- `DefUseAnalysis::analyze`: a full traversal of every statement and
terminator, producing per-local occurrence lists in traversal order. -/
def analyze (m : Mir) : DefUseAnalysis :=
  m.basicBlocks.enum.foldl
    (fun acc bi => analyzeBlock bi.1 bi.2 acc)
    ⟨List.replicate m.localDecls.length []⟩

/-- `Info::def_count`. -/
def defCount (recs : List UseRec) : Nat :=
  (recs.filter (fun r => r.context.isMutatingUse)).length

/-- `Info::def_count_not_including_drop`. -/
def defCountNotIncludingDrop (recs : List UseRec) : Nat :=
  (recs.filter (fun r => r.context.isMutatingUse && !r.context.isDrop)).length

/-- `Info::defs_not_including_drop` (as a list, in record order). -/
def defsNotIncludingDrop (recs : List UseRec) : List UseRec :=
  recs.filter (fun r => r.context.isMutatingUse && !r.context.isDrop)

/-- `Info::use_count`. -/
def useCount (recs : List UseRec) : Nat :=
  (recs.filter (fun r => r.context.isNonmutatingUse)).length

/-! ## Mir accessors and statement nopping -/

def emptyBlock : BasicBlock := ⟨[], .ret⟩

def getBlock (m : Mir) (b : Nat) : BasicBlock :=
  m.basicBlocks.getD b emptyBlock

def setBlock (m : Mir) (b : Nat) (bb : BasicBlock) : Mir :=
  ⟨m.localDecls, m.basicBlocks.set b bb⟩

/-- The statement at a location; `none` when the location denotes the
terminator (index out of the statement list). -/
def statementAt (m : Mir) (loc : Location) : Option Statement :=
  (getBlock m loc.block).statements.get? loc.statementIndex

/-- `Mir::make_statement_nop` — replace the statement at a location by
`Nop` in place (block shape preserved). -/
def makeStatementNop (m : Mir) (loc : Location) : Mir :=
  let bb := getBlock m loc.block
  setBlock m loc.block ⟨bb.statements.set loc.statementIndex .nop, bb.terminator⟩

/-! ## The mutating visitor (`MutateUseVisitor` of `def_use.rs`)

`replace_all_defs_and_uses_with(local, mir, new_place)` re-visits each
recorded occurrence location of `local`.  At each place whose (possibly
projected) base equals `local` and whose context is a use, the visitor

* first (in its `add = Some(false)` phase) removes the matching
  `Use { context, location }` record from `local`'s own list — the
  removal callback only fires for locals equal to the query;
* rewrites the place (or projection base) to `new_place`;
* then (in its `add = Some(true)` phase) re-visits the rewritten place;
  since the addition callback is likewise guarded by `*local ==
  self.query`, a record is (re-)added only when `new_place`'s base local
  is the query itself — for any other replacement the new local's list
  gains nothing. -/

/-- Remove the first record equal to `r` (`Vec::remove_item`). -/
def DefUseAnalysis.removeRec (a : DefUseAnalysis) (l : Local) (r : UseRec) :
    DefUseAnalysis :=
  ⟨a.info.set l ((a.info.getD l []).erase r)⟩

/-- One place position of the visited IR node: the rewrite and the
analysis bookkeeping performed by `MutateUseVisitor::visit_place` /
`visit_local` at that position. -/
def mutatePosition (query : Local) (np : Place) (loc : Location)
    (p : Place) (ctx : PlaceContext) (a : DefUseAnalysis) :
    Place × DefUseAnalysis :=
  if p = Place.local query ∧ ctx.isUse then
    let a1 := a.removeRec query ⟨ctx, loc⟩
    let a2 := if np.baseLocal = query
      then a1.pushRec query ⟨placeOccCtx np ctx, loc⟩ else a1
    (np, a2)
  else
    match p with
    | .proj l f =>
        let pctx : PlaceContext :=
          if ctx.isMutatingUse then .projMut else .projRead
        if l = query then
          let a1 := a.removeRec query ⟨pctx, loc⟩
          -- the projection base is rewritten to `new_place`; the pass only
          -- ever substitutes a bare local here
          let newP := match np with
            | .local s => Place.proj s f
            | .proj _ _ => np
          let a2 := if np.baseLocal = query
            then a1.pushRec query ⟨placeOccCtx np pctx, loc⟩ else a1
          (newP, a2)
        else (p, a)
    | _ => (p, a)

def mutateOperand (query : Local) (np : Place) (loc : Location)
    (op : Operand) (a : DefUseAnalysis) : Operand × DefUseAnalysis :=
  match op with
  | .copy p =>
      let (p', a') := mutatePosition query np loc p .copyOp a
      (.copy p', a')
  | .move p =>
      let (p', a') := mutatePosition query np loc p .moveOp a
      (.move p', a')
  | .constant c => (.constant c, a)

def mutateRvalue (query : Local) (np : Place) (loc : Location)
    (rv : Rvalue) (a : DefUseAnalysis) : Rvalue × DefUseAnalysis :=
  match rv with
  | .use_ op =>
      let (op', a') := mutateOperand query np loc op a
      (.use_ op', a')
  | .ref p =>
      let (p', a') := mutatePosition query np loc p .borrow a
      (.ref p', a')
  | .binaryOp x y =>
      let (x', a1) := mutateOperand query np loc x a
      let (y', a2) := mutateOperand query np loc y a1
      (.binaryOp x' y', a2)
  | .cast op =>
      let (op', a') := mutateOperand query np loc op a
      (.cast op', a')

def mutateStatement (query : Local) (np : Place) (loc : Location)
    (s : Statement) (a : DefUseAnalysis) : Statement × DefUseAnalysis :=
  match s with
  | .assign p rv =>
      let (p', a1) := mutatePosition query np loc p .store a
      let (rv', a2) := mutateRvalue query np loc rv a1
      (.assign p' rv', a2)
  | s => (s, a)

def mutateTerminator (query : Local) (np : Place) (loc : Location)
    (t : Terminator) (a : DefUseAnalysis) : Terminator × DefUseAnalysis :=
  match t with
  | .ret => (t, a)
  | .goto _ => (t, a)
  | .switchInt discr targets =>
      let (discr', a') := mutateOperand query np loc discr a
      (.switchInt discr' targets, a')
  | .dropTerm p tgt uw =>
      let (p', a') := mutatePosition query np loc p .dropCtx a
      (.dropTerm p' tgt uw, a')
  | .call f args dest =>
      let (f', a1) := mutateOperand query np loc f a
      let (args', a2) := args.foldr
        (fun arg acc =>
          let (arg', a') := mutateOperand query np loc arg acc.2
          (arg' :: acc.1, a'))
        ([], a1)
      match dest with
      | some (p, bbn) =>
          let (p', a3) := mutatePosition query np loc p .callDest a2
          (.call f' args' (some (p', bbn)), a3)
      | none => (.call f' args' none, a2)

/-- `visit_location`: rewrite the statement or terminator at `loc`. -/
def mutateLocation (query : Local) (np : Place) (loc : Location)
    (st : Mir × DefUseAnalysis) : Mir × DefUseAnalysis :=
  let (m, a) := st
  let bb := getBlock m loc.block
  if h : loc.statementIndex < bb.statements.length then
    let (s', a') :=
      mutateStatement query np loc (bb.statements.get ⟨loc.statementIndex, h⟩) a
    (setBlock m loc.block ⟨bb.statements.set loc.statementIndex s', bb.terminator⟩, a')
  else
    let (t', a') := mutateTerminator query np loc bb.terminator a
    (setBlock m loc.block ⟨bb.statements, t'⟩, a')

/-- `DefUseAnalysis::replace_all_defs_and_uses_with` (via
`mutate_defs_and_uses`): visit a clone of the recorded occurrence list. -/
def replaceAllDefsAndUsesWith (query : Local) (np : Place)
    (m : Mir) (a : DefUseAnalysis) : Mir × DefUseAnalysis :=
  (a.localInfo query).foldl
    (fun st r => mutateLocation query np r.location st) (m, a)

/-! ## Copy propagation (`copy_prop.rs`) -/

inductive Action where
  | propagateLocalCopy (src : Local)
  | propagateConstant (c : Constant)
deriving DecidableEq, Repr

def localKind (m : Mir) (l : Local) : Option LocalKind :=
  m.localDecls.get? l

/-- `Action::local_copy`: source-side eligibility for the local-copy
case. -/
def Action.localCopy (m : Mir) (a : DefUseAnalysis) (srcPlace : Place) :
    Option Action :=
  match srcPlace with
  | .proj _ _ => none
  | .local srcLocal =>
    let srcInfo := a.localInfo srcLocal
    let srcUseCount := useCount srcInfo
    if srcUseCount = 0 then none
    else if srcUseCount ≠ 1 then none
    else
      let srcDefCount := defCountNotIncludingDrop srcInfo
      let isArg := localKind m srcLocal = some .arg
      if (isArg ∧ srcDefCount ≠ 0) ∨ (¬ isArg ∧ srcDefCount ≠ 1) then none
      else some (.propagateLocalCopy srcLocal)

/-- The candidate-selection part of `CopyPropagation::run_pass` for a
single destination local: returns the action to perform and the location
of the destination's single qualifying definition. -/
def considerLocal (m : Mir) (a : DefUseAnalysis) (destLocal : Local) :
    Option (Action × Location) :=
  let destInfo := a.localInfo destLocal
  let destDefCount := defCountNotIncludingDrop destInfo
  if destDefCount = 0 then none
  else if destDefCount > 1 then none
  else if useCount destInfo = 0 then none
  else if localKind m destLocal = some .arg then none
  else
    match (defsNotIncludingDrop destInfo).head? with
    | none => none
    | some destPlaceDef =>
      let loc := destPlaceDef.location
      match statementAt m loc with
      | none => none   -- defined in a terminator
      | some s =>
        match s with
        | .assign (.local l) (.use_ op) =>
            if l = destLocal then
              match op with
              | .copy srcPlace => (Action.localCopy m a srcPlace).map (·, loc)
              | .move srcPlace => (Action.localCopy m a srcPlace).map (·, loc)
              | .constant c => some (.propagateConstant c, loc)
            else none
        | _ => none

/-- Nop out the storage markers among a list of records. -/
def nopStorageMarkers (recs : List UseRec) (m : Mir) : Mir :=
  recs.foldl
    (fun acc r =>
      if r.context.isStorageMarker then makeStatementNop acc r.location else acc)
    m

/-- The constant-propagation visitor on one operand: replace
`Copy(Place::Local(dest))` / `Move(Place::Local(dest))` by the constant,
counting replacements. -/
def constPropOperand (dest : Local) (c : Constant) (op : Operand) :
    Operand × Nat :=
  match op with
  | .copy (.local l) => if l = dest then (.constant c, 1) else (op, 0)
  | .move (.local l) => if l = dest then (.constant c, 1) else (op, 0)
  | _ => (op, 0)

def constPropRvalue (dest : Local) (c : Constant) (rv : Rvalue) :
    Rvalue × Nat :=
  match rv with
  | .use_ op =>
      let (op', n) := constPropOperand dest c op
      (.use_ op', n)
  | .ref p => (.ref p, 0)
  | .binaryOp x y =>
      let (x', nx) := constPropOperand dest c x
      let (y', ny) := constPropOperand dest c y
      (.binaryOp x' y', nx + ny)
  | .cast op =>
      let (op', n) := constPropOperand dest c op
      (.cast op', n)

def constPropStatement (dest : Local) (c : Constant) (s : Statement) :
    Statement × Nat :=
  match s with
  | .assign p rv =>
      let (rv', n) := constPropRvalue dest c rv
      (.assign p rv', n)
  | s => (s, 0)

def constPropTerminator (dest : Local) (c : Constant) (t : Terminator) :
    Terminator × Nat :=
  match t with
  | .switchInt discr targets =>
      let (discr', n) := constPropOperand dest c discr
      (.switchInt discr' targets, n)
  | .call f args dst =>
      let (f', nf) := constPropOperand dest c f
      let (args', na) := args.foldr
        (fun arg acc =>
          let (arg', n) := constPropOperand dest c arg
          (arg' :: acc.1, n + acc.2))
        ([], 0)
      (.call f' args' dst, nf + na)
  | t => (t, 0)

/-- `ConstantPropagationVisitor` applied at one recorded location. -/
def constPropLocation (dest : Local) (c : Constant) (loc : Location)
    (st : Mir × Nat) : Mir × Nat :=
  let (m, replaced) := st
  let bb := getBlock m loc.block
  if h : loc.statementIndex < bb.statements.length then
    let (s', n) :=
      constPropStatement dest c (bb.statements.get ⟨loc.statementIndex, h⟩)
    (setBlock m loc.block ⟨bb.statements.set loc.statementIndex s', bb.terminator⟩,
     replaced + n)
  else
    let (t', n) := constPropTerminator dest c bb.terminator
    (setBlock m loc.block ⟨bb.statements, t'⟩, replaced + n)

/-- The constant-propagation visitor run over every recorded occurrence
location of the destination, counting the replaced uses. -/
def constPropApply (dest : Local) (c : Constant) (recs : List UseRec)
    (m : Mir) : Mir × Nat :=
  recs.foldl (fun st r => constPropLocation dest c r.location st) (m, 0)

/-- `Action::perform`, returning the mutated body, the mutated analysis
and the `changed` flag fed back to the driver loop. -/
def Action.perform (act : Action) (m : Mir) (a : DefUseAnalysis)
    (destLocal : Local) (loc : Location) : Mir × DefUseAnalysis × Bool :=
  match act with
  | .propagateLocalCopy srcLocal =>
      let m1 := nopStorageMarkers (a.localInfo destLocal) m
      let m2 := nopStorageMarkers (a.localInfo srcLocal) m1
      let (m3, a3) := replaceAllDefsAndUsesWith destLocal (.local srcLocal) m2 a
      let m4 := makeStatementNop m3 loc
      (m4, a3, false)
  | .propagateConstant c =>
      let destInfo := a.localInfo destLocal
      let m1 := nopStorageMarkers destInfo m
      let (m2, replaced) := constPropApply destLocal c destInfo m1
      let uc := useCount destInfo
      if replaced = uc then (makeStatementNop m2 loc, a, true)
      else if replaced = 0 then (m2, a, false)
      else (m2, a, true)

/-- One full scan of all locals in index order (the body of the driver's
`loop`). -/
def copyPropIteration (m : Mir) (a : DefUseAnalysis) :
    Mir × DefUseAnalysis × Bool :=
  (List.range m.localDecls.length).foldl
    (fun st destLocal =>
      let (m, a, changed) := st
      match considerLocal m a destLocal with
      | none => (m, a, changed)
      | some (act, loc) =>
          let (m', a', flag) := act.perform m a destLocal loc
          (m', a', flag || changed))
    (m, a, false)

/-- The driver `loop` of `CopyPropagation::run_pass`: iterate the scan on
the analysis handed over from the previous iteration until a scan reports
no change. -/
def copyPropLoop : Nat → DefUseAnalysis → Mir → Mir
  | 0, _, m => m
  | fuel + 1, a, m =>
      let (m', a', changed) := copyPropIteration m a
      if changed then copyPropLoop fuel a' m' else m'

/-- The number of `Copy`/`Move` operands in the body: an upper bound on
the number of `changed` iterations of the driver (each reported change
replaces at least one such operand by a constant). -/
def numCopyMoveOps (m : Mir) : Nat :=
  m.basicBlocks.foldl
    (fun acc bb =>
      acc +
        (bb.statements.foldl (fun n s => n + (statementOccs s).length) 0) +
        (terminatorOccs bb.terminator).length)
    0

/-- `CopyPropagation::run_pass`: the analysis is built once, before the
loop; iterations reuse the (partially updated, possibly stale) analysis. -/
def copyPropagation (m : Mir) : Mir :=
  copyPropLoop (numCopyMoveOps m + 2) (analyze m) m

/-- Modelled from the spec: the driver as the specification states it —
`analyze` is re-run once per full outer iteration, before that
iteration's scan, and an iteration counts as changed when it performed
any rewrite (a local-copy substitution is a rewrite). -/
def copyPropIterationSpec (m : Mir) : Mir × Bool :=
  let st := (List.range m.localDecls.length).foldl
    (fun st destLocal =>
      let (m, a, changed) := st
      match considerLocal m a destLocal with
      | none => (m, a, changed)
      | some (act, loc) =>
          let (m', a', _) := act.perform m a destLocal loc
          (m', a', true))
    (m, analyze m, false)
  (st.1, st.2.2)

/-- Modelled from the spec: fixed-point driver over the per-iteration
fresh-analysis scan. -/
def copyPropagationSpecLoop : Nat → Mir → Mir
  | 0, m => m
  | fuel + 1, m =>
      let (m', changed) := copyPropIterationSpec m
      if changed then copyPropagationSpecLoop fuel m' else m'

def copyPropagationSpec (m : Mir) : Mir :=
  copyPropagationSpecLoop (numCopyMoveOps m + 2) m

/-! ## Symbolic evaluation

Modelled from the spec (§8): "running Copy-Propagation and then
evaluating B symbolically on any input yields the same observable result
as before the rewrite".  Values are symbolic terms over the (arbitrary)
argument values; the observable result of a body is the value of its
return slot at `Return`, or `none` when evaluation reads an undefined
slot or leaves the modelled fragment. -/

inductive Val where
  | argv (n : Nat)
  | lit (c : Nat)
  | binv (a b : Val)
  | castv (a : Val)
  | refv (a : Val)
deriving DecidableEq, Repr

/-- The evaluation state: one optional value per local. -/
abbrev EvalState := List (Option Val)

/-- Arguments are pre-initialized by the caller (symbolically, to
`argv i`); every other local starts undefined. -/
def initState (m : Mir) : EvalState :=
  m.localDecls.enum.map (fun ik => if ik.2 = LocalKind.arg then some (.argv ik.1) else none)

def readPlace (σ : EvalState) : Place → Option Val
  | .local l => σ.getD l none
  | .proj _ _ => none

def writePlace (σ : EvalState) (p : Place) (v : Val) : Option EvalState :=
  match p with
  | .local l => some (σ.set l (some v))
  | .proj _ _ => none

def evalOperand (σ : EvalState) : Operand → Option Val
  | .copy p => readPlace σ p
  | .move p => readPlace σ p
  | .constant c => some (.lit c)

def evalRvalue (σ : EvalState) : Rvalue → Option Val
  | .use_ op => evalOperand σ op
  | .ref p => (readPlace σ p).map .refv
  | .binaryOp x y => do pure (.binv (← evalOperand σ x) (← evalOperand σ y))
  | .cast op => (evalOperand σ op).map .castv

def execStatement (σ : EvalState) : Statement → Option EvalState
  | .assign p rv => do writePlace σ p (← evalRvalue σ rv)
  | .storageLive _ => some σ
  | .storageDead _ => some σ
  | .nop => some σ

/-- The index of the return slot. -/
def retLocal (m : Mir) : Option Local :=
  (m.localDecls.enum.find? (fun ik => ik.2 = LocalKind.ret)).map (·.1)

def evalFrom (m : Mir) : Nat → Nat → EvalState → Option Val
  | 0, _, _ => none
  | fuel + 1, b, σ =>
      let bb := getBlock m b
      match bb.statements.foldl (fun acc s => acc.bind (execStatement · s)) (some σ) with
      | none => none
      | some σ' =>
          match bb.terminator with
          | .ret => (retLocal m).bind (fun r => σ'.getD r none)
          | .goto t => evalFrom m fuel t σ'
          | .dropTerm _ t _ => evalFrom m fuel t σ'
          | .switchInt _ _ => none
          | .call _ _ _ => none

/-- The observable result of symbolically evaluating a body from its
entry block on (symbolic) caller-supplied argument values. -/
def evalMir (m : Mir) : Option Val :=
  evalFrom m (m.basicBlocks.length + 1) 0 (initState m)

/-! ## Concrete bodies exercising the pass -/

/-- `bb0: tmp1 = Copy(a); tmp2 = Copy(tmp1); r = Copy(tmp2); Return` with
local indices `0 = tmp2 (Temp)`, `1 = tmp1 (Temp)`, `2 = r (ReturnSlot)`,
`3 = a (Argument)`; every temporary is single-def single-use. -/
def chainBody : Mir :=
  ⟨[.temp, .temp, .ret, .arg],
   [⟨[.assign (.local 1) (.use_ (.copy (.local 3))),
      .assign (.local 0) (.use_ (.copy (.local 1))),
      .assign (.local 2) (.use_ (.copy (.local 0)))],
     .ret⟩]⟩

/-- `bb0: d = Const 5; t = Copy(d); r = Copy(t); Return` with local
indices `0 = t (Temp)`, `1 = d (Temp)`, `2 = r (ReturnSlot)`. -/
def constChainBody : Mir :=
  ⟨[.temp, .temp, .ret],
   [⟨[.assign (.local 1) (.use_ (.constant 5)),
      .assign (.local 0) (.use_ (.copy (.local 1))),
      .assign (.local 2) (.use_ (.copy (.local 0)))],
     .ret⟩]⟩

end CP

namespace RD

/-- Modelled from the spec: lvalues of the `rustc::mir::repr` era, with
separate index spaces per local kind and projection chains. -/
inductive Lvalue where
  | var (n : Nat)
  | temp (n : Nat)
  | arg (n : Nat)
  | retPtr
  | proj (base : Lvalue) (f : Nat)
deriving DecidableEq, Repr

/-- Modelled from the spec: operands (`Operand::Consume` reads an lvalue,
`Operand::Constant` is a literal). -/
inductive Operand where
  | consume (lv : Lvalue)
  | constant (c : Nat)
deriving DecidableEq, Repr

/-- Modelled from the spec: the rvalue shapes distinguished by
`remove_drops.rs` (`Ref`/`Len`/`Box` carry no consumable operand there;
`Slice` is omitted — it is treated identically to `Box` by the pass). -/
inductive Rvalue where
  | use_ (op : Operand)
  | ref (lv : Lvalue)
  | len (lv : Lvalue)
  | boxAlloc
  | cast (op : Operand)
  | unaryOp (op : Operand)
  | binaryOp (a b : Operand)
  | repeatOp (op : Operand)
  | aggregate (ops : List Operand)
  | inlineAsm (outputs : List Lvalue) (inputs : List Operand)
deriving DecidableEq, Repr

/-- In this era `StatementKind` has the single variant `Assign` (the
sources destructure it with an irrefutable `let`). -/
structure Statement where
  lhs : Lvalue
  rhs : Rvalue
deriving DecidableEq, Repr

inductive TerminatorKind where
  | goto (target : Nat)
  | ifT (cond : Operand) (thenBb elseBb : Nat)
  | switch (discr : Lvalue) (targets : List Nat)
  | switchInt (discr : Lvalue) (targets : List Nat)
  | resume
  | ret
  | drop (value : Lvalue) (target : Nat) (unwind : Option Nat)
  | call (func : Operand) (args : List Operand) (dest : Option (Lvalue × Nat))
      (cleanup : Option Nat)
deriving DecidableEq, Repr

structure BasicBlockData where
  statements : List Statement
  terminator : TerminatorKind
deriving DecidableEq, Repr

/-- The function body of this era: `temp_decls` (declaration payloads are
opaque; a `Nat` tag keeps them distinguishable) plus the blocks.  The
`var`/`arg` declaration tables play no role in the verified passes and
are omitted. -/
structure Mir where
  tempDecls : List Nat
  basicBlocks : List BasicBlockData
deriving DecidableEq, Repr

def emptyBlockData : BasicBlockData := ⟨[], .ret⟩

def getBlockData (m : Mir) (b : Nat) : BasicBlockData :=
  m.basicBlocks.getD b emptyBlockData

def setTerminator (m : Mir) (b : Nat) (t : TerminatorKind) : Mir :=
  ⟨m.tempDecls,
   m.basicBlocks.set b ⟨(getBlockData m b).statements, t⟩⟩

/-- The successor edges of a terminator, in visitor (`visit_branch`)
order. -/
def TerminatorKind.successors : TerminatorKind → List Nat
  | .goto t => [t]
  | .ifT _ t e => [t, e]
  | .switch _ ts => ts
  | .switchInt _ ts => ts
  | .resume => []
  | .ret => []
  | .drop _ t u => t :: u.toList
  | .call _ _ dest cleanup =>
      (match dest with | some (_, b) => [b] | none => []) ++ cleanup.toList

/-! ## Predecessor map (`predecessor_map.rs`) -/

/-- Per-block predecessor lists; duplicates kept (a multi-way branch that
targets the same block twice records it twice). -/
structure PredecessorMap where
  map : List (List Nat)
deriving DecidableEq, Repr

def PredecessorMap.predecessors (pm : PredecessorMap) (b : Nat) : List Nat :=
  pm.map.getD b []

def PredecessorMap.addPredecessor (pm : PredecessorMap) (block pred : Nat) :
    PredecessorMap :=
  ⟨pm.map.set block (pm.map.getD block [] ++ [pred])⟩

/-- `build_predecessor_map`: one full traversal recording each edge of
every terminator's successor list. -/
def buildPredecessorMap (m : Mir) : PredecessorMap :=
  m.basicBlocks.enum.foldl
    (fun pm bi =>
      bi.2.terminator.successors.foldl
        (fun pm t => pm.addPredecessor t bi.1) pm)
    ⟨List.replicate m.basicBlocks.length []⟩

/-! ## Drop elision (`remove_drops.rs`) -/

def operandIsDroppee (droppee : Lvalue) : Operand → Bool
  | .consume c => c = droppee
  | .constant _ => false

/-- The result of inspecting one statement in the backward scan. -/
inductive ScanRes where
  | abort
  | satisfied
  | fallthrough
deriving DecidableEq, Repr

/-- One statement of the reverse scan: an assignment to the droppee
aborts the whole search; a consuming read of the droppee in one of the
recognized rvalue shapes satisfies this branch; `Ref`/`Len`/`Box` are
ignored; an inline-asm output equal to the droppee aborts, an inline-asm
input consuming it satisfies. -/
def scanStatement (droppee : Lvalue) (s : Statement) : ScanRes :=
  if s.lhs = droppee then .abort
  else
    match s.rhs with
    | .ref _ => .fallthrough
    | .len _ => .fallthrough
    | .boxAlloc => .fallthrough
    | .cast op =>
        if operandIsDroppee droppee op then .satisfied else .fallthrough
    | .unaryOp op =>
        if operandIsDroppee droppee op then .satisfied else .fallthrough
    | .repeatOp op =>
        if operandIsDroppee droppee op then .satisfied else .fallthrough
    | .use_ op =>
        if operandIsDroppee droppee op then .satisfied else .fallthrough
    | .binaryOp a b =>
        if operandIsDroppee droppee a then .satisfied
        else if operandIsDroppee droppee b then .satisfied
        else .fallthrough
    | .aggregate ops =>
        if ops.any (operandIsDroppee droppee) then .satisfied else .fallthrough
    | .inlineAsm outs ins =>
        if outs.any (· = droppee) then .abort
        else if ins.any (operandIsDroppee droppee) then .satisfied
        else .fallthrough

/-- Scan a statement list (already reversed) for the first non-neutral
statement. -/
def scanStatements (droppee : Lvalue) : List Statement → ScanRes
  | [] => .fallthrough
  | s :: rest =>
      match scanStatement droppee s with
      | .fallthrough => scanStatements droppee rest
      | r => r

/-- The result of inspecting a block's terminator. -/
inductive TermRes where
  | abort
  | satisfied
  | throughStmts
deriving DecidableEq, Repr

/-- The terminator rules of the backward search: plain control transfers
fall through to the statement scan; a drop of the same value in another
block is a dead end for this branch; a call (re)defining the value aborts
everything; a call consuming the value among its arguments satisfies this
branch; any other call falls through to the statement scan. -/
def inspectTerminator (droppee : Lvalue) (curBb bb : Nat) :
    TerminatorKind → TermRes
  | .resume => .throughStmts
  | .goto _ => .throughStmts
  | .ifT _ _ _ => .throughStmts
  | .switch _ _ => .throughStmts
  | .switchInt _ _ => .throughStmts
  | .ret => .throughStmts
  | .drop v _ _ =>
      if v = droppee ∧ curBb ≠ bb then .satisfied else .throughStmts
  | .call _ args dest _ =>
      let destAborts : Bool :=
        match dest with
        | some (d, _) => d = droppee
        | none => false
      if destAborts then .abort
      else if args.any (operandIsDroppee droppee) then .satisfied
      else .throughStmts

/-- The per-block outcome of the backward search. -/
inductive Inspect where
  | abort
  | satisfied
  | cont
deriving DecidableEq, Repr

/-- Inspect one worklist block: terminator first, then the statements in
reverse; a block with no recorded predecessors is naturally satisfied,
otherwise its predecessors are to be explored. -/
def inspectBlock (m : Mir) (pm : PredecessorMap) (droppee : Lvalue)
    (curBb bb : Nat) : Inspect :=
  let data := getBlockData m bb
  match inspectTerminator droppee curBb bb data.terminator with
  | .abort => .abort
  | .satisfied => .satisfied
  | .throughStmts =>
      match scanStatements droppee data.statements.reverse with
      | .abort => .abort
      | .satisfied => .satisfied
      | .fallthrough =>
          if (pm.predecessors bb).isEmpty then .satisfied else .cont

/-- The backward worklist of `RemoveDrops::run_pass` (`'work` loop):
`some true` commits the tentative replacement, `some false` aborts it,
`none` means the fuel ran out (shown impossible for the fuel the pass
supplies).  The `Vec` worklist pops from the back; the list here pops
from the front, so freshly discovered predecessors are pushed reversed
onto the front. -/
def dropSearch (m : Mir) (pm : PredecessorMap) (droppee : Lvalue)
    (curBb : Nat) : Nat → List Nat → List Nat → Option Bool
  | 0, _, _ => none
  | _ + 1, [], _ => some true
  | fuel + 1, bb :: rest, seen =>
      if bb ∈ seen then dropSearch m pm droppee curBb fuel rest seen
      else
        match inspectBlock m pm droppee curBb bb with
        | .abort => some false
        | .satisfied => dropSearch m pm droppee curBb fuel rest (bb :: seen)
        | .cont =>
            dropSearch m pm droppee curBb fuel
              ((pm.predecessors bb).reverse ++ rest) (bb :: seen)

/-- A fuel amount sufficient for `dropSearch` to drain its worklist. -/
def searchFuel (pm : PredecessorMap) : Nat :=
  let t := (pm.map.map List.length).sum
  (t + 2) * (t + 2)

/-- The replacement decision for one block: the `TerminatorKind::Drop`
match arm of the pass. -/
def dropDecision (m : Mir) (pm : PredecessorMap) (curBb : Nat) :
    Option TerminatorKind :=
  match (getBlockData m curBb).terminator with
  | .drop droppee target _ =>
      match dropSearch m pm droppee curBb (searchFuel pm) [curBb] [] with
      | some true => some (.goto target)
      | _ => none
  | _ => none

/-- One outer iteration of `RemoveDrops::run_pass`: build the predecessor
map, then scan all blocks in index order, committing each replacement
immediately (the map is not rebuilt within the iteration). -/
def removeDropsIteration (m : Mir) : Mir × Bool :=
  let pm := buildPredecessorMap m
  (List.range m.basicBlocks.length).foldl
    (fun st curBb =>
      let (m, changed) := st
      match dropDecision m pm curBb with
      | some repl => (setTerminator m curBb repl, true)
      | none => (m, changed))
    (m, false)

def removeDropsLoop : Nat → Mir → Mir
  | 0, m => m
  | fuel + 1, m =>
      let (m', changed) := removeDropsIteration m
      if changed then removeDropsLoop fuel m' else m'

/-- The number of `Drop` terminators: an upper bound on the number of
changed outer iterations. -/
def numDropTerms (m : Mir) : Nat :=
  (m.basicBlocks.filter
    (fun bb => match bb.terminator with | .drop _ _ _ => true | _ => false)).length

/-- `RemoveDrops::run_pass`: iterate to the fixed point. -/
def removeDrops (m : Mir) : Mir :=
  removeDropsLoop (numDropTerms m + 1) m

/-- Backward reachability through `cont`-inspected blocks starting from
any block of the base set `S`: the blocks the worklist search explores.
A "backward path" of the specification corresponds to a chain of
predecessor steps through blocks whose inspection found neither a
recognized read nor a redefinition. -/
inductive ReachesFrom (m : Mir) (pm : PredecessorMap) (droppee : Lvalue)
    (curBb : Nat) (S : List Nat) : Nat → Prop where
  | base {b : Nat} : b ∈ S → ReachesFrom m pm droppee curBb S b
  | step {b p : Nat} : ReachesFrom m pm droppee curBb S b →
      inspectBlock m pm droppee curBb b = .cont →
      p ∈ pm.predecessors b → ReachesFrom m pm droppee curBb S p

/-- Backward reachability from the drop's own block. -/
def Reaches (m : Mir) (pm : PredecessorMap) (droppee : Lvalue)
    (curBb b : Nat) : Prop :=
  ReachesFrom m pm droppee curBb [curBb] b

/-! ## Temporary forwarding (`tmp_forward.rs`) -/

/-- Occurrences of `Temp t` inside an lvalue (the visitor recurses
through projection bases). -/
def lvTempCount (t : Nat) : Lvalue → Nat
  | .temp n => if n = t then 1 else 0
  | .proj base _ => lvTempCount t base
  | _ => 0

def opTempCount (t : Nat) : Operand → Nat
  | .consume lv => lvTempCount t lv
  | .constant _ => 0

def rvTempCount (t : Nat) : Rvalue → Nat
  | .use_ op => opTempCount t op
  | .ref lv => lvTempCount t lv
  | .len lv => lvTempCount t lv
  | .boxAlloc => 0
  | .cast op => opTempCount t op
  | .unaryOp op => opTempCount t op
  | .binaryOp a b => opTempCount t a + opTempCount t b
  | .repeatOp op => opTempCount t op
  | .aggregate ops => (ops.map (opTempCount t)).sum
  | .inlineAsm outs ins =>
      (outs.map (lvTempCount t)).sum + (ins.map (opTempCount t)).sum

def stmtTempCount (t : Nat) (s : Statement) : Nat :=
  lvTempCount t s.lhs + rvTempCount t s.rhs

/-- Occurrences of `Temp t` in a terminator as counted by
`TempCollector`: a `Drop`'s value lvalue is skipped entirely (being
dropped must not increment the usage count). -/
def termTempCount (t : Nat) : TerminatorKind → Nat
  | .goto _ => 0
  | .ifT cond _ _ => opTempCount t cond
  | .switch discr _ => lvTempCount t discr
  | .switchInt discr _ => lvTempCount t discr
  | .resume => 0
  | .ret => 0
  | .drop _ _ _ => 0
  | .call f args dest _ =>
      opTempCount t f + (args.map (opTempCount t)).sum +
        (match dest with | some (d, _) => lvTempCount t d | none => 0)

def blockTempCount (t : Nat) (bb : BasicBlockData) : Nat :=
  (bb.statements.map (stmtTempCount t)).sum + termTempCount t bb.terminator

def mirTempCount (t : Nat) (m : Mir) : Nat :=
  (m.basicBlocks.map (blockTempCount t)).sum

/-- `TempCollector`: the per-temp usage-count vector (`vec![0;
temp_decls.len()]`, then `+= 1` at every visited `Temp` lvalue, drop
values excluded).  The visitor's running vector is exactly the occurrence
count per index, so it is embedded as the vector of counts. -/
def collectTempUses (m : Mir) : List Nat :=
  (List.range m.tempDecls.length).map (fun t => mirTempCount t m)

/-- Insert into the `dead` bit set. -/
def insertDead (i : Nat) (dead : List Nat) : List Nat :=
  if i ∈ dead then dead else i :: dead

/-- An operand equal to `Consume(Temp idx)` exactly (projections of a
temp do not match). -/
def matchTempOp (idx : Nat) (o : Operand) : Bool :=
  o = .consume (.temp idx)

/-- Replace the first operand equal to `Consume(Temp idx)` in a list
(`operands_mut` loop with `break`). -/
def replaceFirstTempOp (idx : Nat) (newOp : Operand) :
    List Operand → Option (List Operand)
  | [] => none
  | o :: rest =>
      if matchTempOp idx o then some (newOp :: rest)
      else (replaceFirstTempOp idx newOp rest).map (o :: ·)

/-- Substitute `newOp` for the first `Consume(Temp idx)` operand of an
rvalue, if any. -/
def substFirstOp (idx : Nat) (newOp : Operand) : Rvalue → Option Rvalue
  | .use_ o => if matchTempOp idx o then some (.use_ newOp) else none
  | .ref _ => none
  | .len _ => none
  | .boxAlloc => none
  | .cast o => if matchTempOp idx o then some (.cast newOp) else none
  | .unaryOp o => if matchTempOp idx o then some (.unaryOp newOp) else none
  | .repeatOp o => if matchTempOp idx o then some (.repeatOp newOp) else none
  | .binaryOp a b =>
      if matchTempOp idx a then some (.binaryOp newOp b)
      else if matchTempOp idx b then some (.binaryOp a newOp)
      else none
  | .aggregate ops => (replaceFirstTempOp idx newOp ops).map .aggregate
  | .inlineAsm outs ins => (replaceFirstTempOp idx newOp ins).map (.inlineAsm outs)

/-- The pending-replacement substitution into one consumer statement:
when the defining rvalue is a `Use(op)`, `op` replaces the first matching
consume-operand; for any other defining rvalue the whole consumer rvalue
is replaced when it is exactly `Use(Consume(Temp idx))`. -/
def applyRepl (idx : Nat) (rv : Rvalue) (s : Statement) : Option Statement :=
  match rv with
  | .use_ op => (substFirstOp idx op s.rhs).map (⟨s.lhs, ·⟩)
  | _ =>
      if s.rhs = .use_ (.consume (.temp idx)) then some ⟨s.lhs, rv⟩ else none

def dummyStatement : Statement := ⟨.retPtr, .boxAlloc⟩

/-- Swap two list entries (`Vec::swap`). -/
def listSwap (l : List α) (i j : Nat) : List α :=
  match l.get? i, l.get? j with
  | some x, some y => (l.set i y).set j x
  | _, _ => l

/-- The running state of `Promoter::visit_basic_block_data`'s index
loop. -/
structure ScanState where
  stmts : List Statement
  dropped : Nat
  repl : Option (Nat × Rvalue)
  dead : List Nat
deriving DecidableEq, Repr

/-- One index step of the loop: try to consume the pending replacement
into statement `i`; reset and possibly re-arm the replacement from the
(possibly substituted) statement `i`; compact by swapping the processed
statement `dropped` slots to the left. -/
def promoteStep (uses : List Nat) (st : ScanState) (i : Nat) : ScanState :=
  let s := st.stmts.getD i dummyStatement
  let (stmts1, dropped1, dead1) :=
    match st.repl with
    | some (idx, rv) =>
        match applyRepl idx rv s with
        | some s' => (st.stmts.set i s', st.dropped + 1, insertDead idx st.dead)
        | none => (st.stmts, st.dropped, st.dead)
    | none => (st.stmts, st.dropped, st.dead)
  let s1 := stmts1.getD i dummyStatement
  let repl1 : Option (Nat × Rvalue) :=
    match s1.lhs with
    | .temp j => if uses.getD j 0 = 2 then some (j, s1.rhs) else none
    | _ => none
  let stmts2 := if dropped1 > 0 then listSwap stmts1 i (i - dropped1) else stmts1
  ⟨stmts2, dropped1, repl1, dead1⟩

/-- After the index loop: a pending replacement whose rvalue is a `Use`
may still be consumed by an `If` condition or `Call` callee operand of
the block's terminator. -/
def promoteTerminator (st : ScanState) (term : TerminatorKind) :
    TerminatorKind × Nat × List Nat :=
  match st.repl with
  | some (idx, .use_ oper) =>
      match term with
      | .ifT cond t e =>
          if matchTempOp idx cond then
            (.ifT oper t e, st.dropped + 1, insertDead idx st.dead)
          else (term, st.dropped, st.dead)
      | .call f args dest cleanup =>
          if matchTempOp idx f then
            (.call oper args dest cleanup, st.dropped + 1, insertDead idx st.dead)
          else (term, st.dropped, st.dead)
      | _ => (term, st.dropped, st.dead)
  | _ => (term, st.dropped, st.dead)

/-- One pass of the `loop` in `visit_basic_block_data`: the index scan,
the terminator substitution and the truncation of the `dropped`
trailing slots. -/
def promoteScan (uses : List Nat) (bb : BasicBlockData) (dead : List Nat) :
    BasicBlockData × Nat × List Nat :=
  let st := (List.range bb.statements.length).foldl (promoteStep uses)
    ⟨bb.statements, 0, none, dead⟩
  let (term, dropped2, dead2) := promoteTerminator st bb.terminator
  (⟨st.stmts.take (st.stmts.length - dropped2), term⟩, dropped2, dead2)

/-- The `loop` of `visit_basic_block_data`: re-scan the block until a
scan drops nothing. -/
def promoteBlockLoop (uses : List Nat) :
    Nat → BasicBlockData → List Nat → BasicBlockData × List Nat
  | 0, bb, dead => (bb, dead)
  | fuel + 1, bb, dead =>
      let (bb', dropped, dead') := promoteScan uses bb dead
      if dropped = 0 then (bb', dead')
      else promoteBlockLoop uses fuel bb' dead'

def promoteBlock (uses : List Nat) (bb : BasicBlockData) (dead : List Nat) :
    BasicBlockData × List Nat :=
  promoteBlockLoop uses (bb.statements.length + 1) bb dead

/-- `Promoter::visit_mir`: visit every block, threading the dead set. -/
def promoterRun (uses : List Nat) (m : Mir) : Mir × List Nat :=
  let (blocks, dead) := m.basicBlocks.foldl
    (fun st bb =>
      let (bb', dead') := promoteBlock uses bb st.2
      (st.1 ++ [bb'], dead'))
    ([], [])
  (⟨m.tempDecls, blocks⟩, dead)

/-- The renumbering loop of `TmpForward::run_pass`: compute the
`replacements` table, compact the declaration table by swapping each
surviving declaration down into the next free slot, and count the
survivors. -/
def compactTempDecls (decls : List Nat) (dead : List Nat) :
    List Nat × List Nat × Nat :=
  (List.range decls.length).foldl
    (fun st aliveIndex =>
      let (repls, decls, used) := st
      if aliveIndex ∈ dead then st
      else
        let repls' := repls.set aliveIndex used
        let decls' := if aliveIndex ≠ used then listSwap decls aliveIndex used else decls
        (repls', decls', used + 1))
    (List.range decls.length, decls, 0)

/-- `Updater::visit_lvalue`: rewrite every temp index through the
replacements table (a dead temp's entry still holds its original
index). -/
def renumberLvalue (repls : List Nat) : Lvalue → Lvalue
  | .temp n => .temp (repls.getD n n)
  | .proj base f => .proj (renumberLvalue repls base) f
  | lv => lv

def renumberOperand (repls : List Nat) : Operand → Operand
  | .consume lv => .consume (renumberLvalue repls lv)
  | .constant c => .constant c

def renumberRvalue (repls : List Nat) : Rvalue → Rvalue
  | .use_ op => .use_ (renumberOperand repls op)
  | .ref lv => .ref (renumberLvalue repls lv)
  | .len lv => .len (renumberLvalue repls lv)
  | .boxAlloc => .boxAlloc
  | .cast op => .cast (renumberOperand repls op)
  | .unaryOp op => .unaryOp (renumberOperand repls op)
  | .binaryOp a b => .binaryOp (renumberOperand repls a) (renumberOperand repls b)
  | .repeatOp op => .repeatOp (renumberOperand repls op)
  | .aggregate ops => .aggregate (ops.map (renumberOperand repls))
  | .inlineAsm outs ins =>
      .inlineAsm (outs.map (renumberLvalue repls)) (ins.map (renumberOperand repls))

def renumberStatement (repls : List Nat) (s : Statement) : Statement :=
  ⟨renumberLvalue repls s.lhs, renumberRvalue repls s.rhs⟩

def renumberTerminatorKind (repls : List Nat) : TerminatorKind → TerminatorKind
  | .goto t => .goto t
  | .ifT cond t e => .ifT (renumberOperand repls cond) t e
  | .switch discr ts => .switch (renumberLvalue repls discr) ts
  | .switchInt discr ts => .switchInt (renumberLvalue repls discr) ts
  | .resume => .resume
  | .ret => .ret
  | .drop v t u => .drop (renumberLvalue repls v) t u
  | .call f args dest cleanup =>
      .call (renumberOperand repls f) (args.map (renumberOperand repls))
        (dest.map (fun du => (renumberLvalue repls du.1, du.2))) cleanup

/-- `Updater::visit_terminator_kind`: a drop whose value is exactly a
dead bare temp becomes a `Goto` to its target; then the (possibly
rewritten) terminator is renumbered. -/
def updaterTerminator (repls dead : List Nat) (t : TerminatorKind) :
    TerminatorKind :=
  let t1 :=
    match t with
    | .drop (.temp idx) target _ =>
        if idx ∈ dead then .goto target else t
    | _ => t
  renumberTerminatorKind repls t1

def updaterBlock (repls dead : List Nat) (bb : BasicBlockData) : BasicBlockData :=
  ⟨bb.statements.map (renumberStatement repls),
   updaterTerminator repls dead bb.terminator⟩

/-- `TmpForward::run_pass`. -/
def tmpForward (m : Mir) : Mir :=
  let uses := collectTempUses m
  let (m1, dead) := promoterRun uses m
  let (repls, decls, used) := compactTempDecls m1.tempDecls dead
  ⟨decls.take used, m1.basicBlocks.map (updaterBlock repls dead)⟩

end RD


namespace RD

/-- `[ bb0: v = 1; Drop(v, bb1) ][ bb1: v = 2; Return ]` — the boundary
scenario of the specification (§8). -/
def dropWriteBody : Mir :=
  ⟨[], [⟨[⟨.var 0, .use_ (.constant 1)⟩], .drop (.var 0) 1 none⟩,
        ⟨[⟨.var 0, .use_ (.constant 2)⟩], .ret⟩]⟩

/-- `[ bb0: v = 1; w = &v; Drop(v, bb1) ][ bb1: Return ]` — `v` is read
non-owningly (borrowed) before its redefinition on the only backward
path. -/
def borrowReadBody : Mir :=
  ⟨[], [⟨[⟨.var 0, .use_ (.constant 1)⟩, ⟨.var 1, .ref (.var 0)⟩],
         .drop (.var 0) 1 none⟩,
        ⟨[], .ret⟩]⟩

/-- `[ bb0: Drop(v, bb1) ][ bb1: w = v; Return ]` — the elidable-drop
scenario of the specification (§8). -/
def elidableDropBody : Mir :=
  ⟨[], [⟨[], .drop (.var 0) 1 none⟩,
        ⟨[⟨.var 1, .use_ (.consume (.var 0))⟩], .ret⟩]⟩

/-- `[ bb0: t0 = 5; x = 7; y = t0; Return ]` — temp `t0` has exactly two
occurrences (its definition and its consuming use) but the consumer is
not the immediately following statement. -/
def nonAdjacentBody : Mir :=
  ⟨[7], [⟨[⟨.temp 0, .use_ (.constant 5)⟩,
           ⟨.var 0, .use_ (.constant 7)⟩,
           ⟨.var 1, .use_ (.consume (.temp 0))⟩], .ret⟩]⟩

/-- `[ bb0: t0 = 5; x = t0; Drop((t0).0, bb1) ][ bb1: Return ]` — temp
`t0` is forwarded and dies, but its occurrence under a projection in the
drop value is neither counted nor rewritten to a goto. -/
def projDropBody : Mir :=
  ⟨[7], [⟨[⟨.temp 0, .use_ (.constant 5)⟩,
           ⟨.var 0, .use_ (.consume (.temp 0))⟩],
          .drop (.proj (.temp 0) 0) 1 none⟩,
         ⟨[], .ret⟩]⟩

/-- `[ bb0: t0 = 5; x = t0; Return ]` — the basic adjacent
definition/consumer pair. -/
def adjacentBody : Mir :=
  ⟨[7], [⟨[⟨.temp 0, .use_ (.constant 5)⟩,
           ⟨.var 0, .use_ (.consume (.temp 0))⟩], .ret⟩]⟩

end RD


namespace RD

/-- Modelled from the spec: the non-owning reads of §4.4 that are claimed
to satisfy a backward branch — "address-of, length, borrow, cast operand,
unary/binary operand, aggregate field, inline-asm input". -/
def specNonOwningRead (droppee : Lvalue) (s : Statement) : Bool :=
  match s.rhs with
  | .ref lv => lv = droppee
  | .len lv => lv = droppee
  | .boxAlloc => false
  | .cast op => operandIsDroppee droppee op
  | .unaryOp op => operandIsDroppee droppee op
  | .repeatOp op => operandIsDroppee droppee op
  | .use_ op => operandIsDroppee droppee op
  | .binaryOp a b => operandIsDroppee droppee a || operandIsDroppee droppee b
  | .aggregate ops => ops.any (operandIsDroppee droppee)
  | .inlineAsm _ ins => ins.any (operandIsDroppee droppee)

/-- Every `Temp` index referenced by the lvalue is below `n`. -/
def lvTempsOk (n : Nat) : Lvalue → Bool
  | .temp i => i < n
  | .proj base _ => lvTempsOk n base
  | _ => true

def opTempsOk (n : Nat) : Operand → Bool
  | .consume lv => lvTempsOk n lv
  | .constant _ => true

def rvTempsOk (n : Nat) : Rvalue → Bool
  | .use_ op => opTempsOk n op
  | .ref lv => lvTempsOk n lv
  | .len lv => lvTempsOk n lv
  | .boxAlloc => true
  | .cast op => opTempsOk n op
  | .unaryOp op => opTempsOk n op
  | .binaryOp a b => opTempsOk n a && opTempsOk n b
  | .repeatOp op => opTempsOk n op
  | .aggregate ops => ops.all (opTempsOk n)
  | .inlineAsm outs ins => outs.all (lvTempsOk n) && ins.all (opTempsOk n)

def stmtTempsOk (n : Nat) (s : Statement) : Bool :=
  lvTempsOk n s.lhs && rvTempsOk n s.rhs

def termTempsOk (n : Nat) : TerminatorKind → Bool
  | .goto _ => true
  | .ifT cond _ _ => opTempsOk n cond
  | .switch discr _ => lvTempsOk n discr
  | .switchInt discr _ => lvTempsOk n discr
  | .resume => true
  | .ret => true
  | .drop v _ _ => lvTempsOk n v
  | .call f args dest _ =>
      opTempsOk n f && args.all (opTempsOk n) &&
        (match dest with | some (d, _) => lvTempsOk n d | none => true)

/-- Every place reference to a `Temporary` in the body names an index
inside the temp declaration table. -/
def mirTempRefsOk (m : Mir) : Bool :=
  m.basicBlocks.all (fun bb =>
    bb.statements.all (stmtTempsOk m.tempDecls.length) &&
      termTempsOk m.tempDecls.length bb.terminator)

/-- The replacement armed by a processed statement: its left-hand side is
a bare temp whose collected usage count is exactly 2 (the `Lvalue::Temp`
arm at the bottom of the promoter's index loop). -/
def armOf (uses : List Nat) (s : Statement) : Option (Nat × Rvalue) :=
  match s.lhs with
  | .temp j => if uses.getD j 0 = 2 then some (j, s.rhs) else none
  | _ => none

/-- One statement of the swap-free reformulation of the index loop: the
kept statements accumulate in order; a consumed replacement retracts its
defining statement (the last kept one) and appends the substituted
consumer. -/
def cleanStep (uses : List Nat) (acc : List Statement × Nat × List Nat)
    (s : Statement) : List Statement × Nat × List Nat :=
  match acc.1.getLast?.bind (armOf uses) with
  | some (idx, rv) =>
      match applyRepl idx rv s with
      | some s' => (acc.1.dropLast ++ [s'], acc.2.1 + 1, insertDead idx acc.2.2)
      | none => (acc.1 ++ [s], acc.2.1, acc.2.2)
  | none => (acc.1 ++ [s], acc.2.1, acc.2.2)

/-- The terminator phase of the swap-free reformulation: a pending `Use`
replacement may substitute into an `If` condition or `Call` callee,
retracting the defining statement. -/
def cleanTerm (uses : List Nat) (out : List Statement) (c : Nat)
    (dead : List Nat) (term : TerminatorKind) :
    List Statement × TerminatorKind × Nat × List Nat :=
  match out.getLast?.bind (armOf uses) with
  | some (idx, .use_ oper) =>
      match term with
      | .ifT cond t e =>
          if matchTempOp idx cond then
            (out.dropLast, .ifT oper t e, c + 1, insertDead idx dead)
          else (out, term, c, dead)
      | .call f args dest cleanup =>
          if matchTempOp idx f then
            (out.dropLast, .call oper args dest cleanup, c + 1,
              insertDead idx dead)
          else (out, term, c, dead)
      | _ => (out, term, c, dead)
  | _ => (out, term, c, dead)

/-- The swap-free reformulation of one scan of `visit_basic_block_data`:
every adjacent definer/consumer pair with usage count 2 is substituted at
the consumer, the definer is removed, and the relative order of the kept
statements is preserved. -/
def cleanScan (uses : List Nat) (bb : BasicBlockData) (dead : List Nat) :
    BasicBlockData × Nat × List Nat :=
  let r := bb.statements.foldl (cleanStep uses) ([], 0, dead)
  let r2 := cleanTerm uses r.1 r.2.1 r.2.2 bb.terminator
  (⟨r2.1, r2.2.1⟩, r2.2.2.1, r2.2.2.2)

/-- The rotation the compaction swap applies to the block of doomed
defining statements when a kept statement passes over it. -/
def skipRot : List Statement → List Statement
  | [] => []
  | h :: dt => dt ++ [h]

/-- The number of alive (non-dead) indices below `i`: the new index the
compaction loop assigns to a surviving temp. -/
def aliveRank (dead : List Nat) (i : Nat) : Nat :=
  ((List.range i).filter (fun j => decide (j ∉ dead))).length

/-- Total occurrences of `Temp t` in a statement list. -/
def stmtsTempCount (t : Nat) (l : List Statement) : Nat :=
  (l.map (stmtTempCount t)).sum

/-- Insert a list of consumed temp indices into the dead set, in order. -/
def insertFold (l dead : List Nat) : List Nat :=
  l.foldl (fun d i => insertDead i d) dead

end RD

/-! # Theorems -/

open CP in
/-- **C1** (refuted — the code miscompiles): on the copy chain
`tmp1 = Copy(a); tmp2 = Copy(tmp1); r = Copy(tmp2)` the local `tmp1`
satisfies `defCountExcludingDrop = 1` and `useCount > 0`, the original
body evaluates to the caller's argument, but after running
Copy-Propagation to its fixed point the body reads the now-undefined
`tmp1` (the rewritten use at `r = Copy(tmp1)` was never recorded in the
stale analysis, so the pass nopped `tmp1`'s definition while a use
remained): the observable result changes from the argument value to
undefined. -/
theorem copy_prop_unsound_on_copy_chain :
    (defCountNotIncludingDrop ((analyze chainBody).localInfo 1) = 1 ∧
     useCount ((analyze chainBody).localInfo 1) > 0) ∧
    evalMir chainBody = some (Val.argv 3) ∧
    evalMir (copyPropagation chainBody) = none := by
  refine ⟨⟨by decide, by decide⟩, by decide, by decide⟩

open CP in
/-- **C2 counterexample**: the pass's result differs from the
specification's per-iteration-fresh-analysis driver on the constant
chain `d = 5; t = Copy(d); r = Copy(t)` — `analyze` is run once before
the loop, not once per outer iteration. -/
theorem copy_prop_not_reanalyzed_counterexample :
    copyPropagation constChainBody ≠ copyPropagationSpec constChainBody := by
  decide

open CP in
/-- **C2 amended**: the def-use analysis is built once, before the driver
loop; later scans reuse the incrementally-updated (stale) snapshot, so a
rewrite enabled by an earlier rewrite of the same run is missed — on the
constant chain the final use `r = Copy(d)` keeps its place form, while
the fresh-per-iteration driver of the specification folds it to the
constant. -/
theorem copy_prop_stale_analysis_behavior :
    statementAt (copyPropagation constChainBody) ⟨0, 2⟩ =
      some (.assign (.local 2) (.use_ (.copy (.local 1)))) ∧
    statementAt (copyPropagationSpec constChainBody) ⟨0, 2⟩ =
      some (.assign (.local 2) (.use_ (.constant 5))) :=
  ⟨rfl, rfl⟩

open CP in
/-- **C8 counterexample**: Copy-Propagation is not idempotent — a second
run on the fixed point of the first run performs a further rewrite
(its fresh analysis sees the constant-propagation opportunity the first
run's stale analysis missed). -/
theorem copy_prop_not_idempotent :
    copyPropagation (copyPropagation constChainBody) ≠
      copyPropagation constChainBody := by
  decide

open CP in
/-- **C7 counterexample**: after
`replace_all_defs_and_uses_with(0, Place::Local(1))` on the copy chain,
the occurrence list of the replacement's local (1) has gained nothing,
the matched occurrence entries of local 0 have been removed (its list is
emptied), and the underlying IR nodes were rewritten — the claim asserts
the exact opposite bookkeeping (entries gained for the new local, stale
entries kept for the old). -/
theorem replace_all_defs_and_uses_counterexample :
    (replaceAllDefsAndUsesWith 0 (.local 1) chainBody (analyze chainBody)).2.localInfo 1 =
      (analyze chainBody).localInfo 1 ∧
    (replaceAllDefsAndUsesWith 0 (.local 1) chainBody (analyze chainBody)).2.localInfo 0 = [] ∧
    (analyze chainBody).localInfo 0 ≠ [] ∧
    statementAt (replaceAllDefsAndUsesWith 0 (.local 1) chainBody (analyze chainBody)).1 ⟨0, 2⟩ =
      some (.assign (.local 2) (.use_ (.copy (.local 1)))) := by
  refine ⟨by decide, by decide, by decide, by decide⟩

open RD in
/-- **C4 counterexample**: on
`[ bb0: v = 1; Drop(v, bb1) ][ bb1: v = 2; Return ]` the pass does NOT
replace the drop with `Goto(bb1)` — the reverse scan of the drop's own
block hits the assignment `v = 1` (an assignment to the droppee) before
any recognized read and aborts the elision. -/
theorem remove_drops_same_block_write_counterexample :
    (getBlockData (removeDrops dropWriteBody) 0).terminator ≠
      TerminatorKind.goto 1 ∧
    (getBlockData (removeDrops dropWriteBody) 0).terminator =
      .drop (.var 0) 1 none := by
  refine ⟨by decide, by decide⟩

open RD in
/-- **C4 amended**: a defining write to the dropped value appearing in
the drop's own block before the drop (with no recognized read in
between) blocks elision: the pass leaves the body unchanged. -/
theorem remove_drops_same_block_write_keeps_drop :
    removeDrops dropWriteBody = dropWriteBody := by
  decide

open RD in
/-- **C3 counterexample**: in
`[ bb0: v = 1; w = &v; Drop(v, bb1) ][ bb1: Return ]` the value `v` is
read in a non-owning way (borrowed) on the only backward path before its
redefinition — the statement between the write and the drop is a
spec-recognized non-owning read — yet the pass does not rewrite the
drop: the reverse scan ignores `Rvalue::Ref` and aborts at `v = 1`. -/
theorem remove_drops_borrow_read_counterexample :
    specNonOwningRead (.var 0) ⟨.var 1, .ref (.var 0)⟩ = true ∧
    (getBlockData borrowReadBody 0).statements =
      [⟨.var 0, .use_ (.constant 1)⟩, ⟨.var 1, .ref (.var 0)⟩] ∧
    (getBlockData borrowReadBody 0).terminator = .drop (.var 0) 1 none ∧
    removeDrops borrowReadBody = borrowReadBody := by
  refine ⟨by decide, by decide, by decide, by decide⟩

open RD in
/-- **C9 counterexample**: on
`[ bb0: t0 = 5; x = t0; Drop((t0).0, bb1) ][ bb1: Return ]` the pass
forwards `t0`, truncates the declaration table to zero slots, but leaves
the projected reference `(t0).0` in the drop value pointing at the old
index: a remaining place reference to a Temporary does not refer to a
valid renumbered index. -/
theorem tmp_forward_dangling_ref_counterexample :
    mirTempRefsOk projDropBody = true ∧
    (tmpForward projDropBody).tempDecls = [] ∧
    mirTempRefsOk (tmpForward projDropBody) = false := by
  refine ⟨by decide, by decide, by decide⟩

open RD in
/-- **C10 counterexample**: on `[ bb0: t0 = 5; x = 7; y = t0 ]` the temp
`t0` has total occurrence count exactly 2 (one definition plus one
consuming use, drops excluded) and its definition is a simple
value-producing assignment, yet the pass performs no substitution at
all: the consumer is not the immediately following statement, and the
forwarding window is one statement wide. -/
theorem tmp_forward_nonadjacent_counterexample :
    collectTempUses nonAdjacentBody = [2] ∧
    (getBlockData nonAdjacentBody 0).statements.head? =
      some ⟨.temp 0, .use_ (.constant 5)⟩ ∧
    tmpForward nonAdjacentBody = nonAdjacentBody := by
  refine ⟨by decide, by decide, by decide⟩

namespace CP

/-- Helper: mapping an optional action into an optional pair. -/
theorem optmap_pair_eq (x : Option Action) (L : Location) (A : Action) :
    (∃ loc, x.map (fun act => (act, L)) = some (A, loc)) ↔ x = some A := by
  cases x <;> simp

/-- Helper: characterization of `Action::local_copy` on a bare local
source. -/
theorem localCopy_local_iff (m : Mir) (a : DefUseAnalysis) (sl src : Local) :
    Action.localCopy m a (.local sl) = some (.propagateLocalCopy src) ↔
      (sl = src ∧ useCount (a.localInfo sl) = 1 ∧
        (if localKind m sl = some LocalKind.arg
         then defCountNotIncludingDrop (a.localInfo sl) = 0
         else defCountNotIncludingDrop (a.localInfo sl) = 1)) := by
  simp only [Action.localCopy]
  by_cases hu0 : useCount (a.localInfo sl) = 0
  · simp [hu0]
  by_cases hu1 : useCount (a.localInfo sl) = 1
  · by_cases ha : localKind m sl = some LocalKind.arg
    · by_cases hdc : defCountNotIncludingDrop (a.localInfo sl) = 0
      · simp [hu0, hu1, ha, hdc, eq_comm]
      · simp [hu0, hu1, ha, hdc]
    · by_cases hdc : defCountNotIncludingDrop (a.localInfo sl) = 1
      · simp [hu0, hu1, ha, hdc, eq_comm]
      · simp [hu0, hu1, ha, hdc]
  · simp [hu0, hu1]

end CP

open CP in
/-- **C5**: the scan selects a case-A local-copy action for `dest` with
source `src` iff all of: `defCountExcludingDrop(dest) = 1`;
`useCount(dest) > 0`; `dest` is not an Argument; the single non-drop
definition of `dest` is a plain statement `Assign(dest, Use(operand))`
with operand `Copy(src)` or `Move(src)` for a bare local `src`;
`useCount(src) = 1`; and `defCountExcludingDrop(src)` is `0` when `src`
is an Argument and `1` otherwise. -/
theorem copy_prop_caseA_eligibility_iff (m : Mir) (a : DefUseAnalysis)
    (dest src : Local) :
    (∃ loc, considerLocal m a dest = some (.propagateLocalCopy src, loc)) ↔
    (defCountNotIncludingDrop (a.localInfo dest) = 1 ∧
     useCount (a.localInfo dest) > 0 ∧
     localKind m dest ≠ some .arg ∧
     ∃ d, (defsNotIncludingDrop (a.localInfo dest)).head? = some d ∧
       ∃ op, statementAt m d.location = some (.assign (.local dest) (.use_ op)) ∧
         (op = .copy (.local src) ∨ op = .move (.local src)) ∧
         useCount (a.localInfo src) = 1 ∧
         (if localKind m src = some .arg
          then defCountNotIncludingDrop (a.localInfo src) = 0
          else defCountNotIncludingDrop (a.localInfo src) = 1)) := by
  simp only [considerLocal]
  by_cases h0 : defCountNotIncludingDrop (a.localInfo dest) = 0
  · simp [h0]
  by_cases h1 : defCountNotIncludingDrop (a.localInfo dest) > 1
  · simp only [h0, h1, if_true, if_false, ite_true, ite_false]
    constructor
    · rintro ⟨loc, h⟩; simp at h
    · rintro ⟨hc, -⟩; omega
  have hc1 : defCountNotIncludingDrop (a.localInfo dest) = 1 := by omega
  by_cases h2 : useCount (a.localInfo dest) = 0
  · simp [h0, h1, h2]
  by_cases h3 : localKind m dest = some LocalKind.arg
  · simp [h0, h1, h2, h3]
  simp only [h0, h1, h2, h3, if_false, ite_false]
  cases hd : (defsNotIncludingDrop (a.localInfo dest)).head? with
  | none => simp [hd]
  | some d =>
    simp only [hd]
    cases hs : statementAt m d.location with
    | none => simp [hs]
    | some s =>
      simp only [hs]
      match s with
      | .storageLive l => simp [hs]
      | .storageDead l => simp [hs]
      | .nop => simp [hs]
      | .assign (.proj l f) rv => simp [hs]
      | .assign (.local l) (.ref p) => simp [hs]
      | .assign (.local l) (.binaryOp x y) => simp [hs]
      | .assign (.local l) (.cast o) => simp [hs]
      | .assign (.local l) (.use_ op) =>
        by_cases hl : l = dest
        · subst hl
          simp only [if_pos rfl]
          match op with
          | .constant c =>
            constructor
            · rintro ⟨loc, h⟩; simp at h
            · rintro ⟨-, -, -, d', hd', op', hop', hsrc, -⟩
              cases hd'
              rw [hs] at hop'
              rcases hsrc with rfl | rfl <;> simp at hop'
          | .copy (.proj sl sf) =>
            simp only [Action.localCopy, Option.map_none]
            constructor
            · rintro ⟨loc, h⟩; simp at h
            · rintro ⟨-, -, -, d', hd', op', hop', hsrc, -⟩
              cases hd'
              rw [hs] at hop'
              rcases hsrc with rfl | rfl <;> simp at hop'
          | .move (.proj sl sf) =>
            simp only [Action.localCopy, Option.map_none]
            constructor
            · rintro ⟨loc, h⟩; simp at h
            · rintro ⟨-, -, -, d', hd', op', hop', hsrc, -⟩
              cases hd'
              rw [hs] at hop'
              rcases hsrc with rfl | rfl <;> simp at hop'
          | .copy (.local sl) =>
            show (∃ loc, (Action.localCopy m a (Place.local sl)).map
                (fun act => (act, d.location)) =
                some (Action.propagateLocalCopy src, loc)) ↔ _
            rw [optmap_pair_eq, localCopy_local_iff]
            constructor
            · rintro ⟨rfl, hu, hdc⟩
              exact ⟨hc1, Nat.pos_of_ne_zero h2, h3, d, rfl, .copy (.local sl),
                hs, .inl rfl, hu, hdc⟩
            · rintro ⟨-, -, -, d', hd', op', hop', hsrc, hu, hdc⟩
              cases hd'
              rw [hs] at hop'
              rcases hsrc with rfl | rfl <;> simp at hop'
              subst hop'
              exact ⟨rfl, hu, hdc⟩
          | .move (.local sl) =>
            show (∃ loc, (Action.localCopy m a (Place.local sl)).map
                (fun act => (act, d.location)) =
                some (Action.propagateLocalCopy src, loc)) ↔ _
            rw [optmap_pair_eq, localCopy_local_iff]
            constructor
            · rintro ⟨rfl, hu, hdc⟩
              exact ⟨hc1, Nat.pos_of_ne_zero h2, h3, d, rfl, .move (.local sl),
                hs, .inr rfl, hu, hdc⟩
            · rintro ⟨-, -, -, d', hd', op', hop', hsrc, hu, hdc⟩
              cases hd'
              rw [hs] at hop'
              rcases hsrc with rfl | rfl <;> simp at hop'
              subst hop'
              exact ⟨rfl, hu, hdc⟩
        · simp only [if_neg hl]
          constructor
          · rintro ⟨loc, h⟩; simp at h
          · rintro ⟨-, -, -, d', hd', op', hop', -⟩
            cases hd'
            rw [hs] at hop'
            simp at hop'
            exact absurd hop'.1 hl

namespace CP

theorem list_set_self {α : Type _} {l : List α} {i : Nat} {a : α}
    (h : l[i]? = some a) : l.set i a = l := by
  obtain ⟨hl, hv⟩ := List.getElem?_eq_some_iff.mp h
  apply List.ext_getElem?
  intro n
  rw [List.getElem?_set]
  by_cases hin : i = n
  · subst hin
    rw [if_pos rfl, if_pos hl, ← hv, List.getElem?_eq_getElem hl]
  · rw [if_neg hin]

theorem getD_set_ne {α : Type _} (l : List α) (i j : Nat) (x d : α)
    (h : i ≠ j) : (l.set i x).getD j d = l.getD j d := by
  simp [List.getD_eq_getElem?_getD, List.getElem?_set_ne h]

theorem localInfo_pushRec_ne (a : DefUseAnalysis) (l l' : Local) (r : UseRec)
    (h : l' ≠ l) : (a.pushRec l' r).localInfo l = a.localInfo l := by
  simp only [DefUseAnalysis.pushRec, DefUseAnalysis.localInfo]
  exact getD_set_ne _ _ _ _ _ h

theorem localInfo_removeRec_ne (a : DefUseAnalysis) (l l' : Local) (r : UseRec)
    (h : l' ≠ l) : (a.removeRec l' r).localInfo l = a.localInfo l := by
  simp only [DefUseAnalysis.removeRec, DefUseAnalysis.localInfo]
  exact getD_set_ne _ _ _ _ _ h

theorem mem_localInfo_pushRec {a : DefUseAnalysis} {l l' : Local}
    {r r' : UseRec} (h : r ∈ (a.pushRec l' r').localInfo l) :
    r ∈ a.localInfo l ∨ (l = l' ∧ r = r') := by
  by_cases hll : l = l'
  · subst hll
    simp only [DefUseAnalysis.pushRec, DefUseAnalysis.localInfo,
      List.getD_eq_getElem?_getD, List.getElem?_set] at h
    simp only [if_true, eq_self_iff_true] at h
    by_cases hlen : l < a.info.length
    · rw [if_pos hlen] at h
      simp only [Option.getD_some, List.mem_append, List.mem_singleton] at h
      rcases h with h | h
      · exact .inl (by simpa [DefUseAnalysis.localInfo, List.getD_eq_getElem?_getD] using h)
      · exact .inr ⟨rfl, h⟩
    · rw [if_neg hlen] at h
      simp at h
  · rw [localInfo_pushRec_ne a l l' r' (fun he => hll he.symm)] at h
    exact .inl h

theorem mem_localInfo_occsFold {L : Location}
    {occs : List (Local × PlaceContext)} {a : DefUseAnalysis} {l : Local}
    {r : UseRec}
    (h : r ∈ ((occs.foldl (fun acc oc => acc.pushRec oc.1 ⟨oc.2, L⟩) a).localInfo l)) :
    r ∈ a.localInfo l ∨ ((l, r.context) ∈ occs ∧ r.location = L) := by
  induction occs generalizing a with
  | nil => exact .inl h
  | cons oc rest ih =>
    rcases ih (a := a.pushRec oc.1 ⟨oc.2, L⟩) h with h1 | h1
    · rcases mem_localInfo_pushRec h1 with h2 | ⟨rfl, rfl⟩
      · exact .inl h2
      · exact .inr ⟨List.mem_cons_self _ _, rfl⟩
    · exact .inr ⟨List.mem_cons_of_mem _ h1.1, h1.2⟩

theorem mem_localInfo_stmtsFold {b : Nat} {pairs : List (Nat × Statement)}
    {a : DefUseAnalysis} {l : Local} {r : UseRec}
    (h : r ∈ ((pairs.foldl
        (fun acc si => (statementOccs si.2).foldl
          (fun acc2 oc => acc2.pushRec oc.1 ⟨oc.2, ⟨b, si.1⟩⟩) acc) a).localInfo l)) :
    r ∈ a.localInfo l ∨
      ∃ p ∈ pairs, (l, r.context) ∈ statementOccs p.2 ∧ r.location = ⟨b, p.1⟩ := by
  induction pairs generalizing a with
  | nil => exact .inl h
  | cons p rest ih =>
    rcases ih h with h1 | h1
    · rcases mem_localInfo_occsFold h1 with h2 | h2
      · exact .inl h2
      · exact .inr ⟨p, List.mem_cons_self _ _, h2.1, h2.2⟩
    · obtain ⟨q, hq, h2⟩ := h1
      exact .inr ⟨q, List.mem_cons_of_mem _ hq, h2⟩

theorem mem_localInfo_analyzeBlock {b : Nat} {bb : BasicBlock}
    {a : DefUseAnalysis} {l : Local} {r : UseRec}
    (h : r ∈ (analyzeBlock b bb a).localInfo l) :
    r ∈ a.localInfo l ∨
    (∃ i s, bb.statements[i]? = some s ∧ (l, r.context) ∈ statementOccs s ∧
       r.location = ⟨b, i⟩) ∨
    ((l, r.context) ∈ terminatorOccs bb.terminator ∧
       r.location = ⟨b, bb.statements.length⟩) := by
  unfold analyzeBlock at h
  rcases mem_localInfo_occsFold h with h1 | h1
  · rcases mem_localInfo_stmtsFold h1 with h2 | h2
    · exact .inl h2
    · obtain ⟨p, hp, h3, h4⟩ := h2
      obtain ⟨i, s⟩ := p
      rw [List.mk_mem_enum_iff_getElem?] at hp
      exact .inr (.inl ⟨i, s, hp, h3, h4⟩)
  · exact .inr (.inr h1)

theorem mem_localInfo_blocksFold {pairs : List (Nat × BasicBlock)}
    {a : DefUseAnalysis} {l : Local} {r : UseRec}
    (h : r ∈ ((pairs.foldl (fun acc bi => analyzeBlock bi.1 bi.2 acc) a).localInfo l)) :
    r ∈ a.localInfo l ∨
    ∃ p ∈ pairs,
      (∃ i s, p.2.statements[i]? = some s ∧ (l, r.context) ∈ statementOccs s ∧
         r.location = ⟨p.1, i⟩) ∨
      ((l, r.context) ∈ terminatorOccs p.2.terminator ∧
         r.location = ⟨p.1, p.2.statements.length⟩) := by
  induction pairs generalizing a with
  | nil => exact .inl h
  | cons p rest ih =>
    rcases ih h with h1 | h1
    · rcases mem_localInfo_analyzeBlock h1 with h2 | h2
      · exact .inl h2
      · exact .inr ⟨p, List.mem_cons_self _ _, h2⟩
    · obtain ⟨q, hq, h2⟩ := h1
      exact .inr ⟨q, List.mem_cons_of_mem _ hq, h2⟩

theorem mem_localInfo_analyze {m : Mir} {l : Local} {r : UseRec}
    (h : r ∈ (analyze m).localInfo l) :
    ∃ b bb, m.basicBlocks[b]? = some bb ∧
      ((∃ i s, bb.statements[i]? = some s ∧ (l, r.context) ∈ statementOccs s ∧
          r.location = ⟨b, i⟩) ∨
       ((l, r.context) ∈ terminatorOccs bb.terminator ∧
          r.location = ⟨b, bb.statements.length⟩)) := by
  unfold analyze at h
  rcases mem_localInfo_blocksFold h with h1 | h1
  · exfalso
    have hb : (⟨List.replicate m.localDecls.length []⟩ : DefUseAnalysis).localInfo l = [] := by
      simp only [DefUseAnalysis.localInfo, List.getD_eq_getElem?_getD,
        List.getElem?_replicate]
      split <;> simp
    rw [hb] at h1
    exact absurd h1 (List.not_mem_nil r)
  · obtain ⟨p, hp, h2⟩ := h1
    obtain ⟨b, bb⟩ := p
    rw [List.mk_mem_enum_iff_getElem?] at hp
    exact ⟨b, bb, hp, h2⟩

theorem placeOccCtx_marker_eq {p : Place} {ctx : PlaceContext}
    (h : (placeOccCtx p ctx).isStorageMarker = true) :
    ctx.isStorageMarker = true := by
  cases p with
  | «local» l => exact h
  | proj l f =>
      simp only [placeOccCtx] at h
      split at h <;> simp [PlaceContext.isStorageMarker] at h

theorem operandOccs_not_marker {l : Local} {ctx : PlaceContext} {op : Operand}
    (h : (l, ctx) ∈ operandOccs op) : ctx.isStorageMarker = false := by
  cases op with
  | copy p =>
      simp only [operandOccs, placeOcc, List.mem_singleton, Prod.mk.injEq] at h
      obtain ⟨-, rfl⟩ := h
      by_contra hm
      have := @placeOccCtx_marker_eq p (.copyOp)
        (by simpa using Bool.of_not_eq_false hm)
      simp [PlaceContext.isStorageMarker] at this
  | move p =>
      simp only [operandOccs, placeOcc, List.mem_singleton, Prod.mk.injEq] at h
      obtain ⟨-, rfl⟩ := h
      by_contra hm
      have := @placeOccCtx_marker_eq p (.moveOp)
        (by simpa using Bool.of_not_eq_false hm)
      simp [PlaceContext.isStorageMarker] at this
  | constant c => simp [operandOccs] at h

theorem rvalueOccs_not_marker {l : Local} {ctx : PlaceContext} {rv : Rvalue}
    (h : (l, ctx) ∈ rvalueOccs rv) : ctx.isStorageMarker = false := by
  cases rv with
  | use_ op => exact operandOccs_not_marker h
  | ref p =>
      simp only [rvalueOccs, placeOcc, List.mem_singleton, Prod.mk.injEq] at h
      obtain ⟨-, rfl⟩ := h
      by_contra hm
      have := @placeOccCtx_marker_eq p (.borrow)
        (by simpa using Bool.of_not_eq_false hm)
      simp [PlaceContext.isStorageMarker] at this
  | binaryOp a b =>
      simp only [rvalueOccs, List.mem_append] at h
      rcases h with h | h <;> exact operandOccs_not_marker h
  | cast op => exact operandOccs_not_marker h

theorem terminatorOccs_not_marker {l : Local} {ctx : PlaceContext}
    {t : Terminator} (h : (l, ctx) ∈ terminatorOccs t) :
    ctx.isStorageMarker = false := by
  cases t with
  | ret => simp [terminatorOccs] at h
  | goto tgt => simp [terminatorOccs] at h
  | switchInt discr ts => exact operandOccs_not_marker h
  | dropTerm p tgt uw =>
      simp only [terminatorOccs, placeOcc, List.mem_singleton, Prod.mk.injEq] at h
      obtain ⟨-, rfl⟩ := h
      by_contra hm
      have := @placeOccCtx_marker_eq p (.dropCtx)
        (by simpa using Bool.of_not_eq_false hm)
      simp [PlaceContext.isStorageMarker] at this
  | call f args dest =>
      simp only [terminatorOccs, List.mem_append] at h
      rcases h with (h | h) | h
      · exact operandOccs_not_marker h
      · rw [List.mem_flatMap] at h
        obtain ⟨arg, -, h⟩ := h
        exact operandOccs_not_marker h
      · match dest with
        | none => simp at h
        | some (p, bbn) =>
            simp only [List.mem_singleton, placeOcc, Prod.mk.injEq] at h
            obtain ⟨-, rfl⟩ := h
            by_contra hm
            have := @placeOccCtx_marker_eq p (.callDest)
              (by simpa using Bool.of_not_eq_false hm)
            simp [PlaceContext.isStorageMarker] at this

theorem statementOccs_marker {l : Local} {ctx : PlaceContext} {s : Statement}
    (h : (l, ctx) ∈ statementOccs s) (hm : ctx.isStorageMarker = true) :
    s = .storageLive l ∨ s = .storageDead l := by
  cases s with
  | assign p rv =>
      simp only [statementOccs, List.mem_cons] at h
      rcases h with h | h
      · exfalso
        simp only [placeOcc, Prod.mk.injEq] at h
        obtain ⟨-, rfl⟩ := h
        have := @placeOccCtx_marker_eq p (.store) hm
        simp [PlaceContext.isStorageMarker] at this
      · rw [rvalueOccs_not_marker h] at hm; cases hm
  | storageLive l' =>
      simp only [statementOccs, List.mem_singleton, Prod.mk.injEq] at h
      exact .inl (by rw [h.1])
  | storageDead l' =>
      simp only [statementOccs, List.mem_singleton, Prod.mk.injEq] at h
      exact .inr (by rw [h.1])
  | nop => simp [statementOccs] at h

/-- Soundness of the analysis for storage markers: a recorded
storage-marker occurrence of `l` points at an actual
`StorageLive(l)`/`StorageDead(l)` statement. -/
theorem analyze_marker_at {m : Mir} {l : Local} {r : UseRec}
    (h : r ∈ (analyze m).localInfo l) (hm : r.context.isStorageMarker = true) :
    statementAt m r.location = some (.storageLive l) ∨
    statementAt m r.location = some (.storageDead l) := by
  obtain ⟨b, bb, hbb, hcase⟩ := mem_localInfo_analyze h
  have hblk : getBlock m b = bb := by
    simp [getBlock, List.getD_eq_getElem?_getD, hbb]
  rcases hcase with ⟨i, s, hs, hmem, hloc⟩ | ⟨hmem, hloc⟩
  · rcases statementOccs_marker hmem hm with rfl | rfl
    · exact .inl (by simp [statementAt, hloc, hblk, List.get?_eq_getElem?, hs])
    · exact .inr (by simp [statementAt, hloc, hblk, List.get?_eq_getElem?, hs])
  · rw [terminatorOccs_not_marker hmem] at hm; cases hm

theorem getBlock_setBlock (m : Mir) (b c : Nat) (bb : BasicBlock) :
    getBlock (setBlock m b bb) c =
      if b = c ∧ b < m.basicBlocks.length then bb else getBlock m c := by
  simp only [getBlock, setBlock, List.getD_eq_getElem?_getD, List.getElem?_set]
  by_cases hbc : b = c
  · subst hbc
    by_cases hl : b < m.basicBlocks.length
    · simp [hl]
    · simp [hl, List.getElem?_eq_none (Nat.le_of_not_lt hl)]
  · simp [hbc]

theorem setBlock_getBlock_self (m : Mir) (b : Nat) :
    setBlock m b (getBlock m b) = m := by
  by_cases hl : b < m.basicBlocks.length
  · have hsome : m.basicBlocks[b]? = some (getBlock m b) := by
      simp [getBlock, List.getD_eq_getElem?_getD, List.getElem?_eq_getElem hl]
    show Mir.mk m.localDecls (m.basicBlocks.set b (getBlock m b)) = m
    rw [list_set_self hsome]
  · show Mir.mk m.localDecls (m.basicBlocks.set b (getBlock m b)) = m
    rw [List.set_eq_of_length_le (Nat.le_of_not_lt hl)]

theorem statementAt_some_block_lt {m : Mir} {loc : Location} {s : Statement}
    (h : statementAt m loc = some s) : loc.block < m.basicBlocks.length := by
  by_contra hb
  have he : getBlock m loc.block = emptyBlock := by
    simp [getBlock, List.getD_eq_getElem?_getD,
      List.getElem?_eq_none (Nat.le_of_not_lt hb)]
  rw [statementAt, he] at h
  simp [emptyBlock] at h

theorem statementAt_makeStatementNop_ne (m : Mir) (r loc : Location)
    (h : r ≠ loc) :
    statementAt (makeStatementNop m r) loc = statementAt m loc := by
  rw [statementAt, statementAt, makeStatementNop, getBlock_setBlock]
  by_cases hb : r.block = loc.block ∧ r.block < m.basicBlocks.length
  · rw [if_pos hb]
    have hidx : r.statementIndex ≠ loc.statementIndex := by
      intro he
      exact h (by cases r; cases loc; simp_all)
    simp [hb.1, List.get?_eq_getElem?, List.getElem?_set_ne hidx]
  · rw [if_neg hb]

theorem statementAt_makeStatementNop_self {m : Mir} {loc : Location}
    {s : Statement} (h : statementAt m loc = some s) :
    statementAt (makeStatementNop m loc) loc = some .nop := by
  have hblk := statementAt_some_block_lt h
  have hidx : loc.statementIndex < (getBlock m loc.block).statements.length := by
    rw [statementAt, List.get?_eq_getElem?] at h
    exact (List.getElem?_eq_some_iff.mp h).1
  rw [statementAt, makeStatementNop, getBlock_setBlock, if_pos ⟨rfl, hblk⟩]
  simp [List.get?_eq_getElem?, List.getElem?_set_self (by simpa using hidx)]

theorem statementAt_nopStorageMarkers (recs : List UseRec) (m : Mir)
    (loc : Location) (h : ∀ r ∈ recs, r.context.isStorageMarker → r.location ≠ loc) :
    statementAt (nopStorageMarkers recs m) loc = statementAt m loc := by
  induction recs generalizing m with
  | nil => rfl
  | cons r rest ih =>
    show statementAt (nopStorageMarkers rest
      (if r.context.isStorageMarker then makeStatementNop m r.location else m)) loc =
      statementAt m loc
    by_cases hm : r.context.isStorageMarker
    · rw [if_pos hm, ih _ (fun q hq => h q (List.mem_cons_of_mem _ hq)),
        statementAt_makeStatementNop_ne _ _ _ (h r (List.mem_cons_self _ _) hm)]
    · rw [if_neg hm, ih _ (fun q hq => h q (List.mem_cons_of_mem _ hq))]

theorem constPropLocation_preserves {dest : Local} {c : Constant}
    {loc : Location} (r : Location) (st : Mir × Nat)
    (h : statementAt st.1 loc =
      some (.assign (.local dest) (.use_ (.constant c)))) :
    statementAt (constPropLocation dest c r st).1 loc =
      some (.assign (.local dest) (.use_ (.constant c))) := by
  obtain ⟨m, k⟩ := st
  by_cases hr : r = loc
  · subst hr
    have hblk := statementAt_some_block_lt h
    have hidx : r.statementIndex < (getBlock m r.block).statements.length := by
      rw [statementAt, List.get?_eq_getElem?] at h
      exact (List.getElem?_eq_some_iff.mp h).1
    have hget : (getBlock m r.block).statements.get ⟨r.statementIndex, hidx⟩ =
        Statement.assign (.local dest) (.use_ (.constant c)) := by
      rw [statementAt, List.get?_eq_getElem?] at h
      simpa [List.getElem?_eq_getElem hidx] using h
    rw [constPropLocation]
    rw [dif_pos hidx]
    rw [hget]
    show statementAt (setBlock m r.block _) r = _
    rw [statementAt, getBlock_setBlock, if_pos ⟨rfl, hblk⟩]
    have : (constPropStatement dest c
        (Statement.assign (.local dest) (.use_ (.constant c)))).1 =
        Statement.assign (.local dest) (.use_ (.constant c)) := rfl
    simp only [this, List.get?_eq_getElem?]
    rw [List.getElem?_set_self (by simpa using hidx)]
  · rw [constPropLocation]
    by_cases hidx : r.statementIndex < (getBlock m r.block).statements.length
    · rw [dif_pos hidx]
      show statementAt (setBlock m r.block _) loc = _
      rw [statementAt, getBlock_setBlock]
      by_cases hb : r.block = loc.block ∧ r.block < m.basicBlocks.length
      · rw [if_pos hb]
        have hne : r.statementIndex ≠ loc.statementIndex := by
          intro he
          exact hr (by cases r; cases loc; simp_all [hb.1])
        rw [statementAt] at h
        simp only [List.get?_eq_getElem?] at h ⊢
        rw [List.getElem?_set_ne hne, hb.1]
        exact h
      · rw [if_neg hb, ← statementAt, h]
    · rw [dif_neg hidx]
      show statementAt (setBlock m r.block _) loc = _
      rw [statementAt, getBlock_setBlock]
      by_cases hb : r.block = loc.block ∧ r.block < m.basicBlocks.length
      · rw [if_pos hb]
        show (getBlock m r.block).statements.get? loc.statementIndex = _
        rw [hb.1]
        exact h
      · rw [if_neg hb, ← statementAt, h]

theorem constPropApply_preserves {dest : Local} {c : Constant} {loc : Location}
    (recs : List UseRec) (m : Mir)
    (h : statementAt m loc = some (.assign (.local dest) (.use_ (.constant c)))) :
    statementAt (constPropApply dest c recs m).1 loc =
      some (.assign (.local dest) (.use_ (.constant c))) := by
  suffices hgen : ∀ st : Mir × Nat,
      statementAt st.1 loc = some (.assign (.local dest) (.use_ (.constant c))) →
      statementAt (recs.foldl (fun st r => constPropLocation dest c r.location st) st).1 loc =
        some (.assign (.local dest) (.use_ (.constant c))) by
    exact hgen (m, 0) h
  induction recs with
  | nil => intro st h'; exact h'
  | cons r rest ih =>
      intro st h'
      rw [List.foldl_cons]
      exact ih _ (constPropLocation_preserves r.location st h')

theorem constPropOperand_zero {dest : Local} {c : Constant} {op : Operand}
    (h : (constPropOperand dest c op).2 = 0) :
    (constPropOperand dest c op).1 = op := by
  cases op with
  | copy p =>
      cases p with
      | «local» l =>
          by_cases hl : l = dest
          · simp [constPropOperand, hl] at h
          · simp [constPropOperand, hl]
      | proj l f => rfl
  | move p =>
      cases p with
      | «local» l =>
          by_cases hl : l = dest
          · simp [constPropOperand, hl] at h
          · simp [constPropOperand, hl]
      | proj l f => rfl
  | constant c' => rfl

theorem constPropRvalue_zero {dest : Local} {c : Constant} {rv : Rvalue}
    (h : (constPropRvalue dest c rv).2 = 0) :
    (constPropRvalue dest c rv).1 = rv := by
  cases rv with
  | use_ op =>
      have := @constPropOperand_zero dest c op
      simp only [constPropRvalue] at h ⊢
      rw [this h]
  | ref p => rfl
  | binaryOp a b =>
      simp only [constPropRvalue] at h ⊢
      have ha : (constPropOperand dest c a).2 = 0 := by omega
      have hb : (constPropOperand dest c b).2 = 0 := by omega
      rw [constPropOperand_zero ha, constPropOperand_zero hb]
  | cast op =>
      have := @constPropOperand_zero dest c op
      simp only [constPropRvalue] at h ⊢
      rw [this h]

theorem constPropStatement_zero {dest : Local} {c : Constant} {s : Statement}
    (h : (constPropStatement dest c s).2 = 0) :
    (constPropStatement dest c s).1 = s := by
  cases s with
  | assign p rv =>
      simp only [constPropStatement] at h ⊢
      rw [constPropRvalue_zero h]
  | storageLive l => rfl
  | storageDead l => rfl
  | nop => rfl

theorem constPropArgs_zero {dest : Local} {c : Constant} (args : List Operand)
    (h : (args.foldr
      (fun arg acc =>
        let (argr, n) := constPropOperand dest c arg
        (argr :: acc.1, n + acc.2)) ([], 0)).2 = 0) :
    (args.foldr
      (fun arg acc =>
        let (argr, n) := constPropOperand dest c arg
        (argr :: acc.1, n + acc.2)) ([], 0)).1 = args := by
  induction args with
  | nil => rfl
  | cons a rest ih =>
      simp only [List.foldr_cons] at h ⊢
      rcases hop : constPropOperand dest c a with ⟨a1, n1⟩
      rw [hop] at h
      rcases hrest : (rest.foldr
        (fun arg acc =>
          let (argr, n) := constPropOperand dest c arg
          (argr :: acc.1, n + acc.2)) ([], 0)) with ⟨l2, n2⟩
      rw [hrest] at h ih ⊢
      simp only at h ⊢
      have h1 : (constPropOperand dest c a).2 = 0 := by rw [hop]; simp; omega
      have h2 : n2 = 0 := by omega
      have := constPropOperand_zero h1
      rw [hop] at this
      simp only at this
      have hih := ih (by simp [h2])
      simp only at hih
      rw [this, hih]

theorem constPropTerminator_zero {dest : Local} {c : Constant} {t : Terminator}
    (h : (constPropTerminator dest c t).2 = 0) :
    (constPropTerminator dest c t).1 = t := by
  cases t with
  | ret => rfl
  | goto tgt => rfl
  | switchInt discr ts =>
      simp only [constPropTerminator] at h ⊢
      rw [constPropOperand_zero h]
  | dropTerm p tgt uw => rfl
  | call f args dest' =>
      simp only [constPropTerminator] at h ⊢
      rcases hargs : (args.foldr
        (fun arg acc =>
          let (argr, n) := constPropOperand dest c arg
          (argr :: acc.1, n + acc.2)) ([], 0)) with ⟨l2, n2⟩
      rw [hargs] at h ⊢
      simp only at h ⊢
      have ha : (args.foldr
        (fun arg acc =>
          let (argr, n) := constPropOperand dest c arg
          (argr :: acc.1, n + acc.2)) ([], 0)).2 = 0 := by rw [hargs]; simp; omega
      have hf : (constPropOperand dest c f).2 = 0 := by omega
      have h2 := constPropArgs_zero args ha
      rw [hargs] at h2
      simp only at h2
      rw [constPropOperand_zero hf, h2]

theorem constPropLocation_mono (dest : Local) (c : Constant) (r : Location)
    (st : Mir × Nat) : st.2 ≤ (constPropLocation dest c r st).2 := by
  obtain ⟨m, k⟩ := st
  rw [constPropLocation]
  split
  · exact Nat.le_add_right _ _
  · exact Nat.le_add_right _ _

theorem constPropLocation_zero (dest : Local) (c : Constant) (r : Location)
    (st : Mir × Nat) (h : (constPropLocation dest c r st).2 = st.2) :
    (constPropLocation dest c r st).1 = st.1 := by
  obtain ⟨m, k⟩ := st
  rw [constPropLocation] at h ⊢
  split at h
  · next hidx =>
      rw [dif_pos hidx] at *
      simp only at h ⊢
      have hz : (constPropStatement dest c
          ((getBlock m r.block).statements.get ⟨r.statementIndex, hidx⟩)).2 = 0 := by
        omega
      rw [constPropStatement_zero hz]
      have hget : (getBlock m r.block).statements[r.statementIndex]? =
          some ((getBlock m r.block).statements.get ⟨r.statementIndex, hidx⟩) := by
        simp [List.getElem?_eq_getElem hidx]
      show setBlock m r.block ⟨_, _⟩ = m
      rw [list_set_self hget]
      show setBlock m r.block (getBlock m r.block) = m
      exact setBlock_getBlock_self m r.block
  · next hidx =>
      rw [dif_neg hidx] at *
      simp only at h ⊢
      have hz : (constPropTerminator dest c (getBlock m r.block).terminator).2 = 0 := by
        omega
      rw [constPropTerminator_zero hz]
      show setBlock m r.block (getBlock m r.block) = m
      exact setBlock_getBlock_self m r.block

theorem constPropFold_mono (dest : Local) (c : Constant) (recs : List UseRec)
    (st : Mir × Nat) :
    st.2 ≤ ((recs.foldl (fun st r => constPropLocation dest c r.location st) st)).2 := by
  induction recs generalizing st with
  | nil => exact Nat.le_refl _
  | cons r rest ih =>
      exact Nat.le_trans (constPropLocation_mono dest c r.location st) (ih _)

theorem constPropFold_zero (dest : Local) (c : Constant) (recs : List UseRec)
    (st : Mir × Nat)
    (h : ((recs.foldl (fun st r => constPropLocation dest c r.location st) st)).2 = st.2) :
    ((recs.foldl (fun st r => constPropLocation dest c r.location st) st)).1 = st.1 := by
  induction recs generalizing st with
  | nil => rfl
  | cons r rest ih =>
      rw [List.foldl_cons] at h ⊢
      have hmid : (constPropLocation dest c r.location st).2 = st.2 := by
        have h1 := constPropLocation_mono dest c r.location st
        have h2 := constPropFold_mono dest c rest (constPropLocation dest c r.location st)
        omega
      rw [ih _ (by rw [h, ← hmid]), constPropLocation_zero _ _ _ _ hmid]

theorem perform_constant_unfold (m : Mir) (a : DefUseAnalysis) (dest : Local)
    (c : Constant) (loc : Location) (m2 : Mir) (replaced : Nat)
    (hmr : constPropApply dest c (a.localInfo dest)
      (nopStorageMarkers (a.localInfo dest) m) = (m2, replaced)) :
    Action.perform (.propagateConstant c) m a dest loc =
      (if replaced = useCount (a.localInfo dest)
       then (makeStatementNop m2 loc, a, true)
       else if replaced = 0 then (m2, a, false) else (m2, a, true)) := by
  simp only [Action.perform, hmr]

end CP

open CP in
/-- **C6**: in the constant case (the single definition of `dest` is
`Assign(dest, Use(Constant c))` at `loc`), only operand-position
(use-context) occurrences of `dest` are rewritten — in particular the
defining assignment itself is never rewritten by the visitor — and the
assignment is nopped iff the number of occurrences actually rewritten
equals `useCount(dest)`; when none were rewritten the body is exactly
the markers-nopped body (assignment untouched), and when some but not
all were rewritten the assignment stays while the rewritten uses are
kept (the result is exactly the visitor's output body). -/
theorem copy_prop_constant_case_behavior (m : Mir) (dest : Local)
    (c : Constant) (loc : Location)
    (hstmt : statementAt m loc =
      some (.assign (.local dest) (.use_ (.constant c)))) :
    statementAt (constPropApply dest c ((analyze m).localInfo dest)
        (nopStorageMarkers ((analyze m).localInfo dest) m)).1 loc =
      statementAt m loc ∧
    (statementAt (Action.perform (.propagateConstant c) m (analyze m) dest loc).1 loc =
        some .nop ↔
      (constPropApply dest c ((analyze m).localInfo dest)
        (nopStorageMarkers ((analyze m).localInfo dest) m)).2 =
        useCount ((analyze m).localInfo dest)) ∧
    ((constPropApply dest c ((analyze m).localInfo dest)
        (nopStorageMarkers ((analyze m).localInfo dest) m)).2 ≠
        useCount ((analyze m).localInfo dest) →
      (Action.perform (.propagateConstant c) m (analyze m) dest loc).1 =
        (constPropApply dest c ((analyze m).localInfo dest)
          (nopStorageMarkers ((analyze m).localInfo dest) m)).1) ∧
    ((constPropApply dest c ((analyze m).localInfo dest)
        (nopStorageMarkers ((analyze m).localInfo dest) m)).2 = 0 →
      (constPropApply dest c ((analyze m).localInfo dest)
        (nopStorageMarkers ((analyze m).localInfo dest) m)).1 =
        nopStorageMarkers ((analyze m).localInfo dest) m) := by
  have hmark : ∀ r ∈ (analyze m).localInfo dest,
      r.context.isStorageMarker → r.location ≠ loc := by
    intro r hr hm he
    rcases analyze_marker_at hr hm with h' | h' <;>
      rw [he, hstmt] at h' <;> simp at h'
  have hm1 : statementAt (nopStorageMarkers ((analyze m).localInfo dest) m) loc =
      statementAt m loc :=
    statementAt_nopStorageMarkers _ _ _ hmark
  rcases hmr : constPropApply dest c ((analyze m).localInfo dest)
      (nopStorageMarkers ((analyze m).localInfo dest) m) with ⟨m2, replaced⟩
  have hres : statementAt m2 loc =
      some (.assign (.local dest) (.use_ (.constant c))) := by
    have := @constPropApply_preserves dest c loc
      ((analyze m).localInfo dest) (nopStorageMarkers ((analyze m).localInfo dest) m)
      (by rw [hm1, hstmt])
    rw [hmr] at this
    exact this
  have hperf := perform_constant_unfold m (analyze m) dest c loc m2 replaced hmr
  refine ⟨by simpa using (hres.trans hstmt.symm), ?_, ?_, ?_⟩
  · rw [hperf]
    by_cases hx : replaced = useCount ((analyze m).localInfo dest)
    · rw [if_pos hx]
      simp only
      rw [statementAt_makeStatementNop_self hres]
      simp [hx]
    · rw [if_neg hx]
      by_cases h0 : replaced = 0
      · rw [if_pos h0]
        simp only
        rw [hres]
        simp [hx]
      · rw [if_neg h0]
        simp only
        rw [hres]
        simp [hx]
  · intro hx
    rw [hperf, if_neg (by simpa using hx)]
    by_cases h0 : replaced = 0
    · rw [if_pos h0]
    · rw [if_neg h0]
  · intro h0
    simp only at h0
    have := constPropFold_zero dest c ((analyze m).localInfo dest)
      (nopStorageMarkers ((analyze m).localInfo dest) m, 0)
      (by
        show (constPropApply dest c _ _).2 = _
        rw [hmr]
        simpa using h0)
    show m2 = _
    have hh : (constPropApply dest c ((analyze m).localInfo dest)
        (nopStorageMarkers ((analyze m).localInfo dest) m)).1 =
        nopStorageMarkers ((analyze m).localInfo dest) m := this
    rw [hmr] at hh
    exact hh

open CP in
/-- Witness for `copy_prop_constant_case_behavior` at a concrete body:
`constChainBody` with `dest = 1`, `c = 5`, `loc = (0,0)`. -/
theorem copy_prop_constant_case_behavior_witness :
    (statementAt constChainBody ⟨0, 0⟩ =
      some (.assign (.local 1) (.use_ (.constant 5)))) ∧
    (statementAt (constPropApply 1 5 ((analyze constChainBody).localInfo 1)
        (nopStorageMarkers ((analyze constChainBody).localInfo 1) constChainBody)).1 ⟨0, 0⟩ =
      statementAt constChainBody ⟨0, 0⟩ ∧
    (statementAt (Action.perform (.propagateConstant 5) constChainBody
        (analyze constChainBody) 1 ⟨0, 0⟩).1 ⟨0, 0⟩ = some .nop ↔
      (constPropApply 1 5 ((analyze constChainBody).localInfo 1)
        (nopStorageMarkers ((analyze constChainBody).localInfo 1) constChainBody)).2 =
        useCount ((analyze constChainBody).localInfo 1)) ∧
    ((constPropApply 1 5 ((analyze constChainBody).localInfo 1)
        (nopStorageMarkers ((analyze constChainBody).localInfo 1) constChainBody)).2 ≠
        useCount ((analyze constChainBody).localInfo 1) →
      (Action.perform (.propagateConstant 5) constChainBody
        (analyze constChainBody) 1 ⟨0, 0⟩).1 =
        (constPropApply 1 5 ((analyze constChainBody).localInfo 1)
          (nopStorageMarkers ((analyze constChainBody).localInfo 1) constChainBody)).1) ∧
    ((constPropApply 1 5 ((analyze constChainBody).localInfo 1)
        (nopStorageMarkers ((analyze constChainBody).localInfo 1) constChainBody)).2 = 0 →
      (constPropApply 1 5 ((analyze constChainBody).localInfo 1)
        (nopStorageMarkers ((analyze constChainBody).localInfo 1) constChainBody)).1 =
        nopStorageMarkers ((analyze constChainBody).localInfo 1) constChainBody)) :=
  ⟨by decide, copy_prop_constant_case_behavior constChainBody 1 5 ⟨0, 0⟩ (by decide)⟩

namespace CP

theorem mutatePosition_info_ne (query : Local) (np : Place) (loc : Location)
    (p : Place) (ctx : PlaceContext) (a : DefUseAnalysis) (l : Local)
    (h : query ≠ l) :
    (mutatePosition query np loc p ctx a).2.localInfo l = a.localInfo l := by
  simp only [mutatePosition]
  by_cases hmain : p = Place.local query ∧ ctx.isUse
  · simp only [if_pos hmain]
    split
    · rw [localInfo_pushRec_ne _ _ _ _ h, localInfo_removeRec_ne _ _ _ _ h]
    · rw [localInfo_removeRec_ne _ _ _ _ h]
  · simp only [if_neg hmain]
    cases p with
    | «local» l2 => rfl
    | proj l2 f =>
        by_cases hl : l2 = query
        · simp only [if_pos hl]
          split
          · rw [localInfo_pushRec_ne _ _ _ _ h, localInfo_removeRec_ne _ _ _ _ h]
          · rw [localInfo_removeRec_ne _ _ _ _ h]
        · simp only [if_neg hl]

theorem mutateOperand_info_ne (query : Local) (np : Place) (loc : Location)
    (op : Operand) (a : DefUseAnalysis) (l : Local) (h : query ≠ l) :
    (mutateOperand query np loc op a).2.localInfo l = a.localInfo l := by
  cases op with
  | copy p => exact mutatePosition_info_ne query np loc p .copyOp a l h
  | move p => exact mutatePosition_info_ne query np loc p .moveOp a l h
  | constant c => rfl

theorem mutateRvalue_info_ne (query : Local) (np : Place) (loc : Location)
    (rv : Rvalue) (a : DefUseAnalysis) (l : Local) (h : query ≠ l) :
    (mutateRvalue query np loc rv a).2.localInfo l = a.localInfo l := by
  cases rv with
  | use_ op => exact mutateOperand_info_ne query np loc op a l h
  | ref p => exact mutatePosition_info_ne query np loc p .borrow a l h
  | binaryOp x y =>
      exact (mutateOperand_info_ne query np loc y
        (mutateOperand query np loc x a).2 l h).trans
        (mutateOperand_info_ne query np loc x a l h)
  | cast op => exact mutateOperand_info_ne query np loc op a l h

theorem mutateStatement_info_ne (query : Local) (np : Place) (loc : Location)
    (s : Statement) (a : DefUseAnalysis) (l : Local) (h : query ≠ l) :
    (mutateStatement query np loc s a).2.localInfo l = a.localInfo l := by
  cases s with
  | assign p rv =>
      exact (mutateRvalue_info_ne query np loc rv
        (mutatePosition query np loc p .store a).2 l h).trans
        (mutatePosition_info_ne query np loc p .store a l h)
  | storageLive l2 => rfl
  | storageDead l2 => rfl
  | nop => rfl

theorem mutateArgs_info_ne (query : Local) (np : Place) (loc : Location)
    (args : List Operand) (a : DefUseAnalysis) (l : Local) (h : query ≠ l) :
    ((args.foldr
      (fun arg acc =>
        let (argr, ar) := mutateOperand query np loc arg acc.2
        (argr :: acc.1, ar))
      (([] : List Operand), a)).2).localInfo l = a.localInfo l := by
  induction args with
  | nil => rfl
  | cons arg rest ih =>
      exact (mutateOperand_info_ne query np loc arg
        ((rest.foldr
          (fun arg acc =>
            let (argr, ar) := mutateOperand query np loc arg acc.2
            (argr :: acc.1, ar))
          (([] : List Operand), a)).2) l h).trans ih

theorem mutateTerminator_info_ne (query : Local) (np : Place) (loc : Location)
    (t : Terminator) (a : DefUseAnalysis) (l : Local) (h : query ≠ l) :
    (mutateTerminator query np loc t a).2.localInfo l = a.localInfo l := by
  cases t with
  | ret => rfl
  | goto tgt => rfl
  | switchInt discr ts => exact mutateOperand_info_ne query np loc discr a l h
  | dropTerm p tgt uw => exact mutatePosition_info_ne query np loc p .dropCtx a l h
  | call f args dest =>
      cases dest with
      | some pb =>
          obtain ⟨p, bbn⟩ := pb
          exact ((mutatePosition_info_ne query np loc p .callDest
              ((args.foldr
                (fun arg acc =>
                  let (argr, ar) := mutateOperand query np loc arg acc.2
                  (argr :: acc.1, ar))
                (([] : List Operand), (mutateOperand query np loc f a).2)).2) l h).trans
            (mutateArgs_info_ne query np loc args
              (mutateOperand query np loc f a).2 l h)).trans
            (mutateOperand_info_ne query np loc f a l h)
      | none =>
          exact (mutateArgs_info_ne query np loc args
            (mutateOperand query np loc f a).2 l h).trans
            (mutateOperand_info_ne query np loc f a l h)

theorem mutateLocation_info_ne (query : Local) (np : Place) (loc : Location)
    (st : Mir × DefUseAnalysis) (l : Local) (h : query ≠ l) :
    (mutateLocation query np loc st).2.localInfo l = st.2.localInfo l := by
  obtain ⟨m, a⟩ := st
  rw [mutateLocation]
  split
  · next hidx =>
      exact mutateStatement_info_ne query np loc
        ((getBlock m loc.block).statements.get ⟨loc.statementIndex, hidx⟩) a l h
  · exact mutateTerminator_info_ne query np loc
      (getBlock m loc.block).terminator a l h

end CP

open CP in
/-- **C7 amended**: `replace_all_defs_and_uses_with(local, newPlace)`
rewrites the recorded occurrences' IR nodes in place, and the only
occurrence list it updates is `local`'s own (the matched entries are
removed from it; both the removal and the addition callbacks are guarded
by the queried local, so the list of any other local — in particular of
`newPlace`'s local — is left unchanged; the analysis goes stale and
callers must re-run `analyze`). -/
theorem replace_all_only_query_updated (query : Local) (np : Place)
    (m : Mir) (a : DefUseAnalysis) (l : Local) (h : l ≠ query) :
    (replaceAllDefsAndUsesWith query np m a).2.localInfo l = a.localInfo l := by
  rw [replaceAllDefsAndUsesWith]
  have hq : query ≠ l := fun he => h he.symm
  generalize a.localInfo query = recs
  induction recs generalizing m a with
  | nil => rfl
  | cons r rest ih =>
      rw [List.foldl_cons]
      rcases hloc : mutateLocation query np r.location (m, a) with ⟨m2, a2⟩
      have := mutateLocation_info_ne query np r.location (m, a) l hq
      rw [hloc] at this
      simp only at this
      rw [ih m2 a2, this]

open CP in
/-- Witness for `replace_all_only_query_updated`: replacing local 0 by
local 1 on the copy chain leaves local 2's occurrence list unchanged. -/
theorem replace_all_only_query_updated_witness :
    (2 : CP.Local) ≠ 0 ∧
    (replaceAllDefsAndUsesWith 0 (.local 1) chainBody (analyze chainBody)).2.localInfo 2 =
      (analyze chainBody).localInfo 2 :=
  ⟨by decide, replace_all_only_query_updated 0 (.local 1) chainBody
    (analyze chainBody) 2 (by decide)⟩

namespace RD

theorem reachesFrom_mono {m : Mir} {pm : PredecessorMap} {droppee : Lvalue}
    {curBb : Nat} {S S' : List Nat} {b : Nat}
    (h : ReachesFrom m pm droppee curBb S b) (hs : ∀ x ∈ S, x ∈ S') :
    ReachesFrom m pm droppee curBb S' b := by
  induction h with
  | base hb => exact .base (hs _ hb)
  | step hr hc hp ih => exact .step ih hc hp

theorem dropSearch_commit_sound (m : Mir) (pm : PredecessorMap)
    (droppee : Lvalue) (curBb : Nat) :
    ∀ fuel wl seen,
      dropSearch m pm droppee curBb fuel wl seen = some true →
      (∀ x ∈ seen, inspectBlock m pm droppee curBb x ≠ .abort) →
      (∀ x ∈ seen, inspectBlock m pm droppee curBb x = .cont →
        ∀ p ∈ pm.predecessors x, p ∈ seen ∨ p ∈ wl) →
      ∀ b, ReachesFrom m pm droppee curBb (wl ++ seen) b →
        inspectBlock m pm droppee curBb b ≠ .abort := by
  intro fuel
  induction fuel with
  | zero => intro wl seen h; cases h
  | succ fuel ih =>
      intro wl seen h inv1 inv2 b hreach
      match wl with
      | [] =>
          have key : ∀ b, ReachesFrom m pm droppee curBb ([] ++ seen) b →
              b ∈ seen ∧ inspectBlock m pm droppee curBb b ≠ .abort := by
            intro b hb
            induction hb with
            | base hb' => exact ⟨by simpa using hb', inv1 _ (by simpa using hb')⟩
            | step hr hc hp ihh =>
                rcases inv2 _ ihh.1 hc _ hp with hmem | hmem
                · exact ⟨hmem, inv1 _ hmem⟩
                · cases hmem
          exact (key b hreach).2
      | bb :: rest =>
          rw [dropSearch] at h
          by_cases hseen : bb ∈ seen
          · rw [if_pos hseen] at h
            refine ih rest seen h inv1 ?_ b ?_
            · intro x hx hc p hp
              rcases inv2 x hx hc p hp with hm | hm
              · exact .inl hm
              · rcases List.mem_cons.mp hm with rfl | hm
                · exact .inl hseen
                · exact .inr hm
            · refine reachesFrom_mono hreach ?_
              intro x hx
              rcases List.mem_append.mp hx with hx | hx
              · rcases List.mem_cons.mp hx with rfl | hx
                · exact List.mem_append.mpr (.inr hseen)
                · exact List.mem_append.mpr (.inl hx)
              · exact List.mem_append.mpr (.inr hx)
          · rw [if_neg hseen] at h
            cases hins : inspectBlock m pm droppee curBb bb with
            | abort => rw [hins] at h; cases h
            | satisfied =>
                rw [hins] at h
                refine ih rest (bb :: seen) h ?_ ?_ b ?_
                · intro x hx
                  rcases List.mem_cons.mp hx with rfl | hx
                  · rw [hins]; intro hcc; cases hcc
                  · exact inv1 x hx
                · intro x hx hc p hp
                  rcases List.mem_cons.mp hx with rfl | hx
                  · rw [hins] at hc; cases hc
                  · rcases inv2 x hx hc p hp with hm | hm
                    · exact .inl (List.mem_cons_of_mem _ hm)
                    · rcases List.mem_cons.mp hm with rfl | hm
                      · exact .inl (List.mem_cons_self _ _)
                      · exact .inr hm
                · refine reachesFrom_mono hreach ?_
                  intro x hx
                  rcases List.mem_append.mp hx with hx | hx
                  · rcases List.mem_cons.mp hx with rfl | hx
                    · exact List.mem_append.mpr (.inr (List.mem_cons_self _ _))
                    · exact List.mem_append.mpr (.inl hx)
                  · exact List.mem_append.mpr (.inr (List.mem_cons_of_mem _ hx))
            | cont =>
                rw [hins] at h
                refine ih _ (bb :: seen) h ?_ ?_ b ?_
                · intro x hx
                  rcases List.mem_cons.mp hx with rfl | hx
                  · rw [hins]; intro hcc; cases hcc
                  · exact inv1 x hx
                · intro x hx hc p hp
                  rcases List.mem_cons.mp hx with rfl | hx
                  · exact .inr (List.mem_append.mpr
                      (.inl (List.mem_reverse.mpr hp)))
                  · rcases inv2 x hx hc p hp with hm | hm
                    · exact .inl (List.mem_cons_of_mem _ hm)
                    · rcases List.mem_cons.mp hm with rfl | hm
                      · exact .inl (List.mem_cons_self _ _)
                      · exact .inr (List.mem_append.mpr (.inr hm))
                · refine reachesFrom_mono hreach ?_
                  intro x hx
                  rcases List.mem_append.mp hx with hx | hx
                  · rcases List.mem_cons.mp hx with rfl | hx
                    · exact List.mem_append.mpr (.inr (List.mem_cons_self _ _))
                    · exact List.mem_append.mpr
                        (.inl (List.mem_append.mpr (.inr hx)))
                  · exact List.mem_append.mpr (.inr (List.mem_cons_of_mem _ hx))

theorem dropSearch_abort_sound (m : Mir) (pm : PredecessorMap)
    (droppee : Lvalue) (curBb : Nat) :
    ∀ fuel wl seen,
      dropSearch m pm droppee curBb fuel wl seen = some false →
      (∀ x ∈ wl, Reaches m pm droppee curBb x) →
      ∃ b, Reaches m pm droppee curBb b ∧
        inspectBlock m pm droppee curBb b = .abort := by
  intro fuel
  induction fuel with
  | zero => intro wl seen h; cases h
  | succ fuel ih =>
      intro wl seen h hwl
      match wl with
      | [] => cases h
      | bb :: rest =>
          rw [dropSearch] at h
          by_cases hseen : bb ∈ seen
          · rw [if_pos hseen] at h
            exact ih rest seen h (fun x hx => hwl x (List.mem_cons_of_mem _ hx))
          · rw [if_neg hseen] at h
            cases hins : inspectBlock m pm droppee curBb bb with
            | abort => exact ⟨bb, hwl bb (List.mem_cons_self _ _), hins⟩
            | satisfied =>
                rw [hins] at h
                exact ih rest (bb :: seen) h
                  (fun x hx => hwl x (List.mem_cons_of_mem _ hx))
            | cont =>
                rw [hins] at h
                refine ih _ (bb :: seen) h ?_
                intro x hx
                rcases List.mem_append.mp hx with hx | hx
                · exact .step (hwl bb (List.mem_cons_self _ _)) hins
                    (List.mem_reverse.mp hx)
                · exact hwl x (List.mem_cons_of_mem _ hx)

end RD

namespace RD

/-- Every block a search can push is either the start block or an entry
of some predecessor list. -/
theorem predecessors_subset_flatten (pm : PredecessorMap) (b x : Nat)
    (h : x ∈ pm.predecessors b) : x ∈ pm.map.flatten := by
  rw [PredecessorMap.predecessors, List.getD_eq_getElem?_getD] at h
  cases hb : pm.map[b]? with
  | none => rw [hb] at h; simp at h
  | some l =>
      rw [hb] at h
      simp only [Option.getD_some] at h
      obtain ⟨hlt, heq⟩ := List.getElem?_eq_some_iff.mp hb
      exact List.mem_flatten.mpr ⟨l, heq ▸ List.getElem_mem hlt, h⟩

theorem predecessors_length_le (pm : PredecessorMap) (b : Nat) :
    (pm.predecessors b).length ≤ (pm.map.map List.length).sum := by
  rw [PredecessorMap.predecessors, List.getD_eq_getElem?_getD]
  cases hb : pm.map[b]? with
  | none => simp
  | some l =>
      simp only [Option.getD_some]
      obtain ⟨hlt, heq⟩ := List.getElem?_eq_some_iff.mp hb
      exact List.single_le_sum (fun x _ => Nat.zero_le x) _
        (List.mem_map.mpr ⟨l, heq ▸ List.getElem_mem hlt, rfl⟩)

theorem dropSearch_fuel_sufficient (m : Mir) (pm : PredecessorMap)
    (droppee : Lvalue) (curBb : Nat) :
    ∀ fuel wl seen,
      (∀ x ∈ wl, x ∈ curBb :: pm.map.flatten) →
      wl.length + ((pm.map.map List.length).sum + 1) *
        (((curBb :: pm.map.flatten).toFinset.filter (fun x => x ∉ seen)).card)
        < fuel →
      (dropSearch m pm droppee curBb fuel wl seen).isSome := by
  intro fuel
  induction fuel with
  | zero => intro wl seen _ hlt; omega
  | succ fuel ih =>
      intro wl seen hwl hlt
      set T := (pm.map.map List.length).sum with hT
      set U := curBb :: pm.map.flatten with hU
      match wl with
      | [] => rw [dropSearch]; rfl
      | bb :: rest =>
          rw [dropSearch]
          by_cases hseen : bb ∈ seen
          · rw [if_pos hseen]
            refine ih rest seen (fun x hx => hwl x (List.mem_cons_of_mem _ hx)) ?_
            simp only [List.length_cons] at hlt
            omega
          · rw [if_neg hseen]
            have hbbU : bb ∈ U := hwl bb (List.mem_cons_self _ _)
            have hcard : ((U.toFinset.filter (fun x => x ∉ bb :: seen)).card) + 1 ≤
                ((U.toFinset.filter (fun x => x ∉ seen)).card) := by
              have hss : (U.toFinset.filter (fun x => x ∉ bb :: seen)) ⊂
                  (U.toFinset.filter (fun x => x ∉ seen)) := by
                constructor
                · intro x hx
                  simp only [Finset.mem_filter, List.mem_cons] at hx ⊢
                  exact ⟨hx.1, fun hc => hx.2 (.inr hc)⟩
                · intro hsub
                  have hbb : bb ∈ (U.toFinset.filter (fun x => x ∉ seen)) := by
                    simp only [Finset.mem_filter, List.mem_toFinset]
                    exact ⟨hbbU, hseen⟩
                  have := hsub hbb
                  simp only [Finset.mem_filter, List.mem_cons, not_or] at this
                  exact this.2.1 trivial
              exact Finset.card_lt_card hss
            cases hins : inspectBlock m pm droppee curBb bb with
            | abort => rfl
            | satisfied =>
                refine ih rest (bb :: seen)
                  (fun x hx => hwl x (List.mem_cons_of_mem _ hx)) ?_
                simp only [List.length_cons] at hlt
                have hmul : (T + 1) *
                    ((U.toFinset.filter (fun x => x ∉ bb :: seen)).card) + (T + 1) ≤
                    (T + 1) * ((U.toFinset.filter (fun x => x ∉ seen)).card) := by
                  have := Nat.mul_le_mul_left (T + 1) hcard
                  rw [Nat.mul_add, Nat.mul_one] at this
                  exact this
                omega
            | cont =>
                refine ih ((pm.predecessors bb).reverse ++ rest) (bb :: seen) ?_ ?_
                · intro x hx
                  rcases List.mem_append.mp hx with hx | hx
                  · exact List.mem_cons_of_mem _
                      (predecessors_subset_flatten pm bb x (List.mem_reverse.mp hx))
                  · exact hwl x (List.mem_cons_of_mem _ hx)
                · have hlen : ((pm.predecessors bb).reverse ++ rest).length ≤
                      T + rest.length := by
                    rw [List.length_append, List.length_reverse]
                    have := predecessors_length_le pm bb
                    omega
                  simp only [List.length_cons] at hlt
                  have hmul : (T + 1) *
                      ((U.toFinset.filter (fun x => x ∉ bb :: seen)).card) + (T + 1) ≤
                      (T + 1) * ((U.toFinset.filter (fun x => x ∉ seen)).card) := by
                    have := Nat.mul_le_mul_left (T + 1) hcard
                    rw [Nat.mul_add, Nat.mul_one] at this
                    exact this
                  omega

/-- The search run by the pass (with the fuel the pass supplies) commits
exactly when no aborting block is backward-reachable from the drop's
block through transparent blocks. -/
theorem dropSearch_characterization (m : Mir) (pm : PredecessorMap)
    (droppee : Lvalue) (curBb : Nat) :
    dropSearch m pm droppee curBb (searchFuel pm) [curBb] [] = some true ↔
    ¬ ∃ b, Reaches m pm droppee curBb b ∧
      inspectBlock m pm droppee curBb b = .abort := by
  constructor
  · intro h
    rintro ⟨b, hb, habort⟩
    refine absurd habort
      (dropSearch_commit_sound m pm droppee curBb (searchFuel pm) [curBb] [] h
        (by simp) (by simp) b ?_)
    exact reachesFrom_mono hb (by simp)
  · intro hno
    have hsome : (dropSearch m pm droppee curBb (searchFuel pm) [curBb] []).isSome := by
      refine dropSearch_fuel_sufficient m pm droppee curBb (searchFuel pm) [curBb] []
        (fun x hx => by
          rcases List.mem_singleton.mp hx with rfl
          exact List.mem_cons_self _ _) ?_
      set T := (pm.map.map List.length).sum with hT
      have hcardle : (((curBb :: pm.map.flatten).toFinset.filter
          (fun x => x ∉ ([] : List Nat))).card) ≤ T + 1 := by
        calc (((curBb :: pm.map.flatten).toFinset.filter
            (fun x => x ∉ ([] : List Nat))).card)
            ≤ ((curBb :: pm.map.flatten).toFinset).card :=
              Finset.card_filter_le _ _
          _ ≤ (curBb :: pm.map.flatten).length := List.toFinset_card_le _
          _ = pm.map.flatten.length + 1 := by simp
          _ ≤ T + 1 := by
              have hfl : pm.map.flatten.length = T := by
                rw [hT, List.length_flatten]
              omega
      have hfuel : searchFuel pm = (T + 2) * (T + 2) := rfl
      have hexp : (T + 2) * (T + 2) = (T + 1) * (T + 1) + 2 * T + 3 := by ring
      have hmul : (T + 1) * (((curBb :: pm.map.flatten).toFinset.filter
          (fun x => x ∉ ([] : List Nat))).card) ≤ (T + 1) * (T + 1) :=
        Nat.mul_le_mul_left _ hcardle
      rw [hfuel, hexp]
      simp only [List.length_singleton]
      omega
    cases hres : dropSearch m pm droppee curBb (searchFuel pm) [curBb] [] with
    | none => rw [hres] at hsome; cases hsome
    | some r =>
        cases r with
        | true => rfl
        | false =>
            exact absurd
              (dropSearch_abort_sound m pm droppee curBb (searchFuel pm) [curBb] []
                hres (fun x hx => by
                  rcases List.mem_singleton.mp hx with rfl
                  exact .base (List.mem_singleton.mpr rfl)))
              hno

end RD

open RD in
/-- **C3 amended**: for a block ending in `Drop(v, target)`, the pass's
elision decision commits to `Goto(target)` iff no aborting block — one
whose inspection finds a (re)definition of `v` (an assignment to `v`, an
inline-asm output, or a call destination) before any recognized consuming
read — is backward-reachable from the drop's block through transparent
blocks; in particular the drop is never rewritten to anything else, and
whenever a backward path redefines `v` before any recognized use the
drop is left alone.  (Relative to the claim, a "read" covers only the
consuming-operand reads the scan recognizes: `Ref`/`Len`/`Box` reads do
not satisfy a branch — the counterexample shows a borrow does not count —
and a call argument or a drop of the same value elsewhere both satisfy
their branch.) -/
theorem drop_elision_decision_iff (m : Mir) (curBb : Nat) (droppee : Lvalue)
    (target : Nat) (unwind : Option Nat)
    (hterm : (getBlockData m curBb).terminator = .drop droppee target unwind) :
    (dropDecision m (buildPredecessorMap m) curBb = some (.goto target) ↔
      ¬ ∃ b, Reaches m (buildPredecessorMap m) droppee curBb b ∧
        inspectBlock m (buildPredecessorMap m) droppee curBb b = .abort) ∧
    (∀ t, dropDecision m (buildPredecessorMap m) curBb = some t →
      t = .goto target) := by
  have hchar := dropSearch_characterization m (buildPredecessorMap m) droppee curBb
  have hd : dropDecision m (buildPredecessorMap m) curBb =
      (match dropSearch m (buildPredecessorMap m) droppee curBb
          (searchFuel (buildPredecessorMap m)) [curBb] [] with
       | some true => some (TerminatorKind.goto target)
       | _ => none) := by
    simp only [dropDecision, hterm]
  cases hsr : dropSearch m (buildPredecessorMap m) droppee curBb
      (searchFuel (buildPredecessorMap m)) [curBb] [] with
  | none =>
      rw [hsr] at hchar
      constructor
      · simp only [hd, hsr]
        constructor
        · intro h; exact absurd h (by simp)
        · intro hno; exact absurd (hchar.mpr hno) (by simp)
      · intro t ht
        rw [hd, hsr] at ht
        exact absurd ht (by simp)
  | some r =>
      rw [hsr] at hchar
      cases r with
      | true =>
          constructor
          · simp only [hd, hsr]
            exact ⟨fun _ => hchar.mp rfl, fun _ => trivial⟩
          · intro t ht
            rw [hd, hsr] at ht
            exact (Option.some.inj ht).symm
      | false =>
          constructor
          · simp only [hd, hsr]
            constructor
            · intro h; exact absurd h (by simp)
            · intro hno; exact absurd (hchar.mpr hno) (by simp)
          · intro t ht
            rw [hd, hsr] at ht
            exact absurd ht (by simp)

open RD in
/-- Witness for `drop_elision_decision_iff` at the elidable-drop body. -/
theorem drop_elision_decision_iff_witness :
    ((getBlockData elidableDropBody 0).terminator = .drop (.var 0) 1 none) ∧
    ((dropDecision elidableDropBody (buildPredecessorMap elidableDropBody) 0 =
        some (.goto 1) ↔
      ¬ ∃ b, Reaches elidableDropBody (buildPredecessorMap elidableDropBody)
          (.var 0) 0 b ∧
        inspectBlock elidableDropBody (buildPredecessorMap elidableDropBody)
          (.var 0) 0 b = .abort) ∧
     (∀ t, dropDecision elidableDropBody (buildPredecessorMap elidableDropBody) 0 =
        some t → t = .goto 1)) :=
  ⟨by decide,
   drop_elision_decision_iff elidableDropBody 0 (.var 0) 1 none (by decide)⟩

namespace RD

theorem dropDecision_some_shape {m : Mir} {pm : PredecessorMap} {b : Nat}
    {r : TerminatorKind} (h : dropDecision m pm b = some r) :
    ∃ v t u, (getBlockData m b).terminator = .drop v t u ∧ r = .goto t := by
  rw [dropDecision] at h
  split at h
  · next v t u heq =>
      split at h
      · exact ⟨v, t, u, heq, (Option.some.inj h).symm⟩
      · cases h
  · cases h

theorem filter_set_lt {α : Type _} (p : α → Bool) :
    ∀ (l : List α) (b : Nat) (bb x : α), l[b]? = some bb → p bb = true →
      p x = false →
      ((l.set b x).filter p).length < (l.filter p).length := by
  intro l
  induction l with
  | nil => intro b bb x h; cases h
  | cons y rest ih =>
      intro b bb x h hp hx
      cases b with
      | zero =>
          simp only [List.getElem?_cons_zero, Option.some.injEq] at h
          cases h
          simp only [List.set_cons_zero, List.filter_cons, hp, hx]
          simp
      | succ b =>
          simp only [List.getElem?_cons_succ] at h
          simp only [List.set_cons_succ, List.filter_cons]
          cases hy : p y
          · simpa using ih b bb x h hp hx
          · simpa using Nat.succ_lt_succ (ih b bb x h hp hx)

theorem numDropTerms_setTerminator_lt {m : Mir} {pm : PredecessorMap} {b : Nat}
    {r : TerminatorKind} (h : dropDecision m pm b = some r) :
    numDropTerms (setTerminator m b r) < numDropTerms m := by
  obtain ⟨v, t, u, hterm, rfl⟩ := dropDecision_some_shape h
  have hb : b < m.basicBlocks.length := by
    by_contra hb
    have : getBlockData m b = emptyBlockData := by
      simp [getBlockData, List.getD_eq_getElem?_getD,
        List.getElem?_eq_none (Nat.le_of_not_lt hb)]
    rw [this] at hterm
    cases hterm
  have hsome : m.basicBlocks[b]? = some (getBlockData m b) := by
    simp [getBlockData, List.getD_eq_getElem?_getD, List.getElem?_eq_getElem hb]
  rw [numDropTerms, numDropTerms, setTerminator]
  exact filter_set_lt _ m.basicBlocks b (getBlockData m b)
    ⟨(getBlockData m b).statements, .goto t⟩ hsome (by rw [hterm]) rfl

theorem removeDropsScan_cases (pm : PredecessorMap) :
    ∀ (bs : List Nat) (st : Mir × Bool),
      (numDropTerms ((bs.foldl
        (fun st curBb =>
          match dropDecision st.1 pm curBb with
          | some repl => (setTerminator st.1 curBb repl, true)
          | none => st) st)).1 < numDropTerms st.1) ∨
      ((bs.foldl
        (fun st curBb =>
          match dropDecision st.1 pm curBb with
          | some repl => (setTerminator st.1 curBb repl, true)
          | none => st) st)) = st := by
  intro bs
  induction bs with
  | nil => intro st; exact .inr rfl
  | cons b rest ih =>
      intro st
      rw [List.foldl_cons]
      cases hd : dropDecision st.1 pm b with
      | none =>
          simp only [hd]
          exact ih st
      | some repl =>
          simp only [hd]
          rcases ih (setTerminator st.1 b repl, true) with h | h
          · left
            exact Nat.lt_trans h (numDropTerms_setTerminator_lt hd)
          · left
            rw [h]
            exact numDropTerms_setTerminator_lt hd

theorem removeDropsScan_changed (pm : PredecessorMap) :
    ∀ (bs : List Nat) (m0 : Mir),
      ((bs.foldl
        (fun st curBb =>
          match dropDecision st.1 pm curBb with
          | some repl => (setTerminator st.1 curBb repl, true)
          | none => st) (m0, false))).2 = false →
      ((bs.foldl
        (fun st curBb =>
          match dropDecision st.1 pm curBb with
          | some repl => (setTerminator st.1 curBb repl, true)
          | none => st) (m0, false))).1 = m0 := by
  have hmono : ∀ (bs : List Nat) (st : Mir × Bool), st.2 = true →
      ((bs.foldl
        (fun st curBb =>
          match dropDecision st.1 pm curBb with
          | some repl => (setTerminator st.1 curBb repl, true)
          | none => st) st)).2 = true := by
    intro bs
    induction bs with
    | nil => intro st h; exact h
    | cons b rest ih =>
        intro st h
        rw [List.foldl_cons]
        cases hd : dropDecision st.1 pm b with
        | none => simp only [hd]; exact ih st h
        | some repl => simp only [hd]; exact ih _ rfl
  intro bs
  induction bs with
  | nil => intro m0 h; rfl
  | cons b rest ih =>
      intro m0 h
      rw [List.foldl_cons] at h ⊢
      cases hd : dropDecision m0 pm b with
      | none =>
          simp only [hd] at h ⊢
          exact ih m0 h
      | some repl =>
          simp only [hd] at h
          rw [hmono rest _ rfl] at h
          cases h

theorem removeDropsIteration_false_id {m : Mir}
    (h : (removeDropsIteration m).2 = false) : (removeDropsIteration m).1 = m :=
  removeDropsScan_changed (buildPredecessorMap m) _ m h

theorem removeDropsIteration_true_lt {m : Mir}
    (h : (removeDropsIteration m).2 = true) :
    numDropTerms (removeDropsIteration m).1 < numDropTerms m := by
  rcases removeDropsScan_cases (buildPredecessorMap m)
    (List.range m.basicBlocks.length) (m, false) with hc | hc
  · exact hc
  · rw [removeDropsIteration] at h
    rw [hc] at h
    cases h

theorem removeDropsLoop_fix :
    ∀ (fuel : Nat) (m : Mir), numDropTerms m < fuel →
      removeDropsIteration (removeDropsLoop fuel m) = (removeDropsLoop fuel m, false) := by
  intro fuel
  induction fuel with
  | zero => intro m h; omega
  | succ fuel ih =>
      intro m h
      rcases hit : removeDropsIteration m with ⟨m1, changed⟩
      cases changed with
      | false =>
          have hm1 : m1 = m := by
            have h2 := removeDropsIteration_false_id (m := m) (by rw [hit])
            rw [hit] at h2
            exact h2
          rw [removeDropsLoop, hit]
          show removeDropsIteration m1 = (m1, false)
          subst hm1
          exact hit
      | true =>
          rw [removeDropsLoop, hit]
          show removeDropsIteration (removeDropsLoop fuel m1) =
            (removeDropsLoop fuel m1, false)
          refine ih m1 ?_
          have h2 := removeDropsIteration_true_lt (m := m) (by rw [hit])
          rw [hit] at h2
          simp only at h2
          omega

theorem removeDropsLoop_of_fix {m : Mir}
    (h : removeDropsIteration m = (m, false)) (fuel : Nat) :
    removeDropsLoop (fuel + 1) m = m := by
  rw [removeDropsLoop, h]
  rfl

theorem removeDrops_idem (m : Mir) :
    removeDrops (removeDrops m) = removeDrops m := by
  have hfix := removeDropsLoop_fix (numDropTerms m + 1) m (by omega)
  rw [removeDrops, removeDrops]
  exact removeDropsLoop_of_fix hfix _

end RD

namespace RD

theorem getElem?_append_length {α : Type _} (A rest : List α) (s : α) :
    (A ++ s :: rest)[A.length]? = some s := by
  induction A with
  | nil => simp
  | cons a A ih => simpa using ih

theorem getD_append_length {α : Type _} (A rest : List α) (s d : α) :
    (A ++ s :: rest).getD A.length d = s := by
  rw [List.getD_eq_getElem?_getD, getElem?_append_length]
  rfl

theorem set_append_length {α : Type _} (A rest : List α) (s v : α) :
    (A ++ s :: rest).set A.length v = A ++ v :: rest := by
  induction A with
  | nil => rfl
  | cons a A ih =>
      simp only [List.cons_append, List.length_cons, List.set_cons_succ, ih]

theorem listSwap_split {α : Type _} (A B C : List α) (x y : α) {i j : Nat}
    (hi : i = A.length + 1 + B.length) (hj : j = A.length) :
    listSwap ((A ++ x :: B) ++ y :: C) i j = (A ++ y :: B) ++ x :: C := by
  subst hi hj
  have hassoc : A ++ x :: (B ++ y :: C) = (A ++ x :: B) ++ y :: C := by
    rw [List.append_assoc, List.cons_append]
  have hleni : (A ++ x :: B).length = A.length + 1 + B.length := by
    simp only [List.length_append, List.length_cons]
    omega
  have hgi : ((A ++ x :: B) ++ y :: C)[A.length + 1 + B.length]? = some y := by
    have h := getElem?_append_length (A ++ x :: B) C y
    rwa [hleni] at h
  have hgj : ((A ++ x :: B) ++ y :: C)[A.length]? = some x := by
    have h := getElem?_append_length A (B ++ y :: C) x
    rwa [hassoc] at h
  rw [listSwap, List.get?_eq_getElem?, List.get?_eq_getElem?, hgi, hgj]
  show (((A ++ x :: B) ++ y :: C).set (A.length + 1 + B.length) x).set A.length y
      = (A ++ y :: B) ++ x :: C
  have hset1 : ((A ++ x :: B) ++ y :: C).set (A.length + 1 + B.length) x =
      A ++ x :: (B ++ x :: C) := by
    have h := set_append_length (A ++ x :: B) C y x
    rw [hleni] at h
    rw [h, List.append_assoc, List.cons_append]
  rw [hset1, set_append_length, List.append_assoc, List.cons_append]

theorem skipRot_length (l : List Statement) : (skipRot l).length = l.length := by
  cases l with
  | nil => rfl
  | cons h dt => simp [skipRot]

theorem promoteStep_some_consume (uses : List Nat) (stmts : List Statement)
    (d : Nat) (idx : Nat) (rv : Rvalue) (dead : List Nat) (i : Nat)
    (s' : Statement)
    (ha : applyRepl idx rv (stmts.getD i dummyStatement) = some s') :
    promoteStep uses ⟨stmts, d, some (idx, rv), dead⟩ i =
      ⟨listSwap (stmts.set i s') i (i - (d + 1)), d + 1,
        armOf uses ((stmts.set i s').getD i dummyStatement),
        insertDead idx dead⟩ := by
  simp only [promoteStep, ha]
  rw [if_pos (Nat.succ_pos d)]
  rfl

theorem promoteStep_some_skip (uses : List Nat) (stmts : List Statement)
    (d : Nat) (idx : Nat) (rv : Rvalue) (dead : List Nat) (i : Nat)
    (ha : applyRepl idx rv (stmts.getD i dummyStatement) = none) :
    promoteStep uses ⟨stmts, d, some (idx, rv), dead⟩ i =
      ⟨if d > 0 then listSwap stmts i (i - d) else stmts, d,
        armOf uses (stmts.getD i dummyStatement), dead⟩ := by
  simp only [promoteStep, ha]
  rfl

theorem promoteStep_none (uses : List Nat) (stmts : List Statement)
    (d : Nat) (dead : List Nat) (i : Nat) :
    promoteStep uses ⟨stmts, d, none, dead⟩ i =
      ⟨if d > 0 then listSwap stmts i (i - d) else stmts, d,
        armOf uses (stmts.getD i dummyStatement), dead⟩ := by
  rfl

end RD

namespace RD

theorem cleanStep_consume (uses : List Nat) (out : List Statement) (c : Nat)
    (dead : List Nat) (s s' : Statement) (idx : Nat) (rv : Rvalue)
    (hrepl : out.getLast?.bind (armOf uses) = some (idx, rv))
    (ha : applyRepl idx rv s = some s') :
    cleanStep uses (out, c, dead) s =
      (out.dropLast ++ [s'], c + 1, insertDead idx dead) := by
  simp only [cleanStep, hrepl, ha]

theorem cleanStep_skip (uses : List Nat) (out : List Statement) (c : Nat)
    (dead : List Nat) (s : Statement)
    (h : ∀ idx rv, out.getLast?.bind (armOf uses) = some (idx, rv) →
      applyRepl idx rv s = none) :
    cleanStep uses (out, c, dead) s = (out ++ [s], c, dead) := by
  rcases hrepl : out.getLast?.bind (armOf uses) with _ | ⟨idx, rv⟩
  · simp only [cleanStep, hrepl]
  · simp only [cleanStep, hrepl, h idx rv hrepl]

theorem promoteFold_skip_state (uses : List Nat)
    (out doomed rest : List Statement) (s : Statement) (dead : List Nat) :
    (⟨if doomed.length > 0 then
        listSwap ((out ++ doomed) ++ s :: rest) (out.length + doomed.length)
          (out.length + doomed.length - doomed.length)
      else (out ++ doomed) ++ s :: rest,
      doomed.length,
      armOf uses (((out ++ doomed) ++ s :: rest).getD
        (out.length + doomed.length) dummyStatement),
      dead⟩ : ScanState) =
    ⟨((out ++ [s]) ++ skipRot doomed) ++ rest, (skipRot doomed).length,
      (out ++ [s]).getLast?.bind (armOf uses), dead⟩ := by
  have hread : ((out ++ doomed) ++ s :: rest).getD
      (out.length + doomed.length) dummyStatement = s := by
    have h := getD_append_length (out ++ doomed) rest s dummyStatement
    rwa [List.length_append] at h
  rw [hread]
  have hrepl : armOf uses s = (out ++ [s]).getLast?.bind (armOf uses) := by
    rw [List.getLast?_concat]
    rfl
  cases doomed with
  | nil =>
      rw [if_neg (by simp)]
      simp only [ScanState.mk.injEq]
      refine ⟨by simp [skipRot], rfl, hrepl, trivial⟩
  | cons h dt =>
      rw [if_pos (by simp)]
      have hswap := listSwap_split out dt rest h s
        (i := out.length + (h :: dt).length)
        (j := out.length + (h :: dt).length - (h :: dt).length)
        (by simp only [List.length_cons]; omega)
        (by simp only [List.length_cons]; omega)
      rw [hswap]
      simp only [ScanState.mk.injEq]
      refine ⟨by simp [skipRot], by simp [skipRot], hrepl, trivial⟩

end RD

namespace RD

theorem promoteFold_clean (uses : List Nat) :
    ∀ (suffix out doomed : List Statement) (dead : List Nat),
      ∃ doomed2 : List Statement,
        (List.range' (out.length + doomed.length) suffix.length).foldl
            (promoteStep uses)
            ⟨(out ++ doomed) ++ suffix, doomed.length,
              out.getLast?.bind (armOf uses), dead⟩ =
          ⟨(suffix.foldl (cleanStep uses) (out, doomed.length, dead)).1 ++ doomed2,
            (suffix.foldl (cleanStep uses) (out, doomed.length, dead)).2.1,
            (suffix.foldl (cleanStep uses)
              (out, doomed.length, dead)).1.getLast?.bind (armOf uses),
            (suffix.foldl (cleanStep uses) (out, doomed.length, dead)).2.2⟩ ∧
        doomed2.length =
          (suffix.foldl (cleanStep uses) (out, doomed.length, dead)).2.1 := by
  intro suffix
  induction suffix with
  | nil =>
      intro out doomed dead
      exact ⟨doomed, by simp, rfl⟩
  | cons s rest ih =>
      intro out doomed dead
      rw [List.length_cons, List.range'_succ, List.foldl_cons, List.foldl_cons]
      rcases hrepl : out.getLast?.bind (armOf uses) with _ | ⟨idx, rv⟩
      · -- no pending replacement: the statement is kept
        rw [promoteStep_none, promoteFold_skip_state,
          cleanStep_skip uses out doomed.length dead s
            (by intro idx rv h; rw [hrepl] at h; cases h)]
        have hix : out.length + doomed.length + 1 =
            (out ++ [s]).length + (skipRot doomed).length := by
          simp only [List.length_append, List.length_cons, List.length_nil,
            skipRot_length]
          omega
        have hdrop : doomed.length = (skipRot doomed).length :=
          (skipRot_length doomed).symm
        rw [hix, hdrop]
        exact ih (out ++ [s]) (skipRot doomed) dead
      · rcases ha : applyRepl idx rv s with _ | s'
        · -- pending replacement does not match: the statement is kept
          rw [promoteStep_some_skip uses _ _ idx rv _ _
              (by
                have hread : ((out ++ doomed) ++ s :: rest).getD
                    (out.length + doomed.length) dummyStatement = s := by
                  have h := getD_append_length (out ++ doomed) rest s dummyStatement
                  rwa [List.length_append] at h
                rw [hread]
                exact ha),
            promoteFold_skip_state,
            cleanStep_skip uses out doomed.length dead s
              (by intro idx' rv' h; rw [hrepl] at h; cases h; exact ha)]
          have hix : out.length + doomed.length + 1 =
              (out ++ [s]).length + (skipRot doomed).length := by
            simp only [List.length_append, List.length_cons, List.length_nil,
              skipRot_length]
            omega
          have hdrop : doomed.length = (skipRot doomed).length :=
            (skipRot_length doomed).symm
          rw [hix, hdrop]
          exact ih (out ++ [s]) (skipRot doomed) dead
        · -- consumption: the previous statement is doomed, the consumer
          -- is substituted in place
          cases hlast : out.getLast? with
          | none => rw [hlast] at hrepl; cases hrepl
          | some sDef =>
              obtain ⟨o, rfl⟩ := List.getLast?_eq_some_iff.mp hlast
              have hread : (((o ++ [sDef]) ++ doomed) ++ s :: rest).getD
                  ((o ++ [sDef]).length + doomed.length) dummyStatement = s := by
                have h := getD_append_length ((o ++ [sDef]) ++ doomed) rest s
                  dummyStatement
                rwa [List.length_append] at h
              rw [promoteStep_some_consume uses _ _ idx rv _ _ s'
                (by rw [hread]; exact ha)]
              have hset : (((o ++ [sDef]) ++ doomed) ++ s :: rest).set
                  ((o ++ [sDef]).length + doomed.length) s' =
                  ((o ++ [sDef]) ++ doomed) ++ s' :: rest := by
                have h := set_append_length ((o ++ [sDef]) ++ doomed) rest s s'
                rwa [List.length_append] at h
              rw [hset]
              have hread' : (((o ++ [sDef]) ++ doomed) ++ s' :: rest).getD
                  ((o ++ [sDef]).length + doomed.length) dummyStatement = s' := by
                have h := getD_append_length ((o ++ [sDef]) ++ doomed) rest s'
                  dummyStatement
                rwa [List.length_append] at h
              rw [hread']
              have hswap := listSwap_split o doomed rest sDef s'
                (i := (o ++ [sDef]).length + doomed.length)
                (j := (o ++ [sDef]).length + doomed.length - (doomed.length + 1))
                (by simp only [List.length_append, List.length_cons,
                    List.length_nil]; try omega)
                (by simp only [List.length_append, List.length_cons,
                    List.length_nil]; try omega)
              rw [← List.append_cons o sDef doomed, hswap]
              rw [cleanStep_consume uses (o ++ [sDef]) doomed.length dead s s'
                idx rv hrepl ha, List.dropLast_concat]
              have hstmts2 : (o ++ s' :: doomed) ++ sDef :: rest =
                  ((o ++ [s']) ++ (doomed ++ [sDef])) ++ rest := by
                simp
              have hrepl2 : armOf uses s' =
                  (o ++ [s']).getLast?.bind (armOf uses) := by
                rw [List.getLast?_concat]
                rfl
              have hdrop : doomed.length + 1 = (doomed ++ [sDef]).length := by
                simp
              have hix : (o ++ [sDef]).length + doomed.length + 1 =
                  (o ++ [s']).length + (doomed ++ [sDef]).length := by
                simp only [List.length_append, List.length_cons, List.length_nil]
                omega
              rw [hstmts2, hrepl2, hdrop, hix]
              exact ih (o ++ [s']) (doomed ++ [sDef]) (insertDead idx dead)

end RD

namespace RD

theorem take_sub_none {α : Type _} (out doomed : List α) {c : Nat}
    (hlen : doomed.length = c) :
    (out ++ doomed).take ((out ++ doomed).length - c) = out := by
  have h1 : (out ++ doomed).length - c = out.length := by
    rw [List.length_append, hlen]
    omega
  rw [h1, List.take_left]

theorem take_sub_one {α : Type _} (out doomed : List α) {c : Nat}
    (hlen : doomed.length = c) :
    (out ++ doomed).take ((out ++ doomed).length - (c + 1)) = out.dropLast := by
  have h1 : (out ++ doomed).length - (c + 1) = out.length - 1 := by
    rw [List.length_append, hlen]
    omega
  rw [h1, List.take_append_of_le_length (by omega), ← List.dropLast_eq_take]

theorem promoteScan_eq_cleanScan (uses : List Nat) (bb : BasicBlockData)
    (dead : List Nat) : promoteScan uses bb dead = cleanScan uses bb dead := by
  obtain ⟨doomed2, heq, hlen⟩ := promoteFold_clean uses bb.statements [] [] dead
  simp only [List.length_nil, List.nil_append, List.append_nil, List.getLast?_nil,
    Option.none_bind, Nat.add_zero, Nat.zero_add] at heq hlen
  rw [promoteScan, List.range_eq_range', heq, cleanScan]
  rcases hGL : (bb.statements.foldl (cleanStep uses) ([], 0, dead)).1.getLast?.bind
      (armOf uses) with _ | ⟨idx, rv⟩
  · simp only [promoteTerminator, cleanTerm, hGL, take_sub_none _ _ hlen]
  · cases rv with
    | use_ oper =>
        cases term : bb.terminator with
        | ifT cond t e =>
            cases hm : matchTempOp idx cond with
            | false =>
                simp only [promoteTerminator, cleanTerm, hGL, hm,
                  Bool.false_eq_true, if_false, take_sub_none _ _ hlen]
            | true =>
                simp only [promoteTerminator, cleanTerm, hGL, hm, if_true,
                  take_sub_one _ _ hlen]
        | call f args dest cleanup =>
            cases hm : matchTempOp idx f with
            | false =>
                simp only [promoteTerminator, cleanTerm, hGL, hm,
                  Bool.false_eq_true, if_false, take_sub_none _ _ hlen]
            | true =>
                simp only [promoteTerminator, cleanTerm, hGL, hm, if_true,
                  take_sub_one _ _ hlen]
        | goto t =>
            simp only [promoteTerminator, cleanTerm, hGL, take_sub_none _ _ hlen]
        | switch discr ts =>
            simp only [promoteTerminator, cleanTerm, hGL, take_sub_none _ _ hlen]
        | switchInt discr ts =>
            simp only [promoteTerminator, cleanTerm, hGL, take_sub_none _ _ hlen]
        | resume =>
            simp only [promoteTerminator, cleanTerm, hGL, take_sub_none _ _ hlen]
        | ret =>
            simp only [promoteTerminator, cleanTerm, hGL, take_sub_none _ _ hlen]
        | drop v t u =>
            simp only [promoteTerminator, cleanTerm, hGL, take_sub_none _ _ hlen]
    | ref lv =>
        simp only [promoteTerminator, cleanTerm, hGL, take_sub_none _ _ hlen]
    | len lv =>
        simp only [promoteTerminator, cleanTerm, hGL, take_sub_none _ _ hlen]
    | boxAlloc =>
        simp only [promoteTerminator, cleanTerm, hGL, take_sub_none _ _ hlen]
    | cast op =>
        simp only [promoteTerminator, cleanTerm, hGL, take_sub_none _ _ hlen]
    | unaryOp op =>
        simp only [promoteTerminator, cleanTerm, hGL, take_sub_none _ _ hlen]
    | binaryOp a b =>
        simp only [promoteTerminator, cleanTerm, hGL, take_sub_none _ _ hlen]
    | repeatOp op =>
        simp only [promoteTerminator, cleanTerm, hGL, take_sub_none _ _ hlen]
    | aggregate ops =>
        simp only [promoteTerminator, cleanTerm, hGL, take_sub_none _ _ hlen]
    | inlineAsm outs ins =>
        simp only [promoteTerminator, cleanTerm, hGL, take_sub_none _ _ hlen]

end RD

namespace RD

theorem aliveRank_succ (dead : List Nat) (i : Nat) :
    aliveRank dead (i + 1) =
      aliveRank dead i + (if i ∈ dead then 0 else 1) := by
  rw [aliveRank, aliveRank, List.range_succ, List.filter_append,
    List.length_append]
  by_cases hd : i ∈ dead
  · simp [hd]
  · simp [hd]

theorem aliveRank_le (dead : List Nat) (i : Nat) : aliveRank dead i ≤ i := by
  calc aliveRank dead i ≤ (List.range i).length := List.length_filter_le _ _
    _ = i := List.length_range i

theorem aliveRank_mono (dead : List Nat) :
    ∀ {i j : Nat}, i ≤ j → aliveRank dead i ≤ aliveRank dead j := by
  intro i j hij
  induction j with
  | zero => cases Nat.le_zero.mp hij; exact Nat.le_refl _
  | succ j ih =>
      rcases Nat.lt_or_ge i (j + 1) with h | h
      · have := ih (Nat.lt_succ_iff.mp h)
        rw [aliveRank_succ]
        omega
      · cases Nat.le_antisymm hij h
        exact Nat.le_refl _

theorem aliveRank_lt_of_alive (dead : List Nat) {i j : Nat} (hij : i < j)
    (hi : i ∉ dead) : aliveRank dead i < aliveRank dead j := by
  have h1 : aliveRank dead i < aliveRank dead (i + 1) := by
    rw [aliveRank_succ, if_neg hi]
    omega
  exact Nat.lt_of_lt_of_le h1 (aliveRank_mono dead hij)

theorem getD_set_self {α : Type _} (l : List α) (i : Nat) (v d : α)
    (h : i < l.length) : (l.set i v).getD i d = v := by
  rw [List.getD_eq_getElem?_getD, List.getElem?_set_self h]
  rfl

theorem take_set_of_le {α : Type _} :
    ∀ (l : List α) (i : Nat) (v : α) (t : Nat), t ≤ i →
      (l.set i v).take t = l.take t := by
  intro l
  induction l with
  | nil => intro i v t h; simp
  | cons x xs ih =>
      intro i v t h
      cases t with
      | zero => simp
      | succ t =>
          cases i with
          | zero => omega
          | succ i =>
              simp only [List.set_cons_succ, List.take_succ_cons]
              rw [ih i v t (by omega)]

theorem take_set_succ {α : Type _} :
    ∀ (l : List α) (t : Nat) (v : α), t < l.length →
      (l.set t v).take (t + 1) = l.take t ++ [v] := by
  intro l
  induction l with
  | nil => intro t v h; simp at h
  | cons x xs ih =>
      intro t v h
      cases t with
      | zero => simp
      | succ t =>
          simp only [List.set_cons_succ, List.take_succ_cons]
          rw [ih t v (by simpa using h)]
          rfl

end RD

namespace RD

theorem listSwap_eq_set {α : Type _} (l : List α) (i j : Nat) (a b : α)
    (hi : l[i]? = some a) (hj : l[j]? = some b) :
    listSwap l i j = (l.set i b).set j a := by
  rw [listSwap, List.get?_eq_getElem?, List.get?_eq_getElem?, hi, hj]

theorem compactFold_inv (decls0 dead : List Nat) :
    ∀ (k i : Nat) (repls declsC : List Nat) (used : Nat),
      i + k = decls0.length →
      used = aliveRank dead i →
      repls.length = decls0.length →
      (∀ j, repls.getD j j =
        if j < i ∧ j ∉ dead then aliveRank dead j else j) →
      declsC.length = decls0.length →
      declsC.take used =
        ((List.range i).filter (fun j => decide (j ∉ dead))).map
          (fun j => decls0.getD j 0) →
      (∀ j, i ≤ j → declsC[j]? = decls0[j]?) →
      ∃ r2 d2 : List Nat,
        (List.range' i k).foldl
            (fun st aliveIndex =>
              let (repls, decls, used) := st
              if aliveIndex ∈ dead then st
              else
                let repls' := repls.set aliveIndex used
                let decls' := if aliveIndex ≠ used then
                    listSwap decls aliveIndex used
                  else decls
                (repls', decls', used + 1))
            (repls, declsC, used) =
          (r2, d2, aliveRank dead decls0.length) ∧
        r2.length = decls0.length ∧
        (∀ j, r2.getD j j =
          if j < decls0.length ∧ j ∉ dead then aliveRank dead j else j) ∧
        d2.length = decls0.length ∧
        d2.take (aliveRank dead decls0.length) =
          ((List.range decls0.length).filter (fun j => decide (j ∉ dead))).map
            (fun j => decls0.getD j 0) := by
  intro k
  induction k with
  | zero =>
      intro i repls declsC used hik hu hrl hr hdl hdt hds
      rw [Nat.add_zero] at hik
      subst hik
      refine ⟨repls, declsC, by rw [hu]; rfl, hrl, hr, hdl, by rw [← hu]; exact hdt⟩
  | succ k ih =>
      intro i repls declsC used hik hu hrl hr hdl hdt hds
      rw [List.range'_succ, List.foldl_cons]
      have hi_lt : i < decls0.length := by omega
      by_cases hd : i ∈ dead
      · -- dead index: the step leaves the state unchanged
        simp only [if_pos hd]
        refine ih (i + 1) repls declsC used (by omega)
          (by rw [aliveRank_succ, if_pos hd]; omega) hrl ?_ hdl ?_
          (fun j hj => hds j (by omega))
        · intro j
          rw [hr j]
          rcases Nat.lt_trichotomy j i with h | h | h
          · have h2 : j < i + 1 := by omega
            simp [h, h2]
          · subst h
            simp [hd]
          · have h1 : ¬ j < i := by omega
            have h2 : ¬ j < i + 1 := by omega
            simp [h1, h2]
        · rw [hdt, List.range_succ, List.filter_append, List.map_append]
          simp [hd]
      · -- alive index: record the replacement and compact the declaration
        simp only [if_neg hd]
        have hused_le : used ≤ i := by
          rw [hu]
          exact aliveRank_le dead i
        have hused_lt : used < declsC.length := by omega
        have hvi : declsC[i]? = some (decls0.getD i 0) := by
          rw [hds i (Nat.le_refl i), List.getD_eq_getElem?_getD,
            List.getElem?_eq_getElem hi_lt]
          rfl
        have hnewtake :
            (if i ≠ used then listSwap declsC i used else declsC).take (used + 1) =
            declsC.take used ++ [decls0.getD i 0] := by
          by_cases hiu : i = used
          · rw [if_neg (by omega)]
            rw [List.take_succ, ← hiu, hvi]
            rfl
          · rw [if_pos hiu]
            obtain ⟨vu, hvu⟩ : ∃ vu, declsC[used]? = some vu :=
              ⟨declsC[used], List.getElem?_eq_getElem hused_lt⟩
            rw [listSwap_eq_set declsC i used _ _ hvi hvu]
            rw [take_set_succ _ _ _ (by rw [List.length_set]; omega)]
            rw [take_set_of_le _ _ _ _ hused_le]
        have hnewlen :
            (if i ≠ used then listSwap declsC i used else declsC).length =
            decls0.length := by
          by_cases hiu : i = used
          · rw [if_neg (by omega)]
            exact hdl
          · rw [if_pos hiu]
            obtain ⟨vu, hvu⟩ : ∃ vu, declsC[used]? = some vu :=
              ⟨declsC[used], List.getElem?_eq_getElem hused_lt⟩
            rw [listSwap_eq_set declsC i used _ _ hvi hvu, List.length_set,
              List.length_set]
            exact hdl
        have hnewsuffix : ∀ j, i + 1 ≤ j →
            (if i ≠ used then listSwap declsC i used else declsC)[j]? =
            decls0[j]? := by
          intro j hj
          by_cases hiu : i = used
          · rw [if_neg (by omega)]
            exact hds j (by omega)
          · rw [if_pos hiu]
            obtain ⟨vu, hvu⟩ : ∃ vu, declsC[used]? = some vu :=
              ⟨declsC[used], List.getElem?_eq_getElem hused_lt⟩
            rw [listSwap_eq_set declsC i used _ _ hvi hvu,
              List.getElem?_set_ne (by omega),
              List.getElem?_set_ne (by omega)]
            exact hds j (by omega)
        refine ih (i + 1) (repls.set i used) _ (used + 1) (by omega)
          (by rw [aliveRank_succ, if_neg hd]; omega)
          (by rw [List.length_set]; exact hrl) ?_ hnewlen ?_ hnewsuffix
        · intro j
          rcases Nat.lt_trichotomy j i with h | h | h
          · have h2 : j < i + 1 := by omega
            rw [CP.getD_set_ne _ _ _ _ _ (by omega), hr j]
            simp [h, h2]
          · subst h
            rw [getD_set_self _ _ _ _ (by omega)]
            have h2 : j < j + 1 := by omega
            rw [if_pos ⟨h2, hd⟩, hu]
          · have h1 : ¬ j < i := by omega
            have h2 : ¬ j < i + 1 := by omega
            rw [CP.getD_set_ne _ _ _ _ _ (by omega), hr j]
            simp [h1, h2]
        · rw [hnewtake, hdt, List.range_succ, List.filter_append,
            List.map_append]
          simp [hd]

end RD

namespace RD

theorem range_getD_self (n j : Nat) : (List.range n).getD j j = j := by
  rcases Nat.lt_or_ge j n with h | h
  · rw [List.getD_eq_getElem?_getD, List.getElem?_range h]
    rfl
  · rw [List.getD_eq_getElem?_getD,
      List.getElem?_eq_none (by rwa [List.length_range])]
    rfl

theorem compactTempDecls_spec (decls dead : List Nat) :
    ∃ r2 d2 : List Nat,
      compactTempDecls decls dead = (r2, d2, aliveRank dead decls.length) ∧
      r2.length = decls.length ∧
      (∀ j, r2.getD j j =
        if j < decls.length ∧ j ∉ dead then aliveRank dead j else j) ∧
      d2.length = decls.length ∧
      d2.take (aliveRank dead decls.length) =
        ((List.range decls.length).filter (fun j => decide (j ∉ dead))).map
          (fun j => decls.getD j 0) := by
  obtain ⟨r2, d2, heq, h1, h2, h3, h4⟩ :=
    compactFold_inv decls dead decls.length 0 (List.range decls.length) decls 0
      (by omega) rfl (List.length_range _)
      (fun j => by
        rw [range_getD_self]
        rw [if_neg (by omega)])
      rfl rfl (fun j _ => rfl)
  refine ⟨r2, d2, ?_, h1, h2, h3, h4⟩
  rw [← List.range_eq_range'] at heq
  rw [compactTempDecls]
  exact heq

end RD

namespace RD

theorem promoterRun_tempDecls (uses : List Nat) (m : Mir) :
    (promoterRun uses m).1.tempDecls = m.tempDecls := by
  rw [promoterRun]

theorem alive_map_rank (dead : List Nat) :
    ∀ n, ((List.range n).filter (fun j => decide (j ∉ dead))).map
        (aliveRank dead) = List.range (aliveRank dead n) := by
  intro n
  induction n with
  | zero => rfl
  | succ n ih =>
      rw [List.range_succ, List.filter_append, List.map_append, ih,
        aliveRank_succ]
      by_cases hd : n ∈ dead
      · simp [hd]
      · simp [hd, List.range_succ]

end RD

open RD in
/-- **C9 amended**: after Temporary-Forwarding, the *declaration table* is
truncated to exactly the surviving temp slots in their original order, and
the renumbering table maps every surviving temp `t` to its alive-rank (the
number of surviving temps below it), so the new indices of the survivors
are exactly the contiguous range `0, …, used-1`; every block of the output
is the promoted block rewritten through that table (`updaterBlock`).  The
original claim's "every remaining place reference refers to its new index"
fails for the uncounted drop-value occurrences
(`tmp_forward_dangling_ref_counterexample`): a projected reference to a
dead temp survives renumbering with its stale index. -/
theorem tmp_forward_renumbering_dense (m : Mir) :
    ∃ repls d2 : List Nat,
      compactTempDecls m.tempDecls ((promoterRun (collectTempUses m) m).2) =
        (repls, d2,
          aliveRank ((promoterRun (collectTempUses m) m).2)
            m.tempDecls.length) ∧
      tmpForward m =
        ⟨((List.range m.tempDecls.length).filter
            (fun j => decide (j ∉ (promoterRun (collectTempUses m) m).2))).map
            (fun j => m.tempDecls.getD j 0),
          (promoterRun (collectTempUses m) m).1.basicBlocks.map
            (updaterBlock repls ((promoterRun (collectTempUses m) m).2))⟩ ∧
      (∀ t, t < m.tempDecls.length →
        t ∉ (promoterRun (collectTempUses m) m).2 →
        repls.getD t t =
          aliveRank ((promoterRun (collectTempUses m) m).2) t) ∧
      ((List.range m.tempDecls.length).filter
          (fun j => decide (j ∉ (promoterRun (collectTempUses m) m).2))).map
          (fun t => repls.getD t t) =
        List.range
          (aliveRank ((promoterRun (collectTempUses m) m).2)
            m.tempDecls.length) := by
  rcases hrun : promoterRun (collectTempUses m) m with ⟨m1, dead⟩
  have hdecls : m1.tempDecls = m.tempDecls := by
    have h := promoterRun_tempDecls (collectTempUses m) m
    rw [hrun] at h
    exact h
  obtain ⟨r2, d2, heq, h1, h2, h3, h4⟩ :=
    compactTempDecls_spec m.tempDecls dead
  refine ⟨r2, d2, heq, ?_, ?_, ?_⟩
  · simp only [tmpForward, hrun, hdecls, heq]
    rw [h4]
  · intro t ht hdt
    rw [h2 t, if_pos ⟨ht, hdt⟩]
  · have hcongr :
        ((List.range m.tempDecls.length).filter
            (fun j => decide (j ∉ dead))).map (fun t => r2.getD t t) =
        ((List.range m.tempDecls.length).filter
            (fun j => decide (j ∉ dead))).map (aliveRank dead) := by
      apply List.map_congr_left
      intro t htmem
      rw [List.mem_filter, List.mem_range] at htmem
      rw [h2 t, if_pos ⟨htmem.1, of_decide_eq_true htmem.2⟩]
    rw [hcongr, alive_map_rank]

namespace RD

theorem matchTempOp_eq {idx : Nat} {o : Operand} (h : matchTempOp idx o = true) :
    o = .consume (.temp idx) := by
  rw [matchTempOp] at h
  exact of_decide_eq_true h

theorem replaceFirstTempOp_count (t idx : Nat) (newOp : Operand) :
    ∀ (l l' : List Operand), replaceFirstTempOp idx newOp l = some l' →
      (l'.map (opTempCount t)).sum + (if idx = t then 1 else 0) =
        (l.map (opTempCount t)).sum + opTempCount t newOp := by
  intro l
  induction l with
  | nil => intro l' h; cases h
  | cons o rest ih =>
      intro l' h
      rw [replaceFirstTempOp] at h
      by_cases hm : matchTempOp idx o = true
      · rw [if_pos hm] at h
        cases Option.some.inj h
        have ho := matchTempOp_eq hm
        subst ho
        simp only [List.map_cons, List.sum_cons, opTempCount, lvTempCount]
        omega
      · rw [if_neg hm] at h
        rcases hr : replaceFirstTempOp idx newOp rest with _ | rest'
        · rw [hr] at h; cases h
        · rw [hr] at h
          cases Option.some.inj h
          have hih := ih rest' hr
          simp only [List.map_cons, List.sum_cons]
          omega

theorem substFirstOp_count (t idx : Nat) (newOp : Operand) :
    ∀ (rv rv' : Rvalue), substFirstOp idx newOp rv = some rv' →
      rvTempCount t rv' + (if idx = t then 1 else 0) =
        rvTempCount t rv + opTempCount t newOp := by
  intro rv rv' h
  cases rv with
  | use_ o =>
      rw [substFirstOp] at h
      by_cases hm : matchTempOp idx o = true
      · rw [if_pos hm] at h
        cases Option.some.inj h
        have ho := matchTempOp_eq hm
        subst ho
        simp only [rvTempCount, opTempCount, lvTempCount]
        omega
      · rw [if_neg hm] at h; cases h
  | ref lv => rw [substFirstOp] at h; cases h
  | len lv => rw [substFirstOp] at h; cases h
  | boxAlloc => rw [substFirstOp] at h; cases h
  | cast o =>
      rw [substFirstOp] at h
      by_cases hm : matchTempOp idx o = true
      · rw [if_pos hm] at h
        cases Option.some.inj h
        have ho := matchTempOp_eq hm
        subst ho
        simp only [rvTempCount, opTempCount, lvTempCount]
        omega
      · rw [if_neg hm] at h; cases h
  | unaryOp o =>
      rw [substFirstOp] at h
      by_cases hm : matchTempOp idx o = true
      · rw [if_pos hm] at h
        cases Option.some.inj h
        have ho := matchTempOp_eq hm
        subst ho
        simp only [rvTempCount, opTempCount, lvTempCount]
        omega
      · rw [if_neg hm] at h; cases h
  | repeatOp o =>
      rw [substFirstOp] at h
      by_cases hm : matchTempOp idx o = true
      · rw [if_pos hm] at h
        cases Option.some.inj h
        have ho := matchTempOp_eq hm
        subst ho
        simp only [rvTempCount, opTempCount, lvTempCount]
        omega
      · rw [if_neg hm] at h; cases h
  | binaryOp a b =>
      rw [substFirstOp] at h
      by_cases hma : matchTempOp idx a = true
      · rw [if_pos hma] at h
        cases Option.some.inj h
        have ha := matchTempOp_eq hma
        subst ha
        simp only [rvTempCount, opTempCount, lvTempCount]
        omega
      · rw [if_neg hma] at h
        by_cases hmb : matchTempOp idx b = true
        · rw [if_pos hmb] at h
          cases Option.some.inj h
          have hb := matchTempOp_eq hmb
          subst hb
          simp only [rvTempCount, opTempCount, lvTempCount]
          omega
        · rw [if_neg hmb] at h; cases h
  | aggregate ops =>
      rw [substFirstOp] at h
      rcases hr : replaceFirstTempOp idx newOp ops with _ | ops'
      · rw [hr] at h; cases h
      · rw [hr] at h
        cases Option.some.inj h
        have hc := replaceFirstTempOp_count t idx newOp ops ops' hr
        simp only [rvTempCount]
        omega
  | inlineAsm outs ins =>
      rw [substFirstOp] at h
      rcases hr : replaceFirstTempOp idx newOp ins with _ | ins'
      · rw [hr] at h; cases h
      · rw [hr] at h
        cases Option.some.inj h
        have hc := replaceFirstTempOp_count t idx newOp ins ins' hr
        simp only [rvTempCount]
        omega

theorem applyRepl_count (t idx : Nat) (rv : Rvalue) (s s' : Statement)
    (h : applyRepl idx rv s = some s') :
    stmtTempCount t s' + (if idx = t then 1 else 0) =
      stmtTempCount t s + rvTempCount t rv := by
  cases rv
  case use_ op =>
    rw [applyRepl] at h
    rcases hs : substFirstOp idx op s.rhs with _ | rhs'
    · rw [hs] at h; cases h
    · rw [hs] at h
      cases Option.some.inj h
      have hc := substFirstOp_count t idx op s.rhs rhs' hs
      rw [stmtTempCount, stmtTempCount]
      simp only [rvTempCount] at hc ⊢
      omega
  all_goals (
    (rw [applyRepl] at h) <;> try (intro op hop; cases hop)
    by_cases hc : s.rhs = .use_ (.consume (.temp idx))
    · rw [if_pos hc] at h
      cases Option.some.inj h
      rw [stmtTempCount, stmtTempCount, hc]
      simp only [rvTempCount, opTempCount, lvTempCount]
      omega
    · rw [if_neg hc] at h
      cases h)

theorem armOf_eq_some {uses : List Nat} {s : Statement} {idx : Nat}
    {rv : Rvalue} (h : armOf uses s = some (idx, rv)) :
    s.lhs = .temp idx ∧ s.rhs = rv ∧ uses.getD idx 0 = 2 := by
  obtain ⟨lhs, rhs⟩ := s
  cases lhs with
  | temp j =>
      simp only [armOf] at h
      by_cases hu : uses.getD j 0 = 2
      · rw [if_pos hu] at h
        injection h with h1
        injection h1 with ha hb
        subst ha
        subst hb
        exact ⟨rfl, rfl, hu⟩
      · rw [if_neg hu] at h
        cases h
  | var v => simp only [armOf] at h; cases h
  | arg a => simp only [armOf] at h; cases h
  | retPtr => simp only [armOf] at h; cases h
  | proj base f => simp only [armOf] at h; cases h

end RD

namespace RD

theorem stmtsTempCount_append (t : Nat) (a b : List Statement) :
    stmtsTempCount t (a ++ b) = stmtsTempCount t a + stmtsTempCount t b := by
  simp [stmtsTempCount]

theorem stmtsTempCount_cons (t : Nat) (s : Statement) (l : List Statement) :
    stmtsTempCount t (s :: l) = stmtTempCount t s + stmtsTempCount t l := by
  simp [stmtsTempCount]

theorem insertDead_mem (t i : Nat) (dead : List Nat) :
    t ∈ insertDead i dead ↔ t = i ∨ t ∈ dead := by
  rw [insertDead]
  by_cases h : i ∈ dead
  · rw [if_pos h]
    constructor
    · exact fun ht => Or.inr ht
    · rintro (rfl | ht)
      · exact h
      · exact ht
  · rw [if_neg h]
    simp [List.mem_cons]

theorem insertFold_mem (t : Nat) :
    ∀ (l dead : List Nat), t ∈ insertFold l dead ↔ t ∈ dead ∨ t ∈ l := by
  intro l
  induction l with
  | nil => intro dead; simp [insertFold]
  | cons i rest ih =>
      intro dead
      show t ∈ insertFold rest (insertDead i dead) ↔ _
      rw [ih, insertDead_mem]
      simp [List.mem_cons]
      tauto

theorem cleanFold_spec (uses : List Nat) :
    ∀ (L out : List Statement) (c : Nat) (dead : List Nat),
      ∃ consumed : List Nat,
        (L.foldl (cleanStep uses) (out, c, dead)).2.1 = c + consumed.length ∧
        (L.foldl (cleanStep uses) (out, c, dead)).2.2 =
          insertFold consumed dead ∧
        (L.foldl (cleanStep uses) (out, c, dead)).1.length + consumed.length =
          out.length + L.length ∧
        (∀ j ∈ consumed, uses.getD j 0 = 2) ∧
        (∀ t, stmtsTempCount t (L.foldl (cleanStep uses) (out, c, dead)).1 +
            2 * consumed.count t =
          stmtsTempCount t out + stmtsTempCount t L) := by
  intro L
  induction L with
  | nil =>
      intro out c dead
      refine ⟨[], rfl, rfl, rfl, ?_, ?_⟩
      · intro j hj
        cases hj
      · intro t
        simp [stmtsTempCount]
  | cons s rest ih =>
      intro out c dead
      rw [List.foldl_cons]
      rcases hrepl : out.getLast?.bind (armOf uses) with _ | ⟨idx, rv⟩
      · rw [cleanStep_skip uses out c dead s
          (by intro i r hh; rw [hrepl] at hh; cases hh)]
        obtain ⟨consumed, h1, h2, h3, h4, h5⟩ := ih (out ++ [s]) c dead
        refine ⟨consumed, h1, h2, ?_, h4, ?_⟩
        · simp only [List.length_append, List.length_cons,
            List.length_nil] at h3 ⊢
          omega
        · intro t
          have h5t := h5 t
          simp only [stmtsTempCount, List.map_append, List.sum_append,
            List.map_cons, List.sum_cons, List.map_nil,
            List.sum_nil] at h5t ⊢
          omega
      · rcases ha : applyRepl idx rv s with _ | s'
        · rw [cleanStep_skip uses out c dead s
            (by intro i r hh; rw [hrepl] at hh; cases hh; exact ha)]
          obtain ⟨consumed, h1, h2, h3, h4, h5⟩ := ih (out ++ [s]) c dead
          refine ⟨consumed, h1, h2, ?_, h4, ?_⟩
          · simp only [List.length_append, List.length_cons,
              List.length_nil] at h3 ⊢
            omega
          · intro t
            have h5t := h5 t
            simp only [stmtsTempCount, List.map_append, List.sum_append,
              List.map_cons, List.sum_cons, List.map_nil,
              List.sum_nil] at h5t ⊢
            omega
        · rw [cleanStep_consume uses out c dead s s' idx rv hrepl ha]
          cases hlast : out.getLast? with
          | none => rw [hlast] at hrepl; cases hrepl
          | some sDef =>
              obtain ⟨o, rfl⟩ := List.getLast?_eq_some_iff.mp hlast
              have harm : armOf uses sDef = some (idx, rv) := by
                rw [List.getLast?_concat] at hrepl
                exact hrepl
              obtain ⟨hlhs, hrhs, hu2⟩ := armOf_eq_some harm
              rw [List.dropLast_concat]
              obtain ⟨consumed, h1, h2, h3, h4, h5⟩ :=
                ih (o ++ [s']) (c + 1) (insertDead idx dead)
              refine ⟨idx :: consumed, ?_, ?_, ?_, ?_, ?_⟩
              · rw [h1]
                simp only [List.length_cons]
                omega
              · rw [h2]
                rfl
              · simp only [List.length_append, List.length_cons,
                  List.length_nil] at h3 ⊢
                omega
              · intro j hj
                rcases List.mem_cons.mp hj with rfl | hj'
                · exact hu2
                · exact h4 j hj'
              · intro t
                have h5t := h5 t
                have hca := applyRepl_count t idx rv s s' ha
                have harmc : stmtTempCount t sDef =
                    (if idx = t then 1 else 0) + rvTempCount t rv := by
                  rw [stmtTempCount, hlhs, hrhs]
                  simp only [lvTempCount]
                simp only [stmtsTempCount, List.map_append, List.sum_append,
                  List.map_cons, List.sum_cons, List.map_nil,
                  List.sum_nil] at h5t ⊢
                by_cases hit : idx = t
                · subst hit
                  rw [if_pos rfl] at hca harmc
                  rw [List.count_cons_self]
                  omega
                · rw [if_neg hit] at hca harmc
                  rw [List.count_cons_of_ne (by omega)]
                  omega

end RD

namespace RD

theorem cleanTerm_spec (uses : List Nat) (out : List Statement) (c : Nat)
    (dead : List Nat) (term : TerminatorKind) :
    ∃ consumed : List Nat,
      (cleanTerm uses out c dead term).2.2.1 = c + consumed.length ∧
      (cleanTerm uses out c dead term).2.2.2 = insertFold consumed dead ∧
      (cleanTerm uses out c dead term).1.length + consumed.length =
        out.length ∧
      (∀ j ∈ consumed, uses.getD j 0 = 2) ∧
      (∀ t, stmtsTempCount t (cleanTerm uses out c dead term).1 +
          termTempCount t (cleanTerm uses out c dead term).2.1 +
          2 * consumed.count t =
        stmtsTempCount t out + termTempCount t term) := by
  have hdef : cleanTerm uses out c dead term = (out, term, c, dead) →
      ∃ consumed : List Nat,
        (cleanTerm uses out c dead term).2.2.1 = c + consumed.length ∧
        (cleanTerm uses out c dead term).2.2.2 = insertFold consumed dead ∧
        (cleanTerm uses out c dead term).1.length + consumed.length =
          out.length ∧
        (∀ j ∈ consumed, uses.getD j 0 = 2) ∧
        (∀ t, stmtsTempCount t (cleanTerm uses out c dead term).1 +
            termTempCount t (cleanTerm uses out c dead term).2.1 +
            2 * consumed.count t =
          stmtsTempCount t out + termTempCount t term) := by
    intro he
    rw [he]
    refine ⟨[], rfl, rfl, rfl, ?_, ?_⟩
    · intro j hj
      cases hj
    · intro t
      simp
  rcases hGL : out.getLast?.bind (armOf uses) with _ | ⟨idx, rv⟩
  · exact hdef (by simp only [cleanTerm, hGL])
  · cases rv
    case ref lv => exact hdef (by simp only [cleanTerm, hGL])
    case len lv => exact hdef (by simp only [cleanTerm, hGL])
    case boxAlloc => exact hdef (by simp only [cleanTerm, hGL])
    case cast op => exact hdef (by simp only [cleanTerm, hGL])
    case unaryOp op => exact hdef (by simp only [cleanTerm, hGL])
    case binaryOp a b => exact hdef (by simp only [cleanTerm, hGL])
    case repeatOp op => exact hdef (by simp only [cleanTerm, hGL])
    case aggregate ops => exact hdef (by simp only [cleanTerm, hGL])
    case inlineAsm outs ins => exact hdef (by simp only [cleanTerm, hGL])
    case use_ oper =>
      cases term
      case goto tgt => exact hdef (by simp only [cleanTerm, hGL])
      case switch discr ts => exact hdef (by simp only [cleanTerm, hGL])
      case switchInt discr ts => exact hdef (by simp only [cleanTerm, hGL])
      case resume => exact hdef (by simp only [cleanTerm, hGL])
      case ret => exact hdef (by simp only [cleanTerm, hGL])
      case drop v tgt u => exact hdef (by simp only [cleanTerm, hGL])
      case ifT cond tt ee =>
        cases hm : matchTempOp idx cond with
        | false =>
            exact hdef (by
              simp only [cleanTerm, hGL, hm, Bool.false_eq_true, if_false])
        | true =>
            cases hlast : out.getLast? with
            | none => rw [hlast] at hGL; cases hGL
            | some sDef =>
                obtain ⟨o, rfl⟩ := List.getLast?_eq_some_iff.mp hlast
                have harm : armOf uses sDef = some (idx, .use_ oper) := by
                  rw [List.getLast?_concat] at hGL
                  exact hGL
                obtain ⟨hlhs, hrhs, hu2⟩ := armOf_eq_some harm
                have hcond := matchTempOp_eq hm
                have he : cleanTerm uses (o ++ [sDef]) c dead
                    (.ifT cond tt ee) =
                    ((o ++ [sDef]).dropLast, .ifT oper tt ee, c + 1,
                      insertDead idx dead) := by
                  simp only [cleanTerm, hGL, hm, if_true]
                rw [he]
                refine ⟨[idx], rfl, rfl, ?_, ?_, ?_⟩
                · rw [List.dropLast_concat]
                  simp
                · intro j hj
                  rcases List.mem_cons.mp hj with rfl | hj'
                  · exact hu2
                  · cases hj'
                · intro t
                  rw [List.dropLast_concat]
                  subst hcond
                  have harmc : stmtTempCount t sDef =
                      (if idx = t then 1 else 0) + opTempCount t oper := by
                    rw [stmtTempCount, hlhs, hrhs]
                    simp only [lvTempCount, rvTempCount]
                  have hx : opTempCount t (.consume (.temp idx)) =
                      if idx = t then 1 else 0 := by
                    simp only [opTempCount, lvTempCount]
                  simp only [stmtsTempCount, List.map_append, List.sum_append,
                    List.map_cons, List.sum_cons, List.map_nil, List.sum_nil,
                    termTempCount, hx]
                  by_cases hit : idx = t
                  · subst hit
                    rw [if_pos rfl] at harmc ⊢
                    have hc1 : List.count idx [idx] = 1 := by
                      rw [List.count_cons_self]
                      rfl
                    rw [hc1]
                    omega
                  · rw [if_neg hit] at harmc
                    have hc0 : List.count t [idx] = 0 := by
                      rw [List.count_cons_of_ne (by omega)]
                      rfl
                    rw [hc0, if_neg hit]
                    omega
      case call f args dest cleanup =>
        cases hm : matchTempOp idx f with
        | false =>
            exact hdef (by
              simp only [cleanTerm, hGL, hm, Bool.false_eq_true, if_false])
        | true =>
            cases hlast : out.getLast? with
            | none => rw [hlast] at hGL; cases hGL
            | some sDef =>
                obtain ⟨o, rfl⟩ := List.getLast?_eq_some_iff.mp hlast
                have harm : armOf uses sDef = some (idx, .use_ oper) := by
                  rw [List.getLast?_concat] at hGL
                  exact hGL
                obtain ⟨hlhs, hrhs, hu2⟩ := armOf_eq_some harm
                have hcond := matchTempOp_eq hm
                have he : cleanTerm uses (o ++ [sDef]) c dead
                    (.call f args dest cleanup) =
                    ((o ++ [sDef]).dropLast, .call oper args dest cleanup,
                      c + 1, insertDead idx dead) := by
                  simp only [cleanTerm, hGL, hm, if_true]
                rw [he]
                refine ⟨[idx], rfl, rfl, ?_, ?_, ?_⟩
                · rw [List.dropLast_concat]
                  simp
                · intro j hj
                  rcases List.mem_cons.mp hj with rfl | hj'
                  · exact hu2
                  · cases hj'
                · intro t
                  rw [List.dropLast_concat]
                  subst hcond
                  have harmc : stmtTempCount t sDef =
                      (if idx = t then 1 else 0) + opTempCount t oper := by
                    rw [stmtTempCount, hlhs, hrhs]
                    simp only [lvTempCount, rvTempCount]
                  have hx : opTempCount t (.consume (.temp idx)) =
                      if idx = t then 1 else 0 := by
                    simp only [opTempCount, lvTempCount]
                  simp only [stmtsTempCount, List.map_append, List.sum_append,
                    List.map_cons, List.sum_cons, List.map_nil, List.sum_nil,
                    termTempCount, hx]
                  by_cases hit : idx = t
                  · subst hit
                    rw [if_pos rfl] at harmc ⊢
                    have hc1 : List.count idx [idx] = 1 := by
                      rw [List.count_cons_self]
                      rfl
                    rw [hc1]
                    omega
                  · rw [if_neg hit] at harmc
                    have hc0 : List.count t [idx] = 0 := by
                      rw [List.count_cons_of_ne (by omega)]
                      rfl
                    rw [hc0, if_neg hit]
                    omega

end RD

namespace RD

theorem insertFold_append (a b dead : List Nat) :
    insertFold (a ++ b) dead = insertFold b (insertFold a dead) := by
  rw [insertFold, insertFold, insertFold, List.foldl_append]

theorem cleanFold_c_mono (uses : List Nat) :
    ∀ (L out : List Statement) (c : Nat) (dead : List Nat),
      c ≤ (L.foldl (cleanStep uses) (out, c, dead)).2.1 := by
  intro L
  induction L with
  | nil => intro out c dead; exact Nat.le_refl c
  | cons s rest ih =>
      intro out c dead
      rw [List.foldl_cons]
      rcases hrepl : out.getLast?.bind (armOf uses) with _ | ⟨idx, rv⟩
      · rw [cleanStep_skip uses out c dead s
          (by intro i r hh; rw [hrepl] at hh; cases hh)]
        exact ih (out ++ [s]) c dead
      · rcases ha : applyRepl idx rv s with _ | s'
        · rw [cleanStep_skip uses out c dead s
            (by intro i r hh; rw [hrepl] at hh; cases hh; exact ha)]
          exact ih (out ++ [s]) c dead
        · rw [cleanStep_consume uses out c dead s s' idx rv hrepl ha]
          exact Nat.le_trans (Nat.le_succ c)
            (ih (out.dropLast ++ [s']) (c + 1) (insertDead idx dead))

theorem cleanFold_nodrop (uses : List Nat) :
    ∀ (L out : List Statement) (c : Nat) (dead : List Nat),
      (L.foldl (cleanStep uses) (out, c, dead)).2.1 = c →
      L.foldl (cleanStep uses) (out, c, dead) = (out ++ L, c, dead) := by
  intro L
  induction L with
  | nil => intro out c dead _; simp
  | cons s rest ih =>
      intro out c dead hc
      rw [List.foldl_cons] at hc ⊢
      rcases hrepl : out.getLast?.bind (armOf uses) with _ | ⟨idx, rv⟩
      · rw [cleanStep_skip uses out c dead s
          (by intro i r hh; rw [hrepl] at hh; cases hh)] at hc ⊢
        rw [ih (out ++ [s]) c dead hc]
        simp
      · rcases ha : applyRepl idx rv s with _ | s'
        · rw [cleanStep_skip uses out c dead s
            (by intro i r hh; rw [hrepl] at hh; cases hh; exact ha)] at hc ⊢
          rw [ih (out ++ [s]) c dead hc]
          simp
        · rw [cleanStep_consume uses out c dead s s' idx rv hrepl ha] at hc
          have := cleanFold_c_mono uses rest (out.dropLast ++ [s']) (c + 1)
            (insertDead idx dead)
          omega

theorem cleanTerm_nodrop (uses : List Nat) (out : List Statement) (c : Nat)
    (dead : List Nat) (term : TerminatorKind)
    (hc : (cleanTerm uses out c dead term).2.2.1 = c) :
    cleanTerm uses out c dead term = (out, term, c, dead) := by
  rcases hGL : out.getLast?.bind (armOf uses) with _ | ⟨idx, rv⟩
  · simp only [cleanTerm, hGL]
  · cases rv
    case ref lv => simp only [cleanTerm, hGL]
    case len lv => simp only [cleanTerm, hGL]
    case boxAlloc => simp only [cleanTerm, hGL]
    case cast op => simp only [cleanTerm, hGL]
    case unaryOp op => simp only [cleanTerm, hGL]
    case binaryOp a b => simp only [cleanTerm, hGL]
    case repeatOp op => simp only [cleanTerm, hGL]
    case aggregate ops => simp only [cleanTerm, hGL]
    case inlineAsm outs ins => simp only [cleanTerm, hGL]
    case use_ oper =>
      cases term
      case goto tgt => simp only [cleanTerm, hGL]
      case switch discr ts => simp only [cleanTerm, hGL]
      case switchInt discr ts => simp only [cleanTerm, hGL]
      case resume => simp only [cleanTerm, hGL]
      case ret => simp only [cleanTerm, hGL]
      case drop v tgt u => simp only [cleanTerm, hGL]
      case ifT cond tt ee =>
        cases hm : matchTempOp idx cond with
        | false =>
            simp only [cleanTerm, hGL, hm, Bool.false_eq_true, if_false]
        | true =>
            exfalso
            simp only [cleanTerm, hGL, hm, if_true] at hc
            omega
      case call f args dest cleanup =>
        cases hm : matchTempOp idx f with
        | false =>
            simp only [cleanTerm, hGL, hm, Bool.false_eq_true, if_false]
        | true =>
            exfalso
            simp only [cleanTerm, hGL, hm, if_true] at hc
            omega

end RD

namespace RD

theorem promoteScan_spec (uses : List Nat) (bb : BasicBlockData)
    (dead : List Nat) :
    ∃ consumed : List Nat,
      (promoteScan uses bb dead).2.1 = consumed.length ∧
      (promoteScan uses bb dead).2.2 = insertFold consumed dead ∧
      (promoteScan uses bb dead).1.statements.length + consumed.length =
        bb.statements.length ∧
      (∀ j ∈ consumed, uses.getD j 0 = 2) ∧
      (∀ t, blockTempCount t (promoteScan uses bb dead).1 +
          2 * consumed.count t = blockTempCount t bb) := by
  rw [promoteScan_eq_cleanScan]
  obtain ⟨c1, f1, f2, f3, f4, f5⟩ := cleanFold_spec uses bb.statements [] 0 dead
  obtain ⟨c2, g1, g2, g3, g4, g5⟩ := cleanTerm_spec uses
    (bb.statements.foldl (cleanStep uses) ([], 0, dead)).1
    (bb.statements.foldl (cleanStep uses) ([], 0, dead)).2.1
    (bb.statements.foldl (cleanStep uses) ([], 0, dead)).2.2
    bb.terminator
  refine ⟨c1 ++ c2, ?_, ?_, ?_, ?_, ?_⟩
  · show (cleanTerm uses _ _ _ _).2.2.1 = _
    rw [g1, f1, List.length_append]
    omega
  · show (cleanTerm uses _ _ _ _).2.2.2 = _
    rw [g2, f2, insertFold_append]
  · show (cleanTerm uses _ _ _ _).1.length + _ = _
    simp only [List.length_nil, List.length_append] at f3 g3 ⊢
    omega
  · intro j hj
    rcases List.mem_append.mp hj with hj' | hj'
    · exact f4 j hj'
    · exact g4 j hj'
  · intro t
    have hf := f5 t
    have hg := g5 t
    show (List.map (stmtTempCount t) (cleanTerm uses
        (bb.statements.foldl (cleanStep uses) ([], 0, dead)).1
        (bb.statements.foldl (cleanStep uses) ([], 0, dead)).2.1
        (bb.statements.foldl (cleanStep uses) ([], 0, dead)).2.2
        bb.terminator).1).sum +
      termTempCount t (cleanTerm uses
        (bb.statements.foldl (cleanStep uses) ([], 0, dead)).1
        (bb.statements.foldl (cleanStep uses) ([], 0, dead)).2.1
        (bb.statements.foldl (cleanStep uses) ([], 0, dead)).2.2
        bb.terminator).2.1 +
      2 * List.count t (c1 ++ c2) =
      (List.map (stmtTempCount t) bb.statements).sum +
        termTempCount t bb.terminator
    rw [List.count_append]
    simp only [stmtsTempCount] at hf hg
    simp only [List.map_nil, List.sum_nil] at hf
    omega

theorem promoteScan_zero (uses : List Nat) (bb : BasicBlockData)
    (dead : List Nat) (h : (promoteScan uses bb dead).2.1 = 0) :
    promoteScan uses bb dead = (bb, 0, dead) := by
  rw [promoteScan_eq_cleanScan] at h ⊢
  have hcm := cleanFold_c_mono uses bb.statements [] 0 dead
  obtain ⟨c2, g1, g2, g3, g4, g5⟩ := cleanTerm_spec uses
    (bb.statements.foldl (cleanStep uses) ([], 0, dead)).1
    (bb.statements.foldl (cleanStep uses) ([], 0, dead)).2.1
    (bb.statements.foldl (cleanStep uses) ([], 0, dead)).2.2
    bb.terminator
  have hc2 : (cleanTerm uses
      (bb.statements.foldl (cleanStep uses) ([], 0, dead)).1
      (bb.statements.foldl (cleanStep uses) ([], 0, dead)).2.1
      (bb.statements.foldl (cleanStep uses) ([], 0, dead)).2.2
      bb.terminator).2.2.1 = 0 := h
  have hfold0 : (bb.statements.foldl (cleanStep uses) ([], 0, dead)).2.1 = 0 := by
    rw [g1] at hc2
    omega
  have hfold := cleanFold_nodrop uses bb.statements [] 0 dead hfold0
  have hterm := cleanTerm_nodrop uses
    (bb.statements.foldl (cleanStep uses) ([], 0, dead)).1
    (bb.statements.foldl (cleanStep uses) ([], 0, dead)).2.1
    (bb.statements.foldl (cleanStep uses) ([], 0, dead)).2.2
    bb.terminator (by rw [hc2, hfold0])
  have hcs : cleanScan uses bb dead =
      (⟨(cleanTerm uses
          (bb.statements.foldl (cleanStep uses) ([], 0, dead)).1
          (bb.statements.foldl (cleanStep uses) ([], 0, dead)).2.1
          (bb.statements.foldl (cleanStep uses) ([], 0, dead)).2.2
          bb.terminator).1,
        (cleanTerm uses
          (bb.statements.foldl (cleanStep uses) ([], 0, dead)).1
          (bb.statements.foldl (cleanStep uses) ([], 0, dead)).2.1
          (bb.statements.foldl (cleanStep uses) ([], 0, dead)).2.2
          bb.terminator).2.1⟩,
        (cleanTerm uses
          (bb.statements.foldl (cleanStep uses) ([], 0, dead)).1
          (bb.statements.foldl (cleanStep uses) ([], 0, dead)).2.1
          (bb.statements.foldl (cleanStep uses) ([], 0, dead)).2.2
          bb.terminator).2.2.1,
        (cleanTerm uses
          (bb.statements.foldl (cleanStep uses) ([], 0, dead)).1
          (bb.statements.foldl (cleanStep uses) ([], 0, dead)).2.1
          (bb.statements.foldl (cleanStep uses) ([], 0, dead)).2.2
          bb.terminator).2.2.2) := rfl
  rw [hcs, hterm, hfold]
  rfl

theorem promoteScan_fix_fold (uses : List Nat) (bb : BasicBlockData)
    (dead : List Nat) (h : promoteScan uses bb dead = (bb, 0, dead)) :
    bb.statements.foldl (cleanStep uses) ([], 0, dead) =
      (bb.statements, 0, dead) ∧
    cleanTerm uses bb.statements 0 dead bb.terminator =
      (bb.statements, bb.terminator, 0, dead) := by
  have hz : (promoteScan uses bb dead).2.1 = 0 := by rw [h]
  rw [promoteScan_eq_cleanScan] at hz
  obtain ⟨c2, g1, g2, g3, g4, g5⟩ := cleanTerm_spec uses
    (bb.statements.foldl (cleanStep uses) ([], 0, dead)).1
    (bb.statements.foldl (cleanStep uses) ([], 0, dead)).2.1
    (bb.statements.foldl (cleanStep uses) ([], 0, dead)).2.2
    bb.terminator
  have hc2 : (cleanTerm uses
      (bb.statements.foldl (cleanStep uses) ([], 0, dead)).1
      (bb.statements.foldl (cleanStep uses) ([], 0, dead)).2.1
      (bb.statements.foldl (cleanStep uses) ([], 0, dead)).2.2
      bb.terminator).2.2.1 = 0 := hz
  have hfold0 : (bb.statements.foldl (cleanStep uses) ([], 0, dead)).2.1 = 0 := by
    rw [g1] at hc2
    omega
  have hfold := cleanFold_nodrop uses bb.statements [] 0 dead hfold0
  have hterm := cleanTerm_nodrop uses
    (bb.statements.foldl (cleanStep uses) ([], 0, dead)).1
    (bb.statements.foldl (cleanStep uses) ([], 0, dead)).2.1
    (bb.statements.foldl (cleanStep uses) ([], 0, dead)).2.2
    bb.terminator (by rw [hc2, hfold0])
  rw [hfold] at hterm ⊢
  simp only [List.nil_append] at hfold hterm ⊢
  exact ⟨trivial, hterm⟩

end RD

namespace RD

theorem promoteBlockLoop_spec (uses : List Nat) :
    ∀ (fuel : Nat) (bb : BasicBlockData) (dead : List Nat),
      bb.statements.length < fuel →
      ∃ consumed : List Nat,
        (promoteBlockLoop uses fuel bb dead).2 = insertFold consumed dead ∧
        (∀ j ∈ consumed, uses.getD j 0 = 2) ∧
        (∀ t, blockTempCount t (promoteBlockLoop uses fuel bb dead).1 +
            2 * consumed.count t = blockTempCount t bb) ∧
        promoteScan uses (promoteBlockLoop uses fuel bb dead).1
            (promoteBlockLoop uses fuel bb dead).2 =
          ((promoteBlockLoop uses fuel bb dead).1, 0,
            (promoteBlockLoop uses fuel bb dead).2) := by
  intro fuel
  induction fuel with
  | zero => intro bb dead h; omega
  | succ fuel ih =>
      intro bb dead hfuel
      obtain ⟨cS, s1, s2, s3, s4, s5⟩ := promoteScan_spec uses bb dead
      rcases hscan : promoteScan uses bb dead with ⟨bb', dropped, dead'⟩
      rw [hscan] at s1 s2 s3 s5
      have hdp : dropped = cS.length := s1
      have hdd : dead' = insertFold cS dead := s2
      have hln : bb'.statements.length + cS.length = bb.statements.length := s3
      have hct : ∀ t, blockTempCount t bb' + 2 * cS.count t =
          blockTempCount t bb := s5
      have hl : promoteBlockLoop uses (fuel + 1) bb dead =
          if dropped = 0 then (bb', dead')
          else promoteBlockLoop uses fuel bb' dead' := by
        simp only [promoteBlockLoop, hscan]
      by_cases hdz : dropped = 0
      · rw [hl, if_pos hdz]
        have hzero := promoteScan_zero uses bb dead (by rw [hscan]; exact hdz)
        rw [hscan] at hzero
        have hbb : bb' = bb := congrArg Prod.fst hzero
        have hdd2 : dead' = dead := congrArg (fun p => p.2.2) hzero
        refine ⟨[], ?_, ?_, ?_, ?_⟩
        · show dead' = insertFold [] dead
          rw [hdd2]
          rfl
        · intro j hj
          cases hj
        · intro t
          show blockTempCount t bb' + 2 * List.count t [] = blockTempCount t bb
          rw [hbb]
          simp
        · show promoteScan uses bb' dead' = (bb', 0, dead')
          rw [hbb, hdd2]
          exact promoteScan_zero uses bb dead (by rw [hscan]; exact hdz)
      · rw [hl, if_neg hdz]
        have hlen' : bb'.statements.length < fuel := by
          have : cS.length ≠ 0 := by
            intro h0
            rw [h0] at hdp
            exact hdz hdp
          omega
        obtain ⟨cL, l1, l2, l3, l4⟩ := ih bb' dead' hlen'
        refine ⟨cS ++ cL, ?_, ?_, ?_, l4⟩
        · rw [l1, hdd, insertFold_append]
        · intro j hj
          rcases List.mem_append.mp hj with hj' | hj'
          · exact s4 j hj'
          · exact l2 j hj'
        · intro t
          have h1 := l3 t
          have h2 := hct t
          rw [List.count_append]
          omega

end RD

namespace RD

theorem promoterFold_spec (uses : List Nat) :
    ∀ (bbs acc : List BasicBlockData) (deadIn : List Nat),
      (∀ bb' ∈ acc, ∃ d, promoteScan uses bb' d = (bb', 0, d)) →
      ∃ consumed : List Nat,
        (bbs.foldl
          (fun st bb =>
            let (bb', dead') := promoteBlock uses bb st.2
            (st.1 ++ [bb'], dead'))
          (acc, deadIn)).2 = insertFold consumed deadIn ∧
        (∀ j ∈ consumed, uses.getD j 0 = 2) ∧
        (∀ t, ((bbs.foldl
            (fun st bb =>
              let (bb', dead') := promoteBlock uses bb st.2
              (st.1 ++ [bb'], dead'))
            (acc, deadIn)).1.map (blockTempCount t)).sum +
            2 * consumed.count t =
          (acc.map (blockTempCount t)).sum +
            (bbs.map (blockTempCount t)).sum) ∧
        (∀ bb' ∈ (bbs.foldl
            (fun st bb =>
              let (bb', dead') := promoteBlock uses bb st.2
              (st.1 ++ [bb'], dead'))
            (acc, deadIn)).1, ∃ d,
          promoteScan uses bb' d = (bb', 0, d)) := by
  intro bbs
  induction bbs with
  | nil =>
      intro acc deadIn hacc
      refine ⟨[], rfl, ?_, ?_, hacc⟩
      · intro j hj
        cases hj
      · intro t
        simp
  | cons bb rest ih =>
      intro acc deadIn hacc
      rw [List.foldl_cons]
      rcases hpb : promoteBlock uses bb deadIn with ⟨bb', dead'⟩
      obtain ⟨cB, b1, b2, b3, b4⟩ := promoteBlockLoop_spec uses
        (bb.statements.length + 1) bb deadIn (Nat.lt_succ_self _)
      have hpb' : promoteBlockLoop uses (bb.statements.length + 1) bb deadIn =
          (bb', dead') := hpb
      rw [hpb'] at b1 b3 b4
      have b1' : dead' = insertFold cB deadIn := b1
      have b3' : ∀ t, blockTempCount t bb' + 2 * cB.count t =
          blockTempCount t bb := b3
      have b4' : promoteScan uses bb' dead' = (bb', 0, dead') := b4
      simp only [hpb]
      have hacc' : ∀ bb2 ∈ acc ++ [bb'], ∃ d,
          promoteScan uses bb2 d = (bb2, 0, d) := by
        intro bb2 hbb2
        rcases List.mem_append.mp hbb2 with h | h
        · exact hacc bb2 h
        · rcases List.mem_singleton.mp h with rfl
          exact ⟨dead', b4'⟩
      obtain ⟨cR, r1, r2, r3, r4⟩ := ih (acc ++ [bb']) dead' hacc'
      refine ⟨cB ++ cR, ?_, ?_, ?_, r4⟩
      · rw [r1, b1', insertFold_append]
      · intro j hj
        rcases List.mem_append.mp hj with hj' | hj'
        · exact b2 j hj'
        · exact r2 j hj'
      · intro t
        have h1 := r3 t
        have h2 := b3' t
        rw [List.count_append]
        simp only [List.map_append, List.sum_append, List.map_cons,
          List.sum_cons, List.map_nil, List.sum_nil] at h1 ⊢
        omega

theorem promoterRun_spec (uses : List Nat) (m : Mir) :
    ∃ consumed : List Nat,
      (promoterRun uses m).2 = insertFold consumed [] ∧
      (∀ j ∈ consumed, uses.getD j 0 = 2) ∧
      (∀ t, mirTempCount t (promoterRun uses m).1 + 2 * consumed.count t =
        mirTempCount t m) ∧
      (∀ bb' ∈ (promoterRun uses m).1.basicBlocks, ∃ d,
        promoteScan uses bb' d = (bb', 0, d)) := by
  obtain ⟨consumed, h1, h2, h3, h4⟩ :=
    promoterFold_spec uses m.basicBlocks [] [] (by intro b h; cases h)
  rcases hf : m.basicBlocks.foldl
      (fun (st : List BasicBlockData × List Nat) (bb : BasicBlockData) =>
        let (bb', dead') := promoteBlock uses bb st.2
        (st.1 ++ [bb'], dead'))
      ([], []) with ⟨blocks, dd⟩
  rw [hf] at h1 h3 h4
  have hrun : promoterRun uses m = (⟨m.tempDecls, blocks⟩, dd) := by
    simp only [promoterRun, hf]
  refine ⟨consumed, ?_, h2, ?_, ?_⟩
  · rw [hrun]
    exact h1
  · intro t
    have h3' : (blocks.map (blockTempCount t)).sum +
        2 * List.count t consumed =
        (([] : List BasicBlockData).map (blockTempCount t)).sum +
          (m.basicBlocks.map (blockTempCount t)).sum := h3 t
    simp only [List.map_nil, List.sum_nil, Nat.zero_add] at h3'
    rw [hrun]
    show (blocks.map (blockTempCount t)).sum + 2 * List.count t consumed =
      (m.basicBlocks.map (blockTempCount t)).sum
    omega
  · intro bb' hbb'
    rw [hrun] at hbb'
    exact h4 bb' hbb'

end RD

namespace RD

theorem collectTempUses_getD (m : Mir) (t : Nat) :
    (collectTempUses m).getD t 0 =
      if t < m.tempDecls.length then mirTempCount t m else 0 := by
  rw [collectTempUses, List.getD_eq_getElem?_getD, List.getElem?_map]
  rcases Nat.lt_or_ge t m.tempDecls.length with h | h
  · rw [List.getElem?_range h, if_pos h]
    rfl
  · rw [List.getElem?_eq_none (by rwa [List.length_range]), if_neg (by omega)]
    rfl

theorem promoterRun_dead_counts (m : Mir) :
    (∀ t, t ∈ (promoterRun (collectTempUses m) m).2 →
      mirTempCount t (promoterRun (collectTempUses m) m).1 = 0 ∧
      mirTempCount t m = 2 ∧ t < m.tempDecls.length) ∧
    (∀ t, t ∉ (promoterRun (collectTempUses m) m).2 →
      mirTempCount t (promoterRun (collectTempUses m) m).1 =
        mirTempCount t m) := by
  obtain ⟨consumed, h1, h2, h3, _⟩ :=
    promoterRun_spec (collectTempUses m) m
  constructor
  · intro t ht
    rw [h1, insertFold_mem] at ht
    rcases ht with ht | ht
    · cases ht
    · have hu2 : (collectTempUses m).getD t 0 = 2 := h2 t ht
      rw [collectTempUses_getD] at hu2
      by_cases hlt : t < m.tempDecls.length
      · rw [if_pos hlt] at hu2
        have hk : 1 ≤ consumed.count t := List.one_le_count_iff.mpr ht
        have hc := h3 t
        rw [hu2] at hc
        exact ⟨by omega, hu2, hlt⟩
      · rw [if_neg hlt] at hu2
        cases hu2
  · intro t ht
    rw [h1, insertFold_mem] at ht
    push_neg at ht
    have hk : consumed.count t = 0 := List.count_eq_zero.mpr ht.2
    have hc := h3 t
    omega

end RD

namespace RD

theorem renumberLvalue_temp_inv {repls : List Nat} {lv : Lvalue} {k : Nat}
    (h : renumberLvalue repls lv = .temp k) :
    ∃ u, lv = .temp u ∧ repls.getD u u = k := by
  cases lv with
  | temp n =>
      rw [renumberLvalue] at h
      injection h with h'
      exact ⟨n, rfl, h'⟩
  | var v => cases h
  | arg a => cases h
  | retPtr => cases h
  | proj base f => cases h

theorem matchTempOp_renumber_forward {repls : List Nat} {idx : Nat}
    {o : Operand} (h : matchTempOp idx o = true) :
    matchTempOp (repls.getD idx idx) (renumberOperand repls o) = true := by
  have ho := matchTempOp_eq h
  subst ho
  rw [matchTempOp]
  simp [renumberOperand, renumberLvalue]

theorem matchTempOp_renumber_back {repls dead : List Nat} {idx : Nat}
    {o : Operand}
    (hinj : ∀ u v, u ∉ dead → v ∉ dead →
      repls.getD u u = repls.getD v v → u = v)
    (hidx : idx ∉ dead)
    (hlive : ∀ u, 0 < opTempCount u o → u ∉ dead)
    (h : matchTempOp (repls.getD idx idx) (renumberOperand repls o) = true) :
    matchTempOp idx o = true := by
  have ho := matchTempOp_eq h
  cases o with
  | constant c => cases ho
  | consume lv =>
      rw [renumberOperand] at ho
      injection ho with ho'
      obtain ⟨u, rfl, hu⟩ := renumberLvalue_temp_inv ho'
      have hul : u ∉ dead := by
        apply hlive
        simp [opTempCount, lvTempCount]
      have := hinj u idx hul hidx hu
      subst this
      rw [matchTempOp]
      simp

theorem replaceFirstTempOp_renumber_none {repls dead : List Nat} {idx : Nat}
    (newOp newOp' : Operand)
    (hinj : ∀ u v, u ∉ dead → v ∉ dead →
      repls.getD u u = repls.getD v v → u = v)
    (hidx : idx ∉ dead) :
    ∀ (l : List Operand),
      (∀ u, 0 < (l.map (opTempCount u)).sum → u ∉ dead) →
      replaceFirstTempOp idx newOp l = none →
      replaceFirstTempOp (repls.getD idx idx) newOp'
        (l.map (renumberOperand repls)) = none := by
  intro l
  induction l with
  | nil => intro _ _; rfl
  | cons o rest ih =>
      intro hlive h
      rw [replaceFirstTempOp] at h
      by_cases hm : matchTempOp idx o = true
      · rw [if_pos hm] at h
        cases h
      · rw [if_neg hm] at h
        rw [List.map_cons, replaceFirstTempOp]
        have hm' : ¬ matchTempOp (repls.getD idx idx)
            (renumberOperand repls o) = true := by
          intro hmm
          exact hm (matchTempOp_renumber_back hinj hidx
            (fun u hu => hlive u (by
              simp only [List.map_cons, List.sum_cons]
              omega)) hmm)
        rw [if_neg hm']
        have hrest : replaceFirstTempOp idx newOp rest = none := by
          rcases hr : replaceFirstTempOp idx newOp rest with _ | r'
          · rfl
          · rw [hr] at h
            cases h
        rw [ih (fun u hu => hlive u (by
          simp only [List.map_cons, List.sum_cons]
          omega)) hrest]
        rfl

end RD

namespace RD

theorem substFirstOp_renumber_none {repls dead : List Nat} {idx : Nat}
    (newOp newOp' : Operand) (rv : Rvalue)
    (hinj : ∀ u v, u ∉ dead → v ∉ dead →
      repls.getD u u = repls.getD v v → u = v)
    (hidx : idx ∉ dead)
    (hlive : ∀ u, 0 < rvTempCount u rv → u ∉ dead)
    (h : substFirstOp idx newOp rv = none) :
    substFirstOp (repls.getD idx idx) newOp'
      (renumberRvalue repls rv) = none := by
  cases rv with
  | use_ o =>
      rw [substFirstOp] at h
      by_cases hm : matchTempOp idx o = true
      · rw [if_pos hm] at h
        cases h
      · rw [renumberRvalue, substFirstOp]
        rw [if_neg (fun hmm => hm (matchTempOp_renumber_back hinj hidx
          (fun u hu => hlive u (by simpa [rvTempCount] using hu)) hmm))]
  | ref lv => rfl
  | len lv => rfl
  | boxAlloc => rfl
  | cast o =>
      rw [substFirstOp] at h
      by_cases hm : matchTempOp idx o = true
      · rw [if_pos hm] at h
        cases h
      · rw [renumberRvalue, substFirstOp]
        rw [if_neg (fun hmm => hm (matchTempOp_renumber_back hinj hidx
          (fun u hu => hlive u (by simpa [rvTempCount] using hu)) hmm))]
  | unaryOp o =>
      rw [substFirstOp] at h
      by_cases hm : matchTempOp idx o = true
      · rw [if_pos hm] at h
        cases h
      · rw [renumberRvalue, substFirstOp]
        rw [if_neg (fun hmm => hm (matchTempOp_renumber_back hinj hidx
          (fun u hu => hlive u (by simpa [rvTempCount] using hu)) hmm))]
  | repeatOp o =>
      rw [substFirstOp] at h
      by_cases hm : matchTempOp idx o = true
      · rw [if_pos hm] at h
        cases h
      · rw [renumberRvalue, substFirstOp]
        rw [if_neg (fun hmm => hm (matchTempOp_renumber_back hinj hidx
          (fun u hu => hlive u (by simpa [rvTempCount] using hu)) hmm))]
  | binaryOp a b =>
      rw [substFirstOp] at h
      by_cases hma : matchTempOp idx a = true
      · rw [if_pos hma] at h
        cases h
      · rw [if_neg hma] at h
        by_cases hmb : matchTempOp idx b = true
        · rw [if_pos hmb] at h
          cases h
        · rw [renumberRvalue, substFirstOp]
          rw [if_neg (fun hmm => hma (matchTempOp_renumber_back hinj hidx
            (fun u hu => hlive u (by
              simp only [rvTempCount]
              omega)) hmm))]
          rw [if_neg (fun hmm => hmb (matchTempOp_renumber_back hinj hidx
            (fun u hu => hlive u (by
              simp only [rvTempCount]
              omega)) hmm))]
  | aggregate ops =>
      rw [substFirstOp] at h
      rcases hr : replaceFirstTempOp idx newOp ops with _ | ops'
      · rw [renumberRvalue, substFirstOp]
        rw [replaceFirstTempOp_renumber_none newOp newOp' hinj hidx ops
          (fun u hu => hlive u (by simpa [rvTempCount] using hu)) hr]
        rfl
      · rw [hr] at h
        cases h
  | inlineAsm outs ins =>
      rw [substFirstOp] at h
      rcases hr : replaceFirstTempOp idx newOp ins with _ | ins'
      · rw [renumberRvalue, substFirstOp]
        rw [replaceFirstTempOp_renumber_none newOp newOp' hinj hidx ins
          (fun u hu => hlive u (by
            simp only [rvTempCount]
            omega)) hr]
        rfl
      · rw [hr] at h
        cases h

theorem renumberRvalue_use_inv {repls : List Nat} {rv : Rvalue} {op : Operand}
    (h : renumberRvalue repls rv = .use_ op) :
    ∃ op0, rv = .use_ op0 ∧ renumberOperand repls op0 = op := by
  cases rv with
  | use_ o =>
      rw [renumberRvalue] at h
      injection h with h'
      exact ⟨o, rfl, h'⟩
  | ref lv => cases h
  | len lv => cases h
  | boxAlloc => cases h
  | cast o => cases h
  | unaryOp o => cases h
  | binaryOp a b => cases h
  | repeatOp o => cases h
  | aggregate ops => cases h
  | inlineAsm outs ins => cases h

theorem applyRepl_renumber_none {repls dead : List Nat} {idx : Nat}
    (rv : Rvalue) (s : Statement)
    (hinj : ∀ u v, u ∉ dead → v ∉ dead →
      repls.getD u u = repls.getD v v → u = v)
    (hidx : idx ∉ dead)
    (hlive : ∀ u, 0 < stmtTempCount u s → u ∉ dead)
    (h : applyRepl idx rv s = none) :
    applyRepl (repls.getD idx idx) (renumberRvalue repls rv)
      (renumberStatement repls s) = none := by
  have hliverhs : ∀ u, 0 < rvTempCount u s.rhs → u ∉ dead := by
    intro u hu
    apply hlive
    rw [stmtTempCount]
    omega
  cases rv
  case use_ op =>
    rw [applyRepl] at h
    rcases hs : substFirstOp idx op s.rhs with _ | rhs'
    · rw [renumberRvalue, applyRepl, renumberStatement]
      rw [substFirstOp_renumber_none op (renumberOperand repls op) s.rhs hinj
        hidx hliverhs hs]
      rfl
    · rw [hs] at h
      cases h
  all_goals (
    (rw [applyRepl] at h) <;> try (intro op hop; cases hop)
    by_cases hc : s.rhs = .use_ (.consume (.temp idx))
    · rw [if_pos hc] at h
      cases h
    · (rw [applyRepl]) <;> try (intro op hop; cases hop)
      rw [if_neg ?_]
      intro hcc
      rw [renumberStatement] at hcc
      obtain ⟨op0, hop0, hop0'⟩ := renumberRvalue_use_inv hcc
      cases op0 with
      | constant cst => rw [renumberOperand] at hop0'; cases hop0'
      | consume lv =>
          rw [renumberOperand] at hop0'
          injection hop0' with hlv
          obtain ⟨u, rfl, hu⟩ := renumberLvalue_temp_inv hlv
          have hul : u ∉ dead := by
            apply hliverhs
            rw [hop0]
            simp [rvTempCount, opTempCount, lvTempCount]
          have := hinj u idx hul hidx hu
          subst this
          exact hc hop0)

end RD

namespace RD

theorem armOf_renumber {uses uses' repls dead : List Nat} {s : Statement}
    (htrans : ∀ u, u ∉ dead → uses'.getD (repls.getD u u) 0 = uses.getD u 0)
    (hlive : ∀ u, 0 < stmtTempCount u s → u ∉ dead) :
    armOf uses' (renumberStatement repls s) =
      (armOf uses s).map
        (fun p => (repls.getD p.1 p.1, renumberRvalue repls p.2)) := by
  obtain ⟨lhs, rhs⟩ := s
  cases lhs with
  | temp j =>
      have hj : j ∉ dead := by
        apply hlive
        simp [stmtTempCount, lvTempCount]
      show armOf uses' ⟨.temp (repls.getD j j), renumberRvalue repls rhs⟩ = _
      simp only [armOf]
      rw [htrans j hj]
      by_cases hu : uses.getD j 0 = 2
      · rw [if_pos hu, if_pos hu]
        rfl
      · rw [if_neg hu, if_neg hu]
        rfl
  | var v => rfl
  | arg a => rfl
  | retPtr => rfl
  | proj base f => rfl

theorem updaterTerminator_ifT_inv {repls dead : List Nat}
    {term : TerminatorKind} {cond' : Operand} {tt ee : Nat}
    (h : updaterTerminator repls dead term = .ifT cond' tt ee) :
    ∃ cond, term = .ifT cond tt ee ∧
      cond' = renumberOperand repls cond := by
  cases term with
  | ifT cond t2 e2 =>
      replace h : TerminatorKind.ifT (renumberOperand repls cond) t2 e2 =
          .ifT cond' tt ee := h
      injection h with h1 h2 h3
      exact ⟨cond, by rw [h2, h3], h1.symm⟩
  | drop v tgt u =>
      cases v with
      | temp i =>
          replace h : renumberTerminatorKind repls
              (if i ∈ dead then .goto tgt else .drop (.temp i) tgt u) =
              .ifT cond' tt ee := h
          by_cases hd : i ∈ dead
          · rw [if_pos hd] at h
            cases h
          · rw [if_neg hd] at h
            cases h
      | var x => cases h
      | arg a => cases h
      | retPtr => cases h
      | proj base f => cases h
  | goto t2 => cases h
  | switch d ts => cases h
  | switchInt d ts => cases h
  | resume => cases h
  | ret => cases h
  | call f args dest cl => cases h

theorem updaterTerminator_call_inv {repls dead : List Nat}
    {term : TerminatorKind} {f' : Operand} {args' : List Operand}
    {dest' : Option (Lvalue × Nat)} {cl' : Option Nat}
    (h : updaterTerminator repls dead term = .call f' args' dest' cl') :
    ∃ f args dest cl, term = .call f args dest cl ∧
      f' = renumberOperand repls f := by
  cases term with
  | call f args dest cl =>
      replace h : TerminatorKind.call (renumberOperand repls f)
          (args.map (renumberOperand repls))
          (dest.map (fun du => (renumberLvalue repls du.1, du.2))) cl =
          .call f' args' dest' cl' := h
      injection h with h1 h2 h3 h4
      exact ⟨f, args, dest, cl, rfl, h1.symm⟩
  | drop v tgt u =>
      cases v with
      | temp i =>
          replace h : renumberTerminatorKind repls
              (if i ∈ dead then .goto tgt else .drop (.temp i) tgt u) =
              .call f' args' dest' cl' := h
          by_cases hd : i ∈ dead
          · rw [if_pos hd] at h
            cases h
          · rw [if_neg hd] at h
            cases h
      | var x => cases h
      | arg a => cases h
      | retPtr => cases h
      | proj base f => cases h
  | goto t2 => cases h
  | switch d ts => cases h
  | switchInt d ts => cases h
  | resume => cases h
  | ret => cases h
  | ifT cond t2 e2 => cases h

theorem cleanTerm_no_match (uses : List Nat) (out : List Statement) (c : Nat)
    (dead : List Nat) (term : TerminatorKind)
    (h1 : ∀ k oper cond tt ee,
      out.getLast?.bind (armOf uses) = some (k, .use_ oper) →
      term = .ifT cond tt ee → matchTempOp k cond = false)
    (h2 : ∀ k oper f args dest cl,
      out.getLast?.bind (armOf uses) = some (k, .use_ oper) →
      term = .call f args dest cl → matchTempOp k f = false) :
    cleanTerm uses out c dead term = (out, term, c, dead) := by
  rcases hGL : out.getLast?.bind (armOf uses) with _ | ⟨idx, rv⟩
  · simp only [cleanTerm, hGL]
  · cases rv
    case ref lv => simp only [cleanTerm, hGL]
    case len lv => simp only [cleanTerm, hGL]
    case boxAlloc => simp only [cleanTerm, hGL]
    case cast op => simp only [cleanTerm, hGL]
    case unaryOp op => simp only [cleanTerm, hGL]
    case binaryOp a b => simp only [cleanTerm, hGL]
    case repeatOp op => simp only [cleanTerm, hGL]
    case aggregate ops => simp only [cleanTerm, hGL]
    case inlineAsm outs ins => simp only [cleanTerm, hGL]
    case use_ oper =>
      cases term
      case goto tgt => simp only [cleanTerm, hGL]
      case switch discr ts => simp only [cleanTerm, hGL]
      case switchInt discr ts => simp only [cleanTerm, hGL]
      case resume => simp only [cleanTerm, hGL]
      case ret => simp only [cleanTerm, hGL]
      case drop v tgt u => simp only [cleanTerm, hGL]
      case ifT cond tt ee =>
        have hm := h1 idx oper cond tt ee hGL rfl
        simp only [cleanTerm, hGL, hm, Bool.false_eq_true, if_false]
      case call f args dest cl =>
        have hm := h2 idx oper f args dest cl hGL rfl
        simp only [cleanTerm, hGL, hm, Bool.false_eq_true, if_false]

end RD

namespace RD

theorem cleanFold_mirror {uses uses' repls dead : List Nat}
    (hinj : ∀ u v, u ∉ dead → v ∉ dead →
      repls.getD u u = repls.getD v v → u = v)
    (htrans : ∀ u, u ∉ dead → uses'.getD (repls.getD u u) 0 = uses.getD u 0) :
    ∀ (L out : List Statement) (c : Nat) (d d' : List Nat),
      (∀ s ∈ L, ∀ u, 0 < stmtTempCount u s → u ∉ dead) →
      (∀ s ∈ out, ∀ u, 0 < stmtTempCount u s → u ∉ dead) →
      L.foldl (cleanStep uses) (out, c, d) = (out ++ L, c, d) →
      (L.map (renumberStatement repls)).foldl (cleanStep uses')
          (out.map (renumberStatement repls), c, d') =
        ((out ++ L).map (renumberStatement repls), c, d') := by
  intro L
  induction L with
  | nil =>
      intro out c d d' _ _ _
      simp
  | cons s rest ih =>
      intro out c d d' hLlive houtlive hfold
      have hskip : ∀ idx rv, out.getLast?.bind (armOf uses) = some (idx, rv) →
          applyRepl idx rv s = none := by
        intro idx rv hGL
        rcases ha : applyRepl idx rv s with _ | s'
        · rfl
        · exfalso
          rw [List.foldl_cons,
            cleanStep_consume uses out c d s s' idx rv hGL ha] at hfold
          have hmono := cleanFold_c_mono uses rest (out.dropLast ++ [s'])
            (c + 1) (insertDead idx d)
          have hcc := congrArg (fun p => p.2.1) hfold
          simp only at hcc
          rw [hfold] at hmono
          simp only at hmono
          omega
      have hfold' : rest.foldl (cleanStep uses) ((out ++ [s]), c, d) =
          ((out ++ [s]) ++ rest, c, d) := by
        rw [List.foldl_cons, cleanStep_skip uses out c d s hskip] at hfold
        rw [← List.append_cons]
        exact hfold
      have hskip' : ∀ k rv',
          (out.map (renumberStatement repls)).getLast?.bind (armOf uses') =
            some (k, rv') →
          applyRepl k rv' (renumberStatement repls s) = none := by
        intro k rv' hGL'
        cases hlast : out.getLast? with
        | none =>
            have hout : out = [] := List.getLast?_eq_none_iff.mp hlast
            subst hout
            simp at hGL'
        | some sDef =>
            obtain ⟨o, rfl⟩ := List.getLast?_eq_some_iff.mp hlast
            have hsDeflive : ∀ u, 0 < stmtTempCount u sDef → u ∉ dead :=
              houtlive sDef (by simp)
            have hmapGL : ((o ++ [sDef]).map
                (renumberStatement repls)).getLast? =
                some (renumberStatement repls sDef) := by
              rw [List.map_append]
              exact List.getLast?_concat _
            rw [hmapGL] at hGL'
            replace hGL' : armOf uses' (renumberStatement repls sDef) =
                some (k, rv') := hGL'
            rw [armOf_renumber htrans hsDeflive] at hGL'
            rcases harm : armOf uses sDef with _ | ⟨idx, rvO⟩
            · rw [harm] at hGL'
              cases hGL'
            · rw [harm] at hGL'
              injection hGL' with hGL''
              injection hGL'' with hk hrv
              obtain ⟨hlhs, hrhs, hu2⟩ := armOf_eq_some harm
              have hidx : idx ∉ dead := by
                apply hsDeflive
                rw [stmtTempCount, hlhs]
                simp [lvTempCount]
              have happ : applyRepl idx rvO s = none := by
                apply hskip
                rw [List.getLast?_concat]
                exact harm
              have hslive : ∀ u, 0 < stmtTempCount u s → u ∉ dead :=
                hLlive s (by simp)
              rw [← hk, ← hrv]
              exact applyRepl_renumber_none rvO s hinj hidx hslive happ
      rw [List.map_cons, List.foldl_cons]
      rw [cleanStep_skip uses' (out.map (renumberStatement repls)) c d'
        (renumberStatement repls s) hskip']
      have hmap1 : (out.map (renumberStatement repls)) ++
          [renumberStatement repls s] =
          (out ++ [s]).map (renumberStatement repls) := by
        simp
      rw [hmap1]
      have ihr := ih (out ++ [s]) c d d'
        (fun s2 hs2 => hLlive s2 (by simp [hs2]))
        (fun s2 hs2 => by
          rcases List.mem_append.mp hs2 with h | h
          · exact houtlive s2 h
          · rcases List.mem_singleton.mp h with rfl
            exact hLlive s2 (by simp))
        hfold'
      rw [ihr]
      rw [← List.append_cons]

end RD

namespace RD

theorem promoteScan_mirror {uses uses' repls dead : List Nat}
    (hinj : ∀ u v, u ∉ dead → v ∉ dead →
      repls.getD u u = repls.getD v v → u = v)
    (htrans : ∀ u, u ∉ dead → uses'.getD (repls.getD u u) 0 = uses.getD u 0)
    (B : BasicBlockData) (d d' : List Nat)
    (hstmtlive : ∀ s ∈ B.statements, ∀ u, 0 < stmtTempCount u s → u ∉ dead)
    (htermlive : ∀ u, 0 < termTempCount u B.terminator → u ∉ dead)
    (hfix : promoteScan uses B d = (B, 0, d)) :
    promoteScan uses' (updaterBlock repls dead B) d' =
      (updaterBlock repls dead B, 0, d') := by
  obtain ⟨M1, M2⟩ := promoteScan_fix_fold uses B d hfix
  have hfoldid : B.statements.foldl (cleanStep uses) (([] : List Statement), 0, d) =
      (([] : List Statement) ++ B.statements, 0, d) := by
    rw [List.nil_append]
    exact M1
  have hmirror := cleanFold_mirror hinj htrans B.statements [] 0 d d'
    hstmtlive (by intro s hs; cases hs) hfoldid
  simp only [List.map_nil, List.nil_append] at hmirror
  have hback : ∀ k oper,
      ((B.statements.map (renumberStatement repls)).getLast?).bind
        (armOf uses') = some (k, .use_ oper) →
      ∃ idx opO, B.statements.getLast?.bind (armOf uses) =
          some (idx, .use_ opO) ∧
        k = repls.getD idx idx ∧ oper = renumberOperand repls opO ∧
        idx ∉ dead := by
    intro k oper hGL'
    cases hlast : B.statements.getLast? with
    | none =>
        have h0 : B.statements = [] := List.getLast?_eq_none_iff.mp hlast
        rw [h0] at hGL'
        simp at hGL'
    | some sDef =>
        obtain ⟨o, ho⟩ := List.getLast?_eq_some_iff.mp hlast
        have hsDeflive : ∀ u, 0 < stmtTempCount u sDef → u ∉ dead :=
          hstmtlive sDef (by rw [ho]; simp)
        have hmapGL : ((B.statements.map
            (renumberStatement repls)).getLast?) =
            some (renumberStatement repls sDef) := by
          rw [ho, List.map_append]
          exact List.getLast?_concat _
        rw [hmapGL] at hGL'
        replace hGL' : armOf uses' (renumberStatement repls sDef) =
            some (k, .use_ oper) := hGL'
        rw [armOf_renumber htrans hsDeflive] at hGL'
        rcases harm : armOf uses sDef with _ | ⟨idx, rvO⟩
        · rw [harm] at hGL'
          cases hGL'
        · rw [harm] at hGL'
          injection hGL' with hGL''
          injection hGL'' with hk hrv
          obtain ⟨opO, hop, hop'⟩ := renumberRvalue_use_inv hrv
          obtain ⟨hlhs, hrhs, hu2⟩ := armOf_eq_some harm
          have hidx : idx ∉ dead := by
            apply hsDeflive
            rw [stmtTempCount, hlhs]
            simp [lvTempCount]
          refine ⟨idx, opO, ?_, hk.symm, hop'.symm, hidx⟩
          show armOf uses sDef = _
          rw [harm]
          have hop2 : rvO = .use_ opO := hop
          rw [hop2]
  have hterm' := cleanTerm_no_match uses'
    (B.statements.map (renumberStatement repls)) 0 d'
    (updaterTerminator repls dead B.terminator)
    (by
      intro k oper cond' tt ee hGL' hT'
      obtain ⟨idx, opO, hGLo, hk, hoper, hidx⟩ := hback k oper hGL'
      obtain ⟨cond, hBterm, hcond'⟩ := updaterTerminator_ifT_inv hT'
      have hmfalse : matchTempOp idx cond = false := by
        cases hmm : matchTempOp idx cond with
        | false => rfl
        | true =>
            exfalso
            rw [hBterm] at M2
            simp only [cleanTerm, hGLo, hmm, if_true] at M2
            have h01 := congrArg (fun p => p.2.2.1) M2
            simp only at h01
            omega
      cases hmk : matchTempOp k cond' with
      | false => rfl
      | true =>
          exfalso
          rw [hk, hcond'] at hmk
          have hcondlive : ∀ u, 0 < opTempCount u cond → u ∉ dead := by
            intro u hu
            apply htermlive
            rw [hBterm]
            simp only [termTempCount]
            omega
          have := matchTempOp_renumber_back hinj hidx hcondlive hmk
          rw [this] at hmfalse
          cases hmfalse)
    (by
      intro k oper f args dest cl hGL' hT'
      obtain ⟨idx, opO, hGLo, hk, hoper, hidx⟩ := hback k oper hGL'
      obtain ⟨f0, args0, dest0, cl0, hBterm, hf'⟩ :=
        updaterTerminator_call_inv hT'
      have hmfalse : matchTempOp idx f0 = false := by
        cases hmm : matchTempOp idx f0 with
        | false => rfl
        | true =>
            exfalso
            rw [hBterm] at M2
            simp only [cleanTerm, hGLo, hmm, if_true] at M2
            have h01 := congrArg (fun p => p.2.2.1) M2
            simp only at h01
            omega
      cases hmk : matchTempOp k f with
      | false => rfl
      | true =>
          exfalso
          rw [hk, hf'] at hmk
          have hflive : ∀ u, 0 < opTempCount u f0 → u ∉ dead := by
            intro u hu
            apply htermlive
            rw [hBterm]
            simp only [termTempCount]
            omega
          have := matchTempOp_renumber_back hinj hidx hflive hmk
          rw [this] at hmfalse
          cases hmfalse)
  rw [promoteScan_eq_cleanScan]
  show (⟨(cleanTerm uses'
      ((updaterBlock repls dead B).statements.foldl (cleanStep uses')
        ([], 0, d')).1
      ((updaterBlock repls dead B).statements.foldl (cleanStep uses')
        ([], 0, d')).2.1
      ((updaterBlock repls dead B).statements.foldl (cleanStep uses')
        ([], 0, d')).2.2
      (updaterBlock repls dead B).terminator).1,
    (cleanTerm uses'
      ((updaterBlock repls dead B).statements.foldl (cleanStep uses')
        ([], 0, d')).1
      ((updaterBlock repls dead B).statements.foldl (cleanStep uses')
        ([], 0, d')).2.1
      ((updaterBlock repls dead B).statements.foldl (cleanStep uses')
        ([], 0, d')).2.2
      (updaterBlock repls dead B).terminator).2.1⟩,
    (cleanTerm uses'
      ((updaterBlock repls dead B).statements.foldl (cleanStep uses')
        ([], 0, d')).1
      ((updaterBlock repls dead B).statements.foldl (cleanStep uses')
        ([], 0, d')).2.1
      ((updaterBlock repls dead B).statements.foldl (cleanStep uses')
        ([], 0, d')).2.2
      (updaterBlock repls dead B).terminator).2.2.1,
    (cleanTerm uses'
      ((updaterBlock repls dead B).statements.foldl (cleanStep uses')
        ([], 0, d')).1
      ((updaterBlock repls dead B).statements.foldl (cleanStep uses')
        ([], 0, d')).2.1
      ((updaterBlock repls dead B).statements.foldl (cleanStep uses')
        ([], 0, d')).2.2
      (updaterBlock repls dead B).terminator).2.2.2) =
    (updaterBlock repls dead B, 0, d')
  have hstmts : (updaterBlock repls dead B).statements =
      B.statements.map (renumberStatement repls) := rfl
  have htermB : (updaterBlock repls dead B).terminator =
      updaterTerminator repls dead B.terminator := rfl
  rw [hstmts, htermB, hmirror, hterm']
  rfl

end RD

namespace RD

theorem lvTempCount_renumber {repls dead : List Nat} {t : Nat}
    (hinj : ∀ u v, u ∉ dead → v ∉ dead →
      repls.getD u u = repls.getD v v → u = v)
    (ht : t ∉ dead) :
    ∀ (lv : Lvalue), (∀ u, 0 < lvTempCount u lv → u ∉ dead) →
      lvTempCount (repls.getD t t) (renumberLvalue repls lv) =
        lvTempCount t lv := by
  intro lv
  induction lv with
  | temp n =>
      intro hlive
      have hn : n ∉ dead := hlive n (by simp [lvTempCount])
      show (if repls.getD n n = repls.getD t t then 1 else 0) =
        (if n = t then 1 else 0)
      by_cases he : n = t
      · subst he
        rw [if_pos rfl, if_pos rfl]
      · rw [if_neg (fun hc => he (hinj n t hn ht hc)), if_neg he]
  | var v => intro _; rfl
  | arg a => intro _; rfl
  | retPtr => intro _; rfl
  | proj base f ih =>
      intro hlive
      show lvTempCount (repls.getD t t) (renumberLvalue repls base) =
        lvTempCount t base
      exact ih (fun u hu => hlive u hu)

theorem opTempCount_renumber {repls dead : List Nat} {t : Nat}
    (hinj : ∀ u v, u ∉ dead → v ∉ dead →
      repls.getD u u = repls.getD v v → u = v)
    (ht : t ∉ dead) :
    ∀ (o : Operand), (∀ u, 0 < opTempCount u o → u ∉ dead) →
      opTempCount (repls.getD t t) (renumberOperand repls o) =
        opTempCount t o := by
  intro o hlive
  cases o with
  | constant c => rfl
  | consume lv =>
      show lvTempCount (repls.getD t t) (renumberLvalue repls lv) =
        lvTempCount t lv
      exact lvTempCount_renumber hinj ht lv (fun u hu => hlive u hu)

theorem opsSum_renumber {repls dead : List Nat} {t : Nat}
    (hinj : ∀ u v, u ∉ dead → v ∉ dead →
      repls.getD u u = repls.getD v v → u = v)
    (ht : t ∉ dead) :
    ∀ (l : List Operand),
      (∀ u, 0 < (l.map (opTempCount u)).sum → u ∉ dead) →
      ((l.map (renumberOperand repls)).map
        (opTempCount (repls.getD t t))).sum =
        (l.map (opTempCount t)).sum := by
  intro l
  induction l with
  | nil => intro _; rfl
  | cons o rest ih =>
      intro hlive
      simp only [List.map_cons, List.sum_cons]
      rw [opTempCount_renumber hinj ht o (fun u hu => hlive u (by
          simp only [List.map_cons, List.sum_cons]
          omega)),
        ih (fun u hu => hlive u (by
          simp only [List.map_cons, List.sum_cons]
          omega))]

theorem lvsSum_renumber {repls dead : List Nat} {t : Nat}
    (hinj : ∀ u v, u ∉ dead → v ∉ dead →
      repls.getD u u = repls.getD v v → u = v)
    (ht : t ∉ dead) :
    ∀ (l : List Lvalue),
      (∀ u, 0 < (l.map (lvTempCount u)).sum → u ∉ dead) →
      ((l.map (renumberLvalue repls)).map
        (lvTempCount (repls.getD t t))).sum =
        (l.map (lvTempCount t)).sum := by
  intro l
  induction l with
  | nil => intro _; rfl
  | cons lv rest ih =>
      intro hlive
      simp only [List.map_cons, List.sum_cons]
      rw [lvTempCount_renumber hinj ht lv (fun u hu => hlive u (by
          simp only [List.map_cons, List.sum_cons]
          omega)),
        ih (fun u hu => hlive u (by
          simp only [List.map_cons, List.sum_cons]
          omega))]

theorem rvTempCount_renumber {repls dead : List Nat} {t : Nat}
    (hinj : ∀ u v, u ∉ dead → v ∉ dead →
      repls.getD u u = repls.getD v v → u = v)
    (ht : t ∉ dead) :
    ∀ (rv : Rvalue), (∀ u, 0 < rvTempCount u rv → u ∉ dead) →
      rvTempCount (repls.getD t t) (renumberRvalue repls rv) =
        rvTempCount t rv := by
  intro rv hlive
  cases rv with
  | use_ o =>
      show opTempCount _ (renumberOperand repls o) = _
      exact opTempCount_renumber hinj ht o (fun u hu => hlive u hu)
  | ref lv =>
      show lvTempCount _ (renumberLvalue repls lv) = _
      exact lvTempCount_renumber hinj ht lv (fun u hu => hlive u hu)
  | len lv =>
      show lvTempCount _ (renumberLvalue repls lv) = _
      exact lvTempCount_renumber hinj ht lv (fun u hu => hlive u hu)
  | boxAlloc => rfl
  | cast o =>
      show opTempCount _ (renumberOperand repls o) = _
      exact opTempCount_renumber hinj ht o (fun u hu => hlive u hu)
  | unaryOp o =>
      show opTempCount _ (renumberOperand repls o) = _
      exact opTempCount_renumber hinj ht o (fun u hu => hlive u hu)
  | repeatOp o =>
      show opTempCount _ (renumberOperand repls o) = _
      exact opTempCount_renumber hinj ht o (fun u hu => hlive u hu)
  | binaryOp a b =>
      show opTempCount _ (renumberOperand repls a) +
        opTempCount _ (renumberOperand repls b) = _
      rw [opTempCount_renumber hinj ht a (fun u hu => hlive u (by
          simp only [rvTempCount]
          omega)),
        opTempCount_renumber hinj ht b (fun u hu => hlive u (by
          simp only [rvTempCount]
          omega))]
      rfl
  | aggregate ops =>
      show ((ops.map (renumberOperand repls)).map (opTempCount _)).sum = _
      exact opsSum_renumber hinj ht ops (fun u hu => hlive u (by
        simpa [rvTempCount] using hu))
  | inlineAsm outs ins =>
      show ((outs.map (renumberLvalue repls)).map (lvTempCount _)).sum +
        ((ins.map (renumberOperand repls)).map (opTempCount _)).sum = _
      rw [lvsSum_renumber hinj ht outs (fun u hu => hlive u (by
          simp only [rvTempCount]
          omega)),
        opsSum_renumber hinj ht ins (fun u hu => hlive u (by
          simp only [rvTempCount]
          omega))]
      rfl

theorem stmtTempCount_renumber {repls dead : List Nat} {t : Nat}
    (hinj : ∀ u v, u ∉ dead → v ∉ dead →
      repls.getD u u = repls.getD v v → u = v)
    (ht : t ∉ dead) (s : Statement)
    (hlive : ∀ u, 0 < stmtTempCount u s → u ∉ dead) :
    stmtTempCount (repls.getD t t) (renumberStatement repls s) =
      stmtTempCount t s := by
  show lvTempCount _ (renumberLvalue repls s.lhs) +
    rvTempCount _ (renumberRvalue repls s.rhs) = _
  rw [lvTempCount_renumber hinj ht s.lhs (fun u hu => hlive u (by
      rw [stmtTempCount]
      omega)),
    rvTempCount_renumber hinj ht s.rhs (fun u hu => hlive u (by
      rw [stmtTempCount]
      omega))]
  rfl

theorem termTempCount_updater {repls dead : List Nat} {t : Nat}
    (hinj : ∀ u v, u ∉ dead → v ∉ dead →
      repls.getD u u = repls.getD v v → u = v)
    (ht : t ∉ dead) (term : TerminatorKind)
    (hlive : ∀ u, 0 < termTempCount u term → u ∉ dead) :
    termTempCount (repls.getD t t) (updaterTerminator repls dead term) =
      termTempCount t term := by
  cases term with
  | goto tgt => rfl
  | resume => rfl
  | ret => rfl
  | ifT cond tt ee =>
      show opTempCount _ (renumberOperand repls cond) = _
      exact opTempCount_renumber hinj ht cond (fun u hu => hlive u hu)
  | switch discr ts =>
      show lvTempCount _ (renumberLvalue repls discr) = _
      exact lvTempCount_renumber hinj ht discr (fun u hu => hlive u hu)
  | switchInt discr ts =>
      show lvTempCount _ (renumberLvalue repls discr) = _
      exact lvTempCount_renumber hinj ht discr (fun u hu => hlive u hu)
  | drop v tgt u =>
      cases v with
      | temp i =>
          show termTempCount (repls.getD t t) (renumberTerminatorKind repls
            (if i ∈ dead then .goto tgt else .drop (.temp i) tgt u)) = 0
          by_cases hd : i ∈ dead
          · rw [if_pos hd]
            rfl
          · rw [if_neg hd]
            rfl
      | var x => rfl
      | arg a => rfl
      | retPtr => rfl
      | proj base f => rfl
  | call f args dest cl =>
      show opTempCount _ (renumberOperand repls f) +
        ((args.map (renumberOperand repls)).map (opTempCount _)).sum +
        (match dest.map (fun du => (renumberLvalue repls du.1, du.2)) with
          | some (d2, _) => lvTempCount (repls.getD t t) d2
          | none => 0) = _
      rw [opTempCount_renumber hinj ht f (fun u hu => hlive u (by
          simp only [termTempCount]
          omega)),
        opsSum_renumber hinj ht args (fun u hu => hlive u (by
          simp only [termTempCount]
          omega))]
      cases dest with
      | none => rfl
      | some du =>
          rcases du with ⟨d1, d2⟩
          show _ + lvTempCount (repls.getD t t) (renumberLvalue repls d1) =
            _ + lvTempCount t d1
          rw [lvTempCount_renumber hinj ht d1 (fun u hu => hlive u (by
            simp only [termTempCount]
            omega))]

end RD

namespace RD

theorem stmt_le_block (u : Nat) (s : Statement) (bb : BasicBlockData)
    (h : s ∈ bb.statements) : stmtTempCount u s ≤ blockTempCount u bb := by
  rw [blockTempCount]
  have hle : stmtTempCount u s ≤ (bb.statements.map (stmtTempCount u)).sum :=
    List.single_le_sum (fun _ _ => Nat.zero_le _) _
      (List.mem_map_of_mem _ h)
  omega

theorem term_le_block (u : Nat) (bb : BasicBlockData) :
    termTempCount u bb.terminator ≤ blockTempCount u bb := by
  rw [blockTempCount]
  omega

theorem block_le_mir (u : Nat) (bb : BasicBlockData) (m : Mir)
    (h : bb ∈ m.basicBlocks) : blockTempCount u bb ≤ mirTempCount u m := by
  rw [mirTempCount]
  exact List.single_le_sum (fun _ _ => Nat.zero_le _) _
    (List.mem_map_of_mem _ h)

theorem stmtsSum_renumber {repls dead : List Nat} {t : Nat}
    (hinj : ∀ u v, u ∉ dead → v ∉ dead →
      repls.getD u u = repls.getD v v → u = v)
    (ht : t ∉ dead) :
    ∀ (l : List Statement),
      (∀ s ∈ l, ∀ u, 0 < stmtTempCount u s → u ∉ dead) →
      ((l.map (renumberStatement repls)).map
        (stmtTempCount (repls.getD t t))).sum =
        (l.map (stmtTempCount t)).sum := by
  intro l
  induction l with
  | nil => intro _; rfl
  | cons s rest ih =>
      intro hlive
      simp only [List.map_cons, List.sum_cons]
      rw [stmtTempCount_renumber hinj ht s (hlive s (by simp)),
        ih (fun s2 hs2 => hlive s2 (by simp [hs2]))]

theorem blockTempCount_updater {repls dead : List Nat} {t : Nat}
    (hinj : ∀ u v, u ∉ dead → v ∉ dead →
      repls.getD u u = repls.getD v v → u = v)
    (ht : t ∉ dead) (bb : BasicBlockData)
    (hstmt : ∀ s ∈ bb.statements, ∀ u, 0 < stmtTempCount u s → u ∉ dead)
    (hterm : ∀ u, 0 < termTempCount u bb.terminator → u ∉ dead) :
    blockTempCount (repls.getD t t) (updaterBlock repls dead bb) =
      blockTempCount t bb := by
  show ((bb.statements.map (renumberStatement repls)).map
      (stmtTempCount (repls.getD t t))).sum +
    termTempCount (repls.getD t t)
      (updaterTerminator repls dead bb.terminator) =
    (bb.statements.map (stmtTempCount t)).sum +
      termTempCount t bb.terminator
  rw [stmtsSum_renumber hinj ht bb.statements hstmt,
    termTempCount_updater hinj ht bb.terminator hterm]

theorem mirTempCount_updater {repls dead : List Nat} {t : Nat}
    (hinj : ∀ u v, u ∉ dead → v ∉ dead →
      repls.getD u u = repls.getD v v → u = v)
    (ht : t ∉ dead) (P : Mir) (decls2 : List Nat)
    (hdead0 : ∀ u, u ∈ dead → mirTempCount u P = 0) :
    mirTempCount (repls.getD t t)
      ⟨decls2, P.basicBlocks.map (updaterBlock repls dead)⟩ =
      mirTempCount t P := by
  rw [mirTempCount, mirTempCount]
  show ((P.basicBlocks.map (updaterBlock repls dead)).map
    (blockTempCount (repls.getD t t))).sum = _
  have : ∀ (bbs : List BasicBlockData),
      (∀ bb ∈ bbs, bb ∈ P.basicBlocks) →
      ((bbs.map (updaterBlock repls dead)).map
        (blockTempCount (repls.getD t t))).sum =
        (bbs.map (blockTempCount t)).sum := by
    intro bbs
    induction bbs with
    | nil => intro _; rfl
    | cons bb rest ih =>
        intro hsub
        simp only [List.map_cons, List.sum_cons]
        have hbbmem : bb ∈ P.basicBlocks := hsub bb (by simp)
        rw [blockTempCount_updater hinj ht bb
            (by
              intro s hs u hu hd
              have h0 := hdead0 u hd
              have h1 := stmt_le_block u s bb hs
              have h2 := block_le_mir u bb P hbbmem
              omega)
            (by
              intro u hu hd
              have h0 := hdead0 u hd
              have h1 := term_le_block u bb
              have h2 := block_le_mir u bb P hbbmem
              omega),
          ih (fun b2 hb2 => hsub b2 (by simp [hb2]))]
  exact this P.basicBlocks (fun _ h => h)

end RD

namespace RD

theorem renumberLvalue_id {repls : List Nat}
    (hid : ∀ j, repls.getD j j = j) : ∀ lv, renumberLvalue repls lv = lv := by
  intro lv
  induction lv with
  | temp n => rw [renumberLvalue, hid]
  | var v => rfl
  | arg a => rfl
  | retPtr => rfl
  | proj base f ih => rw [renumberLvalue, ih]

theorem renumberOperand_id {repls : List Nat}
    (hid : ∀ j, repls.getD j j = j) : ∀ o, renumberOperand repls o = o := by
  intro o
  cases o with
  | consume lv => rw [renumberOperand, renumberLvalue_id hid]
  | constant c => rfl

theorem renumberRvalue_id {repls : List Nat}
    (hid : ∀ j, repls.getD j j = j) : ∀ rv, renumberRvalue repls rv = rv := by
  intro rv
  cases rv with
  | use_ o => rw [renumberRvalue, renumberOperand_id hid]
  | ref lv => rw [renumberRvalue, renumberLvalue_id hid]
  | len lv => rw [renumberRvalue, renumberLvalue_id hid]
  | boxAlloc => rfl
  | cast o => rw [renumberRvalue, renumberOperand_id hid]
  | unaryOp o => rw [renumberRvalue, renumberOperand_id hid]
  | repeatOp o => rw [renumberRvalue, renumberOperand_id hid]
  | binaryOp a b =>
      rw [renumberRvalue, renumberOperand_id hid, renumberOperand_id hid]
  | aggregate ops =>
      rw [renumberRvalue]
      rw [show ops.map (renumberOperand repls) = ops from
        (List.map_congr_left (fun o _ => renumberOperand_id hid o)).trans
          (List.map_id ops)]
  | inlineAsm outs ins =>
      rw [renumberRvalue]
      rw [show outs.map (renumberLvalue repls) = outs from
        (List.map_congr_left (fun o _ => renumberLvalue_id hid o)).trans
          (List.map_id outs)]
      rw [show ins.map (renumberOperand repls) = ins from
        (List.map_congr_left (fun o _ => renumberOperand_id hid o)).trans
          (List.map_id ins)]

theorem renumberStatement_id {repls : List Nat}
    (hid : ∀ j, repls.getD j j = j) (s : Statement) :
    renumberStatement repls s = s := by
  rw [renumberStatement, renumberLvalue_id hid, renumberRvalue_id hid]

theorem updaterTerminator_nil_id {repls : List Nat}
    (hid : ∀ j, repls.getD j j = j) (term : TerminatorKind) :
    updaterTerminator repls [] term = term := by
  have hren : renumberTerminatorKind repls term = term := by
    cases term with
    | goto tgt => rfl
    | resume => rfl
    | ret => rfl
    | ifT cond tt ee => rw [renumberTerminatorKind, renumberOperand_id hid]
    | switch discr ts => rw [renumberTerminatorKind, renumberLvalue_id hid]
    | switchInt discr ts => rw [renumberTerminatorKind, renumberLvalue_id hid]
    | drop v tgt u => rw [renumberTerminatorKind, renumberLvalue_id hid]
    | call f args dest cl =>
        rw [renumberTerminatorKind, renumberOperand_id hid]
        rw [show args.map (renumberOperand repls) = args from
          (List.map_congr_left (fun o _ => renumberOperand_id hid o)).trans
            (List.map_id args)]
        rw [show dest.map (fun du => (renumberLvalue repls du.1, du.2)) =
            dest from ?_]
        cases dest with
        | none => rfl
        | some du =>
            rw [Option.map_some']
            rw [renumberLvalue_id hid]
  cases term with
  | drop v tgt u =>
      cases v with
      | temp i =>
          show renumberTerminatorKind repls
            (if i ∈ ([] : List Nat) then .goto tgt else .drop (.temp i) tgt u)
            = _
          rw [if_neg (List.not_mem_nil i)]
          exact hren
      | var x => exact hren
      | arg a => exact hren
      | retPtr => exact hren
      | proj base f => exact hren
  | goto tgt => exact hren
  | resume => exact hren
  | ret => exact hren
  | ifT cond tt ee => exact hren
  | switch discr ts => exact hren
  | switchInt discr ts => exact hren
  | call f args dest cl => exact hren

theorem updaterBlock_nil_id {repls : List Nat}
    (hid : ∀ j, repls.getD j j = j) (bb : BasicBlockData) :
    updaterBlock repls [] bb = bb := by
  rw [updaterBlock, updaterTerminator_nil_id hid]
  rw [show bb.statements.map (renumberStatement repls) = bb.statements from
    (List.map_congr_left (fun s _ => renumberStatement_id hid s)).trans
      (List.map_id bb.statements)]

end RD

namespace RD

theorem promoteBlock_fix (uses : List Nat) (bb : BasicBlockData)
    (dead : List Nat) (h : promoteScan uses bb dead = (bb, 0, dead)) :
    promoteBlock uses bb dead = (bb, dead) := by
  rw [promoteBlock, promoteBlockLoop, h]
  simp

theorem promoterFold_id (uses : List Nat) :
    ∀ (bbs acc : List BasicBlockData) (dIn : List Nat),
      (∀ bb ∈ bbs, ∀ d, promoteScan uses bb d = (bb, 0, d)) →
      bbs.foldl
        (fun st bb =>
          let (bb', dead') := promoteBlock uses bb st.2
          (st.1 ++ [bb'], dead'))
        (acc, dIn) = (acc ++ bbs, dIn) := by
  intro bbs
  induction bbs with
  | nil => intro acc dIn _; simp
  | cons bb rest ih =>
      intro acc dIn hfix
      rw [List.foldl_cons]
      have hpb := promoteBlock_fix uses bb dIn (hfix bb (by simp) dIn)
      simp only [hpb]
      rw [ih (acc ++ [bb]) dIn (fun b2 hb2 d => hfix b2 (by simp [hb2]) d)]
      rw [← List.append_cons]

theorem aliveRank_nil (i : Nat) : aliveRank [] i = i := by
  rw [aliveRank]
  rw [show (List.range i).filter (fun j => decide (j ∉ ([] : List Nat))) =
    List.range i from List.filter_eq_self.mpr (fun a _ => by simp)]
  exact List.length_range i

theorem map_getD_range (l : List Nat) :
    (List.range l.length).map (fun j => l.getD j 0) = l := by
  apply List.ext_getElem?
  intro n
  rw [List.getElem?_map]
  rcases Nat.lt_or_ge n l.length with h | h
  · rw [List.getElem?_range h, List.getElem?_eq_getElem h]
    simp [List.getD_eq_getElem?_getD, List.getElem?_eq_getElem h]
  · rw [List.getElem?_eq_none (by rwa [List.length_range]),
      List.getElem?_eq_none h]
    rfl

theorem filter_nil_dead (n : Nat) :
    (List.range n).filter (fun j => decide (j ∉ ([] : List Nat))) =
      List.range n :=
  List.filter_eq_self.mpr (fun a _ => by simp)

end RD

namespace RD

theorem tmpForward_fix (M : Mir)
    (hfixall : ∀ bb ∈ M.basicBlocks, ∀ d,
      promoteScan (collectTempUses M) bb d = (bb, 0, d)) :
    tmpForward M = M := by
  have hfold := promoterFold_id (collectTempUses M) M.basicBlocks [] [] hfixall
  have hrun2 : promoterRun (collectTempUses M) M = (M, []) := by
    simp only [promoterRun, hfold, List.nil_append]
  obtain ⟨rN, dN, hceq, hrlen, hrget, hdlen, hdtake⟩ :=
    compactTempDecls_spec M.tempDecls []
  have hid : ∀ j, rN.getD j j = j := by
    intro j
    rw [hrget j]
    by_cases hj : j < M.tempDecls.length
    · rw [if_pos ⟨hj, by simp⟩]
      exact aliveRank_nil j
    · rw [if_neg (by tauto)]
  have hdtake' : dN.take (aliveRank [] M.tempDecls.length) = M.tempDecls := by
    rw [hdtake, filter_nil_dead, map_getD_range]
  simp only [tmpForward, hrun2, hceq]
  rw [hdtake']
  rw [show M.basicBlocks.map (updaterBlock rN []) = M.basicBlocks from
    (List.map_congr_left (fun bb _ => updaterBlock_nil_id hid bb)).trans
      (List.map_id _)]

end RD

namespace RD

theorem tmpForward_scan_fix (m : Mir) :
    ∀ bb2 ∈ (tmpForward m).basicBlocks, ∀ d,
      promoteScan (collectTempUses (tmpForward m)) bb2 d = (bb2, 0, d) := by
  rcases hrun : promoterRun (collectTempUses m) m with ⟨P, dead⟩
  have hPdecls : P.tempDecls = m.tempDecls := by
    have h := promoterRun_tempDecls (collectTempUses m) m
    rw [hrun] at h
    exact h
  obtain ⟨r2, d2, hceq, hr2len, hr2get, hd2len, hd2take⟩ :=
    compactTempDecls_spec m.tempDecls dead
  have hM : tmpForward m =
      ⟨d2.take (aliveRank dead m.tempDecls.length),
        P.basicBlocks.map (updaterBlock r2 dead)⟩ := by
    simp only [tmpForward, hrun, hPdecls, hceq]
  have hdead := promoterRun_dead_counts m
  simp only [hrun] at hdead
  obtain ⟨hdeadf, hlivef⟩ := hdead
  have hdead0 : ∀ u, u ∈ dead → mirTempCount u P = 0 :=
    fun u hu => (hdeadf u hu).1
  have hinj : ∀ u v, u ∉ dead → v ∉ dead →
      r2.getD u u = r2.getD v v → u = v := by
    intro u v hu hv heq
    rw [hr2get u, hr2get v] at heq
    by_cases hun : u < m.tempDecls.length <;>
      by_cases hvn : v < m.tempDecls.length
    · rw [if_pos ⟨hun, hu⟩, if_pos ⟨hvn, hv⟩] at heq
      by_contra hne
      rcases Nat.lt_or_ge u v with h | h
      · exact absurd heq (Nat.ne_of_lt (aliveRank_lt_of_alive dead h hu))
      · have h' : v < u := by omega
        exact absurd heq.symm
          (Nat.ne_of_lt (aliveRank_lt_of_alive dead h' hv))
    · rw [if_pos ⟨hun, hu⟩, if_neg (by tauto)] at heq
      have h1 : aliveRank dead u < aliveRank dead m.tempDecls.length :=
        aliveRank_lt_of_alive dead hun hu
      have h2 : aliveRank dead m.tempDecls.length ≤ m.tempDecls.length :=
        aliveRank_le dead m.tempDecls.length
      omega
    · rw [if_neg (by tauto), if_pos ⟨hvn, hv⟩] at heq
      have h1 : aliveRank dead v < aliveRank dead m.tempDecls.length :=
        aliveRank_lt_of_alive dead hvn hv
      have h2 : aliveRank dead m.tempDecls.length ≤ m.tempDecls.length :=
        aliveRank_le dead m.tempDecls.length
      omega
    · rw [if_neg (by tauto), if_neg (by tauto)] at heq
      exact heq
  have hMTlen : (Mir.mk
      (d2.take (aliveRank dead m.tempDecls.length))
      (P.basicBlocks.map (updaterBlock r2 dead))).tempDecls.length =
      aliveRank dead m.tempDecls.length := by
    show (d2.take (aliveRank dead m.tempDecls.length)).length = _
    rw [List.length_take, hd2len]
    have := aliveRank_le dead m.tempDecls.length
    omega
  have htrans : ∀ u, u ∉ dead →
      (collectTempUses
          (Mir.mk (d2.take (aliveRank dead m.tempDecls.length))
            (P.basicBlocks.map (updaterBlock r2 dead)))).getD
        (r2.getD u u) 0 =
      (collectTempUses m).getD u 0 := by
    intro u hu
    rw [collectTempUses_getD, collectTempUses_getD, hMTlen]
    by_cases hun : u < m.tempDecls.length
    · have hru : r2.getD u u = aliveRank dead u := by
        rw [hr2get u, if_pos ⟨hun, hu⟩]
      have hcond : r2.getD u u < aliveRank dead m.tempDecls.length := by
        rw [hru]
        exact aliveRank_lt_of_alive dead hun hu
      rw [if_pos hcond, if_pos hun,
        mirTempCount_updater hinj hu P _ hdead0, hlivef u hu]
    · have hru : r2.getD u u = u := by
        rw [hr2get u, if_neg (by tauto)]
      have h2 : aliveRank dead m.tempDecls.length ≤ m.tempDecls.length :=
        aliveRank_le dead m.tempDecls.length
      rw [if_neg (by omega), if_neg hun]
  have hblive : ∀ bb ∈ P.basicBlocks,
      (∀ s ∈ bb.statements, ∀ u, 0 < stmtTempCount u s → u ∉ dead) ∧
      (∀ u, 0 < termTempCount u bb.terminator → u ∉ dead) := by
    intro bb hbb
    constructor
    · intro s hs u hu hd
      have h0 := hdead0 u hd
      have h1 := stmt_le_block u s bb hs
      have h2 := block_le_mir u bb P hbb
      omega
    · intro u hu hd
      have h0 := hdead0 u hd
      have h1 := term_le_block u bb
      have h2 := block_le_mir u bb P hbb
      omega
  obtain ⟨consumed, hc1, hc2, hc3, hfix4⟩ :=
    promoterRun_spec (collectTempUses m) m
  simp only [hrun] at hfix4
  intro bb2 hbb2 d
  rw [hM] at hbb2 ⊢
  simp only [List.mem_map] at hbb2
  obtain ⟨bb, hbb, rfl⟩ := hbb2
  obtain ⟨d0, hfix⟩ := hfix4 bb hbb
  exact promoteScan_mirror hinj htrans bb d0 d
    (hblive bb hbb).1 (hblive bb hbb).2 hfix

theorem tmpForward_idem (m : Mir) :
    tmpForward (tmpForward m) = tmpForward m :=
  tmpForward_fix (tmpForward m) (tmpForward_scan_fix m)

end RD

/-- **C8 amended**: Drop-Elision (`removeDrops`) and Temporary-Forwarding
(`tmpForward`) are idempotent — a second run of either pass returns its
input unchanged.  But Copy-Propagation is *not*: because the def-use
analysis is built once and left stale across rewrites, a second run of
`copyPropagation` can still change the body (witness: the constant chain
`tmp0 = const 7; tmp1 = Copy(tmp0); r = Copy(tmp1)`, where run one
propagates the constant only into `tmp1`'s definition and run two, seeing
fresh counts, propagates further).  So the claim's "each of the three
passes is idempotent" fails for Copy-Propagation. -/
theorem pass_idempotence_status :
    (∀ m : RD.Mir, RD.removeDrops (RD.removeDrops m) = RD.removeDrops m) ∧
    (∀ m : RD.Mir, RD.tmpForward (RD.tmpForward m) = RD.tmpForward m) ∧
    ¬ (∀ m : CP.Mir,
        CP.copyPropagation (CP.copyPropagation m) = CP.copyPropagation m) := by
  refine ⟨RD.removeDrops_idem, RD.tmpForward_idem, fun h => ?_⟩
  exact absurd (h CP.constChainBody) (by decide)

/-- **C10 amended**: the Promoter's in-place index loop is exactly the
clean accumulation scan (`cleanScan`): kept statements accumulate in
order, and forwarding happens only when the consumer is the statement
*immediately after* the pending definition (the last kept statement) —
producing exactly the claim's effect in the adjacent case: the defining
statement of a count-2 temp is removed, the substituted consumer takes
its position, the slot is marked dead, and all other statements keep
their relative order.  The original claim's unconditional "for every
count-2 temp" fails when any statement intervenes between definition and
consumer (`tmp_forward_nonadjacent_counterexample`). -/
theorem tmp_forward_adjacent_forwarding :
    (∀ (uses : List Nat) (bb : RD.BasicBlockData) (dead : List Nat),
      RD.promoteScan uses bb dead = RD.cleanScan uses bb dead) ∧
    (∀ (uses : List Nat) (out : List RD.Statement) (c : Nat)
        (dead : List Nat) (sDef sUse sUse' : RD.Statement) (t : Nat),
      sDef.lhs = .temp t →
      uses.getD t 0 = 2 →
      RD.applyRepl t sDef.rhs sUse = some sUse' →
      RD.cleanStep uses (out ++ [sDef], c, dead) sUse =
        (out ++ [sUse'], c + 1, RD.insertDead t dead)) := by
  refine ⟨RD.promoteScan_eq_cleanScan, ?_⟩
  intro uses out c dead sDef sUse sUse' t hlhs hu ha
  have hlast : (out ++ [sDef]).getLast?.bind (RD.armOf uses) =
      some (t, sDef.rhs) := by
    rw [List.getLast?_concat]
    show RD.armOf uses sDef = some (t, sDef.rhs)
    simp only [RD.armOf, hlhs, hu]
    rfl
  have hstep := RD.cleanStep_consume uses (out ++ [sDef]) c dead sUse sUse'
    t sDef.rhs hlast ha
  rw [hstep, List.dropLast_concat]

/-- Witness for `tmp_forward_adjacent_forwarding`: on the one-definition
one-consumer pair `tmp0 = const 5; var0 = Copy(tmp0)` with `tmp0` counted
twice, the clean step retracts the definition and appends the substituted
consumer `var0 = const 5`, marking `tmp0` dead. -/
theorem tmp_forward_adjacent_forwarding_witness :
    RD.cleanStep [2]
        (([] : List RD.Statement) ++ [⟨.temp 0, .use_ (.constant 5)⟩], 0, [])
        ⟨.var 0, .use_ (.consume (.temp 0))⟩ =
      (([] : List RD.Statement) ++ [⟨.var 0, .use_ (.constant 5)⟩], 0 + 1,
        RD.insertDead 0 []) :=
  tmp_forward_adjacent_forwarding.2 [2] [] 0 []
    ⟨.temp 0, .use_ (.constant 5)⟩ ⟨.var 0, .use_ (.consume (.temp 0))⟩
    ⟨.var 0, .use_ (.constant 5)⟩ 0 rfl rfl rfl
